import Mathlib

/-!
Verification of the UCP schema resolver (`src/resolver.rs`).

The resolver rewrites a JSON value: it interprets `ucp_request` / `ucp_response`
visibility annotations for a `(direction, operation)` pair, propagates
annotations across `allOf` branches, enforces a monotonicity rule, and
optionally closes object schemas in strict mode.

JSON objects are modelled as insertion-ordered association lists, matching the
`serde_json::Map` type with the `preserve_order` feature that the spec's data
model describes (an ordered map; keys are unique).  Numbers are modelled as
`Int`: no arithmetic on numbers occurs anywhere in the resolver, so the exact
number representation is irrelevant to every claim.

Recursion in the Rust code is unbounded; here the single recursive knot
(`resolve_value`) is indexed by fuel, and "resolve succeeds" is always taken
relative to an arbitrary fuel amount.  All other functions are structural.
-/

namespace UcpSchema

/-- JSON value tree: primitives, arrays, and insertion-ordered objects. -/
inductive Json where
  | null : Json
  | bool (b : Bool) : Json
  | num (n : Int) : Json
  | str (s : String) : Json
  | arr (elems : List Json) : Json
  | obj (entries : List (String × Json)) : Json
deriving Repr

/-- First-match association lookup, as `serde_json::Map::get`. -/
def jfind : List (String × Json) → String → Option Json
  | [], _ => none
  | kv :: rest, key => if kv.1 = key then some kv.2 else jfind rest key

/-- `serde_json::Map::insert` with `preserve_order`: replace the value in place
when the key exists, otherwise append at the end. -/
def jinsert : List (String × Json) → String → Json → List (String × Json)
  | [], key, val => [(key, val)]
  | kv :: rest, key, val =>
    if kv.1 = key then (kv.1, val) :: rest else kv :: jinsert rest key val

/-- The keys of an object, in order. -/
def jkeys (kvs : List (String × Json)) : List String := kvs.map Prod.fst

/-- `Value::get` on a key: `Some` only for objects. -/
def Json.get : Json → String → Option Json
  | .obj kvs, key => jfind kvs key
  | _, _ => none

/-- `Value::as_object`. -/
def Json.as_object : Json → Option (List (String × Json))
  | .obj kvs => some kvs
  | _ => none

/-- `Value::as_array`. -/
def Json.as_array : Json → Option (List Json)
  | .arr xs => some xs
  | _ => none

/-- `Value::as_str`. -/
def Json.as_str : Json → Option String
  | .str s => some s
  | _ => none

/-- `Value::is_object`. -/
def Json.is_object : Json → Bool
  | .obj _ => true
  | _ => false

/-- `Value::is_array`. -/
def Json.is_array : Json → Bool
  | .arr _ => true
  | _ => false

/-- A string is one of the two UCP annotation keys. -/
def isUcpKey (k : String) : Bool :=
  k = "ucp_request" || k = "ucp_response"

/-- Modelled from the spec (`types.rs` is not part of the provided sources):
the two reserved annotation keys recognised on property nodes. -/
def UCP_ANNOTATIONS : List String := ["ucp_request", "ucp_response"]

/-- Modelled from the spec: a direction is `Request` or `Response`. -/
inductive Direction where
  | Request : Direction
  | Response : Direction
deriving Repr, DecidableEq

/-- Modelled from the spec: each direction's distinguished annotation key. -/
def Direction.annotation_key : Direction → String
  | .Request => "ucp_request"
  | .Response => "ucp_response"

/-- Modelled from the spec: the four visibility values. -/
inductive Visibility where
  | Include : Visibility
  | Required : Visibility
  | Optional : Visibility
  | Omit : Visibility
deriving Repr, DecidableEq

/-- Modelled from the spec: parse a visibility string, one of
`include | required | optional | omit`; anything else is unknown. -/
def Visibility.parse : String → Option Visibility
  | "include" => some .Include
  | "required" => some .Required
  | "optional" => some .Optional
  | "omit" => some .Omit
  | _ => none

/-- Modelled from the spec: transition info — `from` and `to` visibility
strings plus a description.  The Rust field names `from`/`to` are Lean
keywords, hence the trailing underscores. -/
structure SchemaTransitionInfo where
  from_ : String
  to_ : String
  description : String
deriving Repr, DecidableEq

/-- Modelled from the spec: a transition is valid when `from != to` and both
parse as visibilities. -/
def is_valid_schema_transition (vfrom vto : String) : Bool :=
  vfrom ≠ vto && (Visibility.parse vfrom).isSome && (Visibility.parse vto).isSome

/-- Modelled from the spec: resolve options; `operation` is lowercased at
construction time. -/
structure ResolveOptions where
  direction : Direction
  operation : String
  strict : Bool
deriving Repr, DecidableEq

/-- Modelled from the spec: `ResolveOptions::new` canonicalises the operation
to lowercase and defaults `strict` to false. -/
def ResolveOptions.new (d : Direction) (op : String) : ResolveOptions :=
  { direction := d, operation := op.toLower, strict := false }

/-- Modelled from the spec: the JSON type name used in error payloads. -/
def json_type_name : Json → String
  | .null => "null"
  | .bool _ => "boolean"
  | .num _ => "number"
  | .str _ => "string"
  | .arr _ => "array"
  | .obj _ => "object"

/-- The resolver's error taxonomy (`error.rs` is not part of the provided
sources; the constructors and payloads are modelled from the spec). -/
inductive ResolveError where
  | InvalidAnnotationType (path actual : String) : ResolveError
  | UnknownVisibility (path value : String) : ResolveError
  | InvalidSchemaTransition (path message : String) : ResolveError
  | TypeConflict (path base_type ext_type : String) : ResolveError
  | MonotonicityViolation (path field base_status attempted : String) : ResolveError
deriving Repr, DecidableEq

/-- Result of a fueled resolver function: success, a resolver error, or fuel
exhaustion (the Rust recursion is unbounded; claims are stated for runs that
succeed at some fuel). -/
inductive RRes (α : Type) where
  | ok (a : α) : RRes α
  | err (e : ResolveError) : RRes α
  | fuelOut : RRes α
deriving Repr, DecidableEq

/-- Sequencing on `RRes`. -/
def RRes.bind {α β : Type} : RRes α → (α → RRes β) → RRes β
  | .ok a, f => f a
  | .err e, _ => .err e
  | .fuelOut, _ => .fuelOut

/-- Lift an un-fueled `Except` computation into `RRes`. -/
def ofExcept {α : Type} : Except ResolveError α → RRes α
  | .ok a => .ok a
  | .error e => .err e

/-- `parse_visibility_string`: parse or fail with `UnknownVisibility`. -/
def parse_visibility_string (s : String) (path : String) :
    Except ResolveError Visibility :=
  match Visibility.parse s with
  | some v => .ok v
  | none => .error (.UnknownVisibility path s)

/-- The descriptor object `parse_transition_value` reads: the object nested
under a `transition` key when present, otherwise the annotation object
itself (`obj.get("transition").and_then(as_object).unwrap_or(obj)`). -/
def transition_target (obj : List (String × Json)) : List (String × Json) :=
  match jfind obj "transition" with
  | some (.obj m) => m
  | _ => obj

/-- A string field of a transition descriptor
(`t.get(field).and_then(as_str).unwrap_or("")`). -/
def tfield (t : List (String × Json)) (field : String) : String :=
  match jfind t field with
  | some (.str s) => s
  | _ => ""

/-- `parse_transition_value`: parse a transition descriptor (either directly or
nested under a `transition` key), requiring a non-empty description and a
valid `from`/`to` pair; the returned visibility is `from`'s parse. -/
def parse_transition_value (obj : List (String × Json)) (path : String) :
    Except ResolveError (Visibility × Option SchemaTransitionInfo) :=
  let t := transition_target obj
  let vfrom := tfield t "from"
  let vto := tfield t "to"
  let description := tfield t "description"
  if description = "" then
    .error (.InvalidSchemaTransition path "missing required field \"description\"")
  else if ¬is_valid_schema_transition vfrom vto then
    .error (.InvalidSchemaTransition path
      ("\"from\" (" ++ vfrom ++ ") and \"to\" (" ++ vto ++
        ") must be distinct visibility values"))
  else
    match parse_visibility_string vfrom path with
    | .error e => .error e
    | .ok vis => .ok (vis, some ⟨vfrom, vto, description⟩)

/-- `get_visibility_from_annotation`: dispatch on the raw annotation value —
a shorthand visibility string, an operation-keyed mapping (with a shorthand
`transition` fallback), or an invalid type. -/
def get_visibility_from_annotation ( annotation : Json) (operation : String)
    (path : String) :
    Except ResolveError (Visibility × Option SchemaTransitionInfo) :=
  match annotation with
  | .str s =>
    match parse_visibility_string s path with
    | .error e => .error e
    | .ok v => .ok (v, none)
  | .obj map =>
    match jfind map operation with
    | some (.str s) =>
      match parse_visibility_string s path with
      | .error e => .error e
      | .ok v => .ok (v, none)
    | some (.obj o) => parse_transition_value o (path ++ "/" ++ operation)
    | some other =>
      .error (.InvalidAnnotationType (path ++ "/" ++ operation)
        (json_type_name other))
    | none =>
      match jfind map "transition" with
      | some (.obj t) => parse_transition_value t path
      | _ => .ok (.Include, none)
  | other => .error (.InvalidAnnotationType path (json_type_name other))

/-- `get_visibility`: look up the direction's annotation key on a property;
absent means `(Include, None)`. -/
def get_visibility (prop : Json) (direction : Direction) (operation : String)
    (path : String) :
    Except ResolveError (Visibility × Option SchemaTransitionInfo) :=
  match prop.get direction.annotation_key with
  | none => .ok (.Include, none)
  | some annotation => get_visibility_from_annotation annotation operation path

mutual
/-- `strip_annotations_recursive`: remove every `ucp_request` / `ucp_response`
key anywhere in a subtree. -/
def strip_annotations_recursive : Json → Json
  | .obj kvs => .obj (strip_entries kvs)
  | .arr xs => .arr (strip_list xs)
  | other => other

/-- Object part of `strip_annotations_recursive`. -/
def strip_entries : List (String × Json) → List (String × Json)
  | [] => []
  | kv :: rest =>
    if UCP_ANNOTATIONS.contains kv.1 then strip_entries rest
    else (kv.1, strip_annotations_recursive kv.2) :: strip_entries rest

/-- Array part of `strip_annotations_recursive`. -/
def strip_list : List Json → List Json
  | [] => []
  | v :: rest => strip_annotations_recursive v :: strip_list rest
end

/-- `strip_annotations`, the public wrapper. -/
def strip_annotations (schema : Json) : Json :=
  strip_annotations_recursive schema

/-- `apply_transition_metadata`: on an object with transition info, attach
`x-ucp-schema-transition` and set `deprecated: true` when `to == "omit"`. -/
def apply_transition_metadata (value : Json)
    (transition : Option SchemaTransitionInfo) : Json :=
  match value, transition with
  | .obj map, some info =>
    let map := jinsert map "x-ucp-schema-transition"
      (.obj [("from", .str info.from_), ("to", .str info.to_),
             ("description", .str info.description)])
    let map := if info.to_ = "omit" then jinsert map "deprecated" (.bool true) else map
    .obj map
  | v, _ => v

/-- The string entries of an object's `required` array
(`as_array` + `filter_map as_str`, non-strings dropped). -/
def required_strings (map : List (String × Json)) : List String :=
  match jfind map "required" with
  | some (.arr xs) => xs.filterMap Json.as_str
  | _ => []

/-- `collect_allof_annotations`: scan branches for per-property annotations
under the direction's key, last writer wins. -/
def collect_allof_annotations (branches : List Json) (ann_key : String) :
    List (String × Json) :=
  branches.foldl
    (fun merged branch =>
      match branch.as_object with
      | some o =>
        match jfind o "properties" with
        | some (.obj props) =>
          props.foldl
            (fun acc kv =>
              match kv.2.as_object with
              | some p =>
                match jfind p ann_key with
                | some ann => jinsert acc kv.1 ann
                | none => acc
              | none => acc)
            merged
        | _ => merged
      | none => merged)
    []

/-- Lookup in the `prop_types` map threaded by `validate_allof_types`
(`HashMap::get`; iteration order of the map is never used). -/
def tlookup : List (String × String) → String → Option String
  | [], _ => none
  | kv :: rest, key => if kv.1 = key then some kv.2 else tlookup rest key

/-- Inner loop of `validate_allof_types` over a flat list of
`(property name, string type)` declarations, threading the first-seen map. -/
def validate_types_scan (types : List (String × String))
    (decls : List (String × String)) (path : String) :
    Except ResolveError Unit :=
  match decls with
  | [] => .ok ()
  | d :: rest =>
    match tlookup types d.1 with
    | some existing =>
      if existing ≠ d.2 then
        .error (.TypeConflict (path ++ "/properties/" ++ d.1) existing d.2)
      else validate_types_scan types rest path
    | none => validate_types_scan (types ++ [(d.1, d.2)]) rest path

/-- The `(name, string type)` declarations of one branch's `properties` map,
in order; array-form and absent `type` values contribute nothing. -/
def branch_type_decls (branch : Json) : List (String × String) :=
  match branch.as_object with
  | some o =>
    match jfind o "properties" with
    | some (.obj props) =>
      props.filterMap (fun kv =>
        match kv.2.as_object with
        | some p =>
          match jfind p "type" with
          | some (.str t) => some (kv.1, t)
          | _ => none
        | none => none)
    | _ => []
  | none => []

/-- `validate_allof_types`: branches may not declare contradictory string-form
types on a common property; the first-seen type is kept in a map and any
differing later string type raises `TypeConflict`. -/
def validate_allof_types (branches : List Json) (path : String) :
    Except ResolveError Unit :=
  validate_types_scan [] (branches.map branch_type_decls).flatten path

/-- Inner loop of `inject_annotations` over the collected annotations,
threading the branch's mutable `properties` map. -/
def inject_annotations_go (annotations : List (String × Json))
    (props : List (String × Json)) (base_required : List String)
    (ann_key : String) (operation : String) (path : String) :
    Except ResolveError (List (String × Json)) :=
  match annotations with
  | [] => .ok props
  | na :: rest =>
    match jfind props na.1 with
    | some prop =>
      match prop.as_object with
      | some o =>
        if (jfind o ann_key).isSome then
          inject_annotations_go rest props base_required ann_key operation path
        else if base_required.contains na.1 then
          match get_visibility_from_annotation na.2 operation
              (path ++ "/properties/" ++ na.1) with
          | .error e => .error e
          | .ok vt =>
            match vt.1 with
            | .Omit =>
              .error (.MonotonicityViolation (path ++ "/properties/" ++ na.1)
                na.1 "required" "omit")
            | .Optional =>
              .error (.MonotonicityViolation (path ++ "/properties/" ++ na.1)
                na.1 "required" "optional")
            | _ =>
              inject_annotations_go rest
                (jinsert props na.1 (.obj (jinsert o ann_key na.2)))
                base_required ann_key operation path
        else
          inject_annotations_go rest
            (jinsert props na.1 (.obj (jinsert o ann_key na.2)))
            base_required ann_key operation path
      | none =>
        inject_annotations_go rest props base_required ann_key operation path
    | none =>
      inject_annotations_go rest props base_required ann_key operation path

/-- `inject_annotations`: copy collected annotations into a branch's
properties where missing, enforcing monotonicity — a field listed in the
branch's own `required` cannot be weakened to omit/optional. -/
def inject_annotations (branch : Json) (annotations : List (String × Json))
    (ann_key : String) (options : ResolveOptions) (path : String) :
    Except ResolveError Json :=
  let base_required : List String :=
    match branch.as_object with
    | some o => required_strings o
    | none => []
  match branch with
  | .obj bm =>
    match jfind bm "properties" with
    | some (.obj props) =>
      match inject_annotations_go annotations props base_required ann_key
          options.operation path with
      | .error e => .error e
      | .ok props2 => .ok (.obj (jinsert bm "properties" (.obj props2)))
    | _ => .ok branch
  | _ => .ok branch

/-- `Map::contains_key`. -/
def jcontains (kvs : List (String × Json)) (key : String) : Bool :=
  (jfind kvs key).isSome

/-- The recursive resolution callback threaded through the per-node helpers:
in `resolve_value` at fuel `n+1` it is `resolve_value n`. -/
abbrev ResolveFn : Type := Json → ResolveOptions → String → RRes Json

/-- Property loop of `resolve_properties`, threading the object's mutable
`required` list and the accumulated output map. -/
def resolve_properties_go (recur : ResolveFn) (props : List (String × Json))
    (options : ResolveOptions) (path : String) (required : List String)
    (result : List (String × Json)) : RRes (List (String × Json) × List String) :=
  match props with
  | [] => .ok (result, required)
  | kv :: rest =>
    let prop_path := path ++ "/" ++ kv.1
    match get_visibility kv.2 options.direction options.operation prop_path with
    | .error e => .err e
    | .ok vt =>
      match vt.1 with
      | .Omit =>
        resolve_properties_go recur rest options path
          (required.filter (fun r => r ≠ kv.1)) result
      | .Required =>
        (recur kv.2 options prop_path).bind (fun resolved =>
          let stripped := apply_transition_metadata (strip_annotations resolved) vt.2
          resolve_properties_go recur rest options path
            (if kv.1 ∈ required then required else required ++ [kv.1])
            (jinsert result kv.1 stripped))
      | .Optional =>
        (recur kv.2 options prop_path).bind (fun resolved =>
          let stripped := apply_transition_metadata (strip_annotations resolved) vt.2
          resolve_properties_go recur rest options path
            (required.filter (fun r => r ≠ kv.1)) (jinsert result kv.1 stripped))
      | .Include =>
        (recur kv.2 options prop_path).bind (fun resolved =>
          let stripped := apply_transition_metadata (strip_annotations resolved) vt.2
          resolve_properties_go recur rest options path required
            (jinsert result kv.1 stripped))

/-- `resolve_properties`: apply per-property visibility; non-object values
pass through unchanged. -/
def resolve_properties (recur : ResolveFn) (value : Json)
    (options : ResolveOptions) (path : String) (required : List String) :
    RRes (Json × List String) :=
  match value.as_object with
  | none => .ok (value, required)
  | some props =>
    (resolve_properties_go recur props options path required []).bind
      (fun rr => .ok (.obj rr.1, rr.2))

/-- Member loop of `resolve_defs`. -/
def resolve_defs_go (recur : ResolveFn) (defs : List (String × Json))
    (options : ResolveOptions) (path : String)
    (result : List (String × Json)) : RRes (List (String × Json)) :=
  match defs with
  | [] => .ok result
  | kv :: rest =>
    (recur kv.2 options (path ++ "/" ++ kv.1)).bind (fun resolved =>
      resolve_defs_go recur rest options path (jinsert result kv.1 resolved))

/-- `resolve_defs`: recurse into each definition; non-object values pass
through unchanged. -/
def resolve_defs (recur : ResolveFn) (value : Json) (options : ResolveOptions)
    (path : String) : RRes Json :=
  match value.as_object with
  | none => .ok value
  | some defs =>
    (resolve_defs_go recur defs options path []).bind (fun r => .ok (.obj r))

/-- Element loop shared by `resolve_array` and `resolve_composition`,
tracking the element index for path construction. -/
def resolve_array_go (recur : ResolveFn) (items : List Json)
    (options : ResolveOptions) (path : String) (i : Nat) : RRes (List Json) :=
  match items with
  | [] => .ok []
  | v :: rest =>
    (recur v options (path ++ "/" ++ toString i)).bind (fun resolved =>
      (resolve_array_go recur rest options path (i + 1)).bind (fun rs =>
        .ok (resolved :: rs)))

/-- `resolve_array`: element-wise recursion. -/
def resolve_array (recur : ResolveFn) (arr : List Json)
    (options : ResolveOptions) (path : String) : RRes Json :=
  (resolve_array_go recur arr options path 0).bind (fun rs => .ok (.arr rs))

/-- `resolve_composition` (`anyOf`/`oneOf`): element-wise recursion, no
cross-branch propagation; non-array values pass through unchanged. -/
def resolve_composition (recur : ResolveFn) (value : Json)
    (options : ResolveOptions) (path : String) : RRes Json :=
  match value.as_array with
  | none => .ok value
  | some arr =>
    (resolve_array_go recur arr options path 0).bind (fun rs => .ok (.arr rs))

/-- Branch loop of `resolve_allof`: inject collected annotations (when any
were collected), then resolve each branch. -/
def resolve_allof_go (recur : ResolveFn) (items : List Json)
    (merged : List (String × Json)) (ann_key : String)
    (options : ResolveOptions) (path : String) (i : Nat) : RRes (List Json) :=
  match items with
  | [] => .ok []
  | v :: rest =>
    let item_path := path ++ "/" ++ toString i
    let injected : Except ResolveError Json :=
      if merged.isEmpty then .ok v
      else inject_annotations v merged ann_key options item_path
    match injected with
    | .error e => .err e
    | .ok item =>
      (recur item options item_path).bind (fun resolved =>
        (resolve_allof_go recur rest merged ann_key options path (i + 1)).bind
          (fun rs => .ok (resolved :: rs)))

/-- `resolve_allof`: collect annotations across branches (last writer wins),
validate string-form types, then inject and resolve each branch; non-array
values pass through unchanged. -/
def resolve_allof (recur : ResolveFn) (value : Json) (options : ResolveOptions)
    (path : String) : RRes Json :=
  match value.as_array with
  | none => .ok value
  | some arr =>
    let ann_key := options.direction.annotation_key
    let merged := collect_allof_annotations arr ann_key
    match validate_allof_types arr path with
    | .error e => .err e
    | .ok _ =>
      (resolve_allof_go recur arr merged ann_key options path 0).bind
        (fun rs => .ok (.arr rs))

/-- Key loop of `resolve_object`: skip UCP annotation keys, dispatch
structural keys, skip `required` (re-emitted at the end), and recurse into
everything else, threading the working `required` list. -/
def resolve_object_go (recur : ResolveFn) (entries : List (String × Json))
    (options : ResolveOptions) (path : String) (result : List (String × Json))
    (required : List String) : RRes (List (String × Json) × List String) :=
  match entries with
  | [] => .ok (result, required)
  | kv :: rest =>
    if UCP_ANNOTATIONS.contains kv.1 then
      resolve_object_go recur rest options path result required
    else
      let child_path := path ++ "/" ++ kv.1
      if kv.1 = "properties" then
        (resolve_properties recur kv.2 options child_path required).bind
          (fun pr =>
            resolve_object_go recur rest options path
              (jinsert result kv.1 pr.1) pr.2)
      else if kv.1 = "items" then
        (recur kv.2 options child_path).bind (fun r =>
          resolve_object_go recur rest options path (jinsert result kv.1 r) required)
      else if kv.1 = "$defs" ∨ kv.1 = "definitions" then
        (resolve_defs recur kv.2 options child_path).bind (fun r =>
          resolve_object_go recur rest options path (jinsert result kv.1 r) required)
      else if kv.1 = "allOf" then
        (resolve_allof recur kv.2 options child_path).bind (fun r =>
          resolve_object_go recur rest options path (jinsert result kv.1 r) required)
      else if kv.1 = "anyOf" ∨ kv.1 = "oneOf" then
        (resolve_composition recur kv.2 options child_path).bind (fun r =>
          resolve_object_go recur rest options path (jinsert result kv.1 r) required)
      else if kv.1 = "additionalProperties" then
        if kv.2.is_object then
          (recur kv.2 options child_path).bind (fun r =>
            resolve_object_go recur rest options path (jinsert result kv.1 r) required)
        else
          resolve_object_go recur rest options path (jinsert result kv.1 kv.2) required
      else if kv.1 = "required" then
        resolve_object_go recur rest options path result required
      else
        (recur kv.2 options child_path).bind (fun r =>
          resolve_object_go recur rest options path (jinsert result kv.1 r) required)

/-- `resolve_object`: run the key loop starting from the input's `required`
string entries, then re-emit the updated `required` array when it is
non-empty or the input object had a `required` key. -/
def resolve_object (recur : ResolveFn) (map : List (String × Json))
    (options : ResolveOptions) (path : String) : RRes Json :=
  (resolve_object_go recur map options path [] (required_strings map)).bind
    (fun rr =>
      if rr.2 ≠ [] ∨ jcontains map "required" then
        .ok (.obj (jinsert rr.1 "required" (.arr (rr.2.map Json.str))))
      else .ok (.obj rr.1))

/-- `resolve_value`: the recursive knot, indexed by fuel.  Objects and arrays
recurse one fuel step down; primitives pass through unchanged. -/
def resolve_value : Nat → Json → ResolveOptions → String → RRes Json
  | 0, _, _, _ => .fuelOut
  | fuel + 1, value, options, path =>
    match value with
    | .obj map => resolve_object (resolve_value fuel) map options path
    | .arr a => resolve_array (resolve_value fuel) a options path
    | other => .ok other

/-- The closer's `has_composition` test: an `allOf`, `anyOf` or `oneOf` key
is present. -/
def has_composition_b (kvs : List (String × Json)) : Bool :=
  jcontains kvs "allOf" || jcontains kvs "anyOf" || jcontains kvs "oneOf"

/-- The closer's `is_object_schema` test: `type` is the string `"object"`,
or a `properties` key is present. -/
def is_object_schema_b (kvs : List (String × Json)) : Bool :=
  (match jfind kvs "type" with
   | some (.str t) => t = "object"
   | _ => false) || jcontains kvs "properties"

mutual
/-- `close_additional_properties_inner`: strict-mode closure.  On an object
schema outside a composition branch, set `unevaluatedProperties: false`
(composition) or `additionalProperties: false` (simple object) unless a
non-boolean value is already present, then walk the structural children.
The Rust code performs the insertion before walking the entries; since the
walk maps boolean children to themselves and preserves keys, inserting after
the walk (as done here, for structural termination) yields the same object. -/
def close_additional_properties_inner : Json → Bool → Json
  | .obj map, in_composition_branch =>
    let walked := close_entries map
    if !in_composition_branch &&
        (is_object_schema_b map || has_composition_b map) then
      if has_composition_b map then
        match jfind map "unevaluatedProperties" with
        | none => .obj (jinsert walked "unevaluatedProperties" (.bool false))
        | some (.bool true) =>
          .obj (jinsert walked "unevaluatedProperties" (.bool false))
        | _ => .obj walked
      else
        match jfind map "additionalProperties" with
        | none => .obj (jinsert walked "additionalProperties" (.bool false))
        | some (.bool true) =>
          .obj (jinsert walked "additionalProperties" (.bool false))
        | _ => .obj walked
    else .obj walked
  | other, _ => other

/-- Entry walk of the strict closer: `properties` and definition maps recurse
into member values, schema-valued keys recurse directly, composition arrays
recurse with the composition flag set, and all other keys are untouched. -/
def close_entries : List (String × Json) → List (String × Json)
  | [] => []
  | kv :: rest =>
    (kv.1,
      if kv.1 = "properties" then close_map_json kv.2
      else if kv.1 = "items" ∨ kv.1 = "additionalProperties" ∨
          kv.1 = "unevaluatedProperties" then
        close_additional_properties_inner kv.2 false
      else if kv.1 = "$defs" ∨ kv.1 = "definitions" then close_map_json kv.2
      else if kv.1 = "allOf" ∨ kv.1 = "anyOf" ∨ kv.1 = "oneOf" then
        close_branches_json kv.2
      else kv.2) :: close_entries rest

/-- Recurse into the member values of a `properties`/`$defs`/`definitions`
value when it is an object; other values are untouched. -/
def close_map_json : Json → Json
  | .obj kvs => .obj (close_map_values kvs)
  | other => other

/-- Recurse into the elements of a composition value when it is an array;
other values are untouched. -/
def close_branches_json : Json → Json
  | .arr xs => .arr (close_branch_list xs)
  | other => other

/-- Member walk for `properties` / `$defs` / `definitions` values. -/
def close_map_values : List (String × Json) → List (String × Json)
  | [] => []
  | kv :: rest =>
    (kv.1, close_additional_properties_inner kv.2 false) :: close_map_values rest

/-- Branch walk for composition arrays: direct children are marked as
composition branches and are not themselves closed. -/
def close_branch_list : List Json → List Json
  | [] => []
  | v :: rest =>
    close_additional_properties_inner v true :: close_branch_list rest
end

/-- `close_additional_properties`, the strict-mode entry point. -/
def close_additional_properties (value : Json) : Json :=
  close_additional_properties_inner value false

/-- `resolve`: the public entry point — resolve the value from the root path,
then close object schemas when `options.strict` is set. -/
def resolve (fuel : Nat) (schema : Json) (options : ResolveOptions) : RRes Json :=
  (resolve_value fuel schema options "").bind (fun resolved =>
    .ok (if options.strict then close_additional_properties resolved else resolved))

/-! ## Predicates used in the claims -/

/-- A list of keys with no duplicates (the keys of a `serde_json::Map`, which
is a map and therefore cannot hold a key twice). -/
def allDiff : List String → Bool
  | [] => true
  | x :: xs => !xs.contains x && allDiff xs

mutual
/-- No object key anywhere in the tree is a UCP annotation key (spec invariant
"no `ucp_request` / `ucp_response` at any depth"). -/
def no_ucp_keys : Json → Bool
  | .obj kvs => no_ucp_entries kvs
  | .arr xs => no_ucp_list xs
  | _ => true

/-- Object part of `no_ucp_keys`. -/
def no_ucp_entries : List (String × Json) → Bool
  | [] => true
  | kv :: rest => !isUcpKey kv.1 && no_ucp_keys kv.2 && no_ucp_entries rest

/-- Array part of `no_ucp_keys`. -/
def no_ucp_list : List Json → Bool
  | [] => true
  | v :: rest => no_ucp_keys v && no_ucp_list rest
end

mutual
/-- Structural well-formedness of an input schema value: every schema object
has distinct keys, its `properties`/`$defs`/`definitions` values are member
maps (`shape_members`), its composition values are arrays of well-shaped
schemas, its `additionalProperties` is not an array, and every other
non-UCP entry is a well-shaped schema; values sitting under a UCP
annotation key are unconstrained (the resolver never copies them into its
output). -/
def shape_ok : Json → Bool
  | .obj kvs => allDiff (jkeys kvs) && shape_entries kvs
  | .arr xs => shape_list xs
  | _ => true

/-- Object part of `shape_ok`, dispatching on the structural keys exactly as
`resolve_object` does. -/
def shape_entries : List (String × Json) → Bool
  | [] => true
  | kv :: rest =>
    (if isUcpKey kv.1 then true
     else if kv.1 = "properties" ∨ kv.1 = "$defs" ∨ kv.1 = "definitions" then
       shape_members kv.2
     else if kv.1 = "allOf" ∨ kv.1 = "anyOf" ∨ kv.1 = "oneOf" then
       kv.2.is_array && shape_ok kv.2
     else if kv.1 = "additionalProperties" then !kv.2.is_array && shape_ok kv.2
     else shape_ok kv.2) && shape_entries rest

/-- A `properties` / `$defs` / `definitions` value: an object with distinct,
non-UCP member names whose member values are well-shaped schemas.  (Member
names are property/definition names; the per-key structural dispatch of
`shape_entries` does not apply to them.) -/
def shape_members : Json → Bool
  | .obj kvs =>
    allDiff (jkeys kvs) && (jkeys kvs).all (fun k => !isUcpKey k) &&
      shape_values kvs
  | _ => false

/-- Member values of a `properties`/`$defs`/`definitions` map. -/
def shape_values : List (String × Json) → Bool
  | [] => true
  | kv :: rest => shape_ok kv.2 && shape_values rest

/-- Array part of `shape_ok`. -/
def shape_list : List Json → Bool
  | [] => true
  | v :: rest => shape_ok v && shape_list rest
end

/-- The `required` / `properties` condition at one object level: if `required`
is an array then all its entries are strings, pairwise distinct, none is a
UCP annotation key, and each names a key of the sibling `properties` object
(when `properties` is not an object the list must be empty). -/
def required_node_ok (kvs : List (String × Json)) : Bool :=
  match jfind kvs "required" with
  | some (.arr xs) =>
    xs.all (fun x => x.as_str.isSome) &&
    (let names := xs.filterMap Json.as_str
     allDiff names && names.all (fun n => !isUcpKey n) &&
     (match jfind kvs "properties" with
      | some (.obj props) => names.all (fun n => (jkeys props).contains n)
      | _ => names.isEmpty))
  | _ => true

mutual
/-- Input-side `required` well-formedness along the resolver's traversal:
`required_node_ok` at every schema object, with annotation values skipped
and `properties`/`$defs`/`definitions` values walked as member maps (their
member names are property names, so no node condition applies to them). -/
def required_wf : Json → Bool
  | .obj kvs => required_node_ok kvs && required_wf_entries kvs
  | .arr xs => required_wf_list xs
  | _ => true

/-- Object part of `required_wf`. -/
def required_wf_entries : List (String × Json) → Bool
  | [] => true
  | kv :: rest =>
    (if isUcpKey kv.1 then true
     else if kv.1 = "properties" ∨ kv.1 = "$defs" ∨ kv.1 = "definitions" then
       required_wf_members kv.2
     else required_wf kv.2) && required_wf_entries rest

/-- Member-map part of `required_wf`. -/
def required_wf_members : Json → Bool
  | .obj kvs => required_wf_values kvs
  | _ => true

/-- Member values of a `properties`/`$defs`/`definitions` map. -/
def required_wf_values : List (String × Json) → Bool
  | [] => true
  | kv :: rest => required_wf kv.2 && required_wf_values rest

/-- Array part of `required_wf`. -/
def required_wf_list : List Json → Bool
  | [] => true
  | v :: rest => required_wf v && required_wf_list rest
end

mutual
/-- Output-side `required` invariant along the resolver's traversal:
`required_node_ok` at every schema object, with
`properties`/`$defs`/`definitions` values walked as member maps. -/
def required_out : Json → Bool
  | .obj kvs => required_node_ok kvs && required_out_entries kvs
  | .arr xs => required_out_list xs
  | _ => true

/-- Object part of `required_out`. -/
def required_out_entries : List (String × Json) → Bool
  | [] => true
  | kv :: rest =>
    (if kv.1 = "properties" ∨ kv.1 = "$defs" ∨ kv.1 = "definitions" then
       required_out_members kv.2
     else required_out kv.2) && required_out_entries rest

/-- Member-map part of `required_out`. -/
def required_out_members : Json → Bool
  | .obj kvs => required_out_values kvs
  | _ => true

/-- Member values of a `properties`/`$defs`/`definitions` map. -/
def required_out_values : List (String × Json) → Bool
  | [] => true
  | kv :: rest => required_out kv.2 && required_out_values rest

/-- Array part of `required_out`. -/
def required_out_list : List Json → Bool
  | [] => true
  | v :: rest => required_out v && required_out_list rest
end

/-- A closing keyword's value after the strict pass: present and not `true`
(either the inserted/overwritten `false`, or a pre-existing non-boolean
value, which the closer leaves alone). -/
def closure_ok : Option Json → Bool
  | some (.bool true) => false
  | some _ => true
  | none => false

/-- The strict-closure condition at one object: outside composition branches,
an object-shaped or composition schema carries the appropriate closing
keyword (`unevaluatedProperties` for composition, `additionalProperties`
otherwise) with a non-`true` value. -/
def node_closed (kvs : List (String × Json)) (in_comp : Bool) : Bool :=
  if !in_comp && (is_object_schema_b kvs || has_composition_b kvs) then
    if has_composition_b kvs then closure_ok (jfind kvs "unevaluatedProperties")
    else closure_ok (jfind kvs "additionalProperties")
  else true

mutual
/-- Strict-mode closure invariant over the tree reached by the closer's own
recursion; the `Bool` flag records being a direct composition-array element
(such nodes are exempt from `node_closed`). -/
def strict_closed : Json → Bool → Bool
  | .obj kvs, in_comp => node_closed kvs in_comp && closed_entries kvs
  | _, _ => true

/-- Object part of `strict_closed`, mirroring the closer's per-key walk. -/
def closed_entries : List (String × Json) → Bool
  | [] => true
  | kv :: rest =>
    (if kv.1 = "properties" then closed_map kv.2
     else if kv.1 = "items" ∨ kv.1 = "additionalProperties" ∨
         kv.1 = "unevaluatedProperties" then
       strict_closed kv.2 false
     else if kv.1 = "$defs" ∨ kv.1 = "definitions" then closed_map kv.2
     else if kv.1 = "allOf" ∨ kv.1 = "anyOf" ∨ kv.1 = "oneOf" then
       closed_branches kv.2
     else true) && closed_entries rest

/-- Member-map part of `strict_closed`. -/
def closed_map : Json → Bool
  | .obj kvs => closed_map_values kvs
  | _ => true

/-- Member values of a `properties`/`$defs`/`definitions` object. -/
def closed_map_values : List (String × Json) → Bool
  | [] => true
  | kv :: rest => strict_closed kv.2 false && closed_map_values rest

/-- Composition part of `strict_closed`. -/
def closed_branches : Json → Bool
  | .arr xs => closed_branch_list xs
  | _ => true

/-- Elements of a composition array are marked as composition branches. -/
def closed_branch_list : List Json → Bool
  | [] => true
  | v :: rest => strict_closed v true && closed_branch_list rest
end

/-- One branch declares property `name` with string-form type `t` (the only
declarations `validate_allof_types` looks at). -/
def declares_str_type (branches : List Json) (name t : String) : Bool :=
  branches.any (fun b => (branch_type_decls b).contains (name, t))

/-- The claim-side statement of an `allOf` type conflict: some property name
is declared with two different string-form types across the branches;
array-form and absent types never participate. -/
def has_type_conflict (branches : List Json) : Bool :=
  let decls := (branches.map branch_type_decls).flatten
  decls.any (fun d => decls.any (fun d2 => d.1 = d2.1 && d.2 ≠ d2.2))

/-- The per-key transformation performed by `close_entries` on an entry's
value (named so the walk can be characterised entry-wise). -/
def close_entry_transform (key : String) (child : Json) : Json :=
  if key = "properties" then close_map_json child
  else if key = "items" ∨ key = "additionalProperties" ∨
      key = "unevaluatedProperties" then
    close_additional_properties_inner child false
  else if key = "$defs" ∨ key = "definitions" then close_map_json child
  else if key = "allOf" ∨ key = "anyOf" ∨ key = "oneOf" then
    close_branches_json child
  else child

/-- C4 counterexample input entries: an object schema with a pre-existing
non-boolean `additionalProperties` value. -/
def c4_entries : List (String × Json) :=
  [("type", .str "object"),
   ("additionalProperties", .obj [("type", .str "string")])]

/-- C2 counterexample input entries: a property literally named
`ucp_request`. -/
def c2_entries : List (String × Json) :=
  [("properties", .obj [("ucp_request", .obj [("type", .str "string")])])]

/-- C3 counterexample input entries: a duplicated `required` entry naming an
ordinary property. -/
def c3_entries : List (String × Json) :=
  [("required", .arr [.str "a", .str "a"]),
   ("properties", .obj [("a", .obj [("type", .str "string")])])]

/-- Invariant threaded through the `resolve_object` key loop for the
`required` bookkeeping: the working `required` names are member names of the
`properties` value still ahead in `entries`, or of the already-resolved
`properties` value in `result` (with no second `properties` entry ahead), or
the working list is empty (and no `properties` entry is ahead). -/
def props_inv (entries result : List (String × Json))
    (req : List String) : Prop :=
  (∃ mm, jfind entries "properties" = some (.obj mm) ∧
      (∀ n, n ∈ req → n ∈ jkeys mm)) ∨
  ("properties" ∉ jkeys entries ∧
    ∃ res2, jfind result "properties" = some (.obj res2) ∧
      (∀ n, n ∈ req → n ∈ jkeys res2)) ∨
  ("properties" ∉ jkeys entries ∧ req = [])

/-- Whether a resolver result is a success. -/
def RRes.isOk {α : Type} : RRes α → Bool
  | .ok _ => true
  | _ => false

/-- C1 counterexample, base branch: requires `id` and declares it without a
direction annotation of its own. -/
def c1_base : Json :=
  .obj [("required", .arr [.str "id"]),
        ("properties", .obj [("id", .obj [("type", .str "string")])])]

/-- C1 counterexample, first extension: annotates `id` as `optional`
(a weakening of the base's required `id`). -/
def c1_ext1 : Json :=
  .obj [("properties", .obj [("id", .obj
    [("type", .str "string"), ("ucp_request", .str "optional")])])]

/-- C1 counterexample, second extension: annotates `id` as `required`,
overriding the first extension under last-writer-wins collection. -/
def c1_ext2 : Json :=
  .obj [("properties", .obj [("id", .obj
    [("type", .str "string"), ("ucp_request", .str "required")])])]

/-- C1 counterexample schema: an `allOf` of the three branches above. -/
def c1_schema : Json := .obj [("allOf", .arr [c1_base, c1_ext1, c1_ext2])]

/-- C9 counterexample input entries: `required` written before `properties`. -/
def c9_entries : List (String × Json) :=
  [("required", .arr [.str "a"]),
   ("properties", .obj [("a", .obj [("type", .str "string")])])]

/-! ## Basic lemmas about the ordered-map operations -/

theorem jkeys_nil : jkeys [] = [] := rfl

theorem jkeys_cons (kv : String × Json) (rest : List (String × Json)) :
    jkeys (kv :: rest) = kv.1 :: jkeys rest := rfl

theorem ucp_contains_eq (k : String) : UCP_ANNOTATIONS.contains k = isUcpKey k := by
  by_cases h1 : k = "ucp_request" <;> by_cases h2 : k = "ucp_response" <;>
    simp [UCP_ANNOTATIONS, isUcpKey, h1, h2]

theorem jfind_insert_self (l : List (String × Json)) (k : String) (v : Json) :
    jfind (jinsert l k v) k = some v := by
  induction l with
  | nil => simp [jinsert, jfind]
  | cons kv rest ih =>
    by_cases h : kv.1 = k
    · simp [jinsert, h, jfind]
    · simp [jinsert, h, jfind, ih]

theorem jfind_insert_ne (l : List (String × Json)) (k k2 : String) (v : Json)
    (h : k2 ≠ k) : jfind (jinsert l k v) k2 = jfind l k2 := by
  have h2 : ¬(k = k2) := fun he => h he.symm
  induction l with
  | nil => simp [jinsert, jfind, h2]
  | cons kv rest ih =>
    by_cases hk : kv.1 = k
    · simp [jinsert, hk, jfind, h2]
    · by_cases hk2 : kv.1 = k2
      · simp [jinsert, hk, jfind, hk2, h]
      · simp [jinsert, hk, jfind, hk2, ih]

theorem jfind_mem {l : List (String × Json)} {k : String} {v : Json}
    (h : jfind l k = some v) : (k, v) ∈ l := by
  induction l with
  | nil => simp [jfind] at h
  | cons kv rest ih =>
    by_cases hk : kv.1 = k
    · simp [jfind, hk] at h
      subst h
      have hkv : (k, kv.2) = kv := by rw [← hk]
      rw [hkv]
      exact List.mem_cons_self kv rest
    · simp [jfind, hk] at h
      exact List.mem_cons_of_mem kv (ih h)

theorem jfind_eq_none_iff (l : List (String × Json)) (k : String) :
    jfind l k = none ↔ k ∉ jkeys l := by
  induction l with
  | nil => simp [jfind, jkeys_nil]
  | cons kv rest ih =>
    by_cases hk : kv.1 = k
    · simp [jfind, hk, jkeys_cons, List.mem_cons]
    · have hne : ¬k = kv.1 := fun he => hk he.symm
      simp [jfind, hk, jkeys_cons, List.mem_cons, hne, ih]

theorem jfind_isSome_iff (l : List (String × Json)) (k : String) :
    (jfind l k).isSome = true ↔ k ∈ jkeys l := by
  rcases h : jfind l k with _ | v
  · simp [(jfind_eq_none_iff l k).mp h]
  · simp only [Option.isSome_some, true_iff]
    by_contra hmem
    rw [← jfind_eq_none_iff] at hmem
    rw [h] at hmem
    exact Option.noConfusion hmem

theorem jfind_some_mem_keys {l : List (String × Json)} {k : String} {v : Json}
    (h : jfind l k = some v) : k ∈ jkeys l := by
  by_contra hmem
  rw [← jfind_eq_none_iff] at hmem
  rw [h] at hmem
  exact Option.noConfusion hmem

theorem jkeys_insert_of_mem (l : List (String × Json)) (k : String) (v : Json)
    (h : k ∈ jkeys l) : jkeys (jinsert l k v) = jkeys l := by
  induction l with
  | nil => simp [jkeys_nil] at h
  | cons kv rest ih =>
    by_cases hk : kv.1 = k
    · simp [jinsert, hk, jkeys_cons]
    · rw [jkeys_cons, List.mem_cons] at h
      rcases h with h | h
      · exact absurd h.symm hk
      · simp [jinsert, hk, jkeys_cons, ih h]

theorem jkeys_insert_of_not_mem (l : List (String × Json)) (k : String) (v : Json)
    (h : k ∉ jkeys l) : jkeys (jinsert l k v) = jkeys l ++ [k] := by
  induction l with
  | nil => simp [jinsert, jkeys_nil, jkeys_cons]
  | cons kv rest ih =>
    rw [jkeys_cons, List.mem_cons] at h
    push_neg at h
    have hne : ¬kv.1 = k := fun he => h.1 he.symm
    simp [jinsert, hne, jkeys_cons, ih h.2]

theorem jfind_append_left {l1 : List (String × Json)} {k : String} {v : Json}
    (l2 : List (String × Json)) (h : jfind l1 k = some v) :
    jfind (l1 ++ l2) k = some v := by
  induction l1 with
  | nil => simp [jfind] at h
  | cons kv rest ih =>
    by_cases hk : kv.1 = k
    · simp [jfind, hk] at h ⊢
      exact h
    · simp [jfind, hk] at h ⊢
      exact ih h

theorem jfind_append_right {l1 : List (String × Json)} {k : String}
    (l2 : List (String × Json)) (h : jfind l1 k = none) :
    jfind (l1 ++ l2) k = jfind l2 k := by
  induction l1 with
  | nil => simp [jfind]
  | cons kv rest ih =>
    by_cases hk : kv.1 = k
    · simp [jfind, hk] at h
    · simp [jfind, hk] at h ⊢
      exact ih h

/-! ## Lemmas about annotation stripping and transition metadata -/

theorem mem_ucp_iff (k : String) : k ∈ UCP_ANNOTATIONS ↔ isUcpKey k = true := by
  simp [UCP_ANNOTATIONS, isUcpKey]

theorem strip_entries_find (kvs : List (String × Json)) (k : String) :
    jfind (strip_entries kvs) k =
      if isUcpKey k then none
      else (jfind kvs k).map strip_annotations_recursive := by
  induction kvs with
  | nil => cases h : isUcpKey k <;> simp [strip_entries, jfind, h]
  | cons kv rest ih =>
    by_cases hk : kv.1 = k
    · subst hk
      cases h : isUcpKey kv.1
      · simp [strip_entries, ucp_contains_eq, mem_ucp_iff, h, jfind, ih]
      · simp [strip_entries, ucp_contains_eq, mem_ucp_iff, h, jfind, ih]
    · cases h : isUcpKey kv.1
      · simp [strip_entries, ucp_contains_eq, mem_ucp_iff, h, jfind, hk, ih]
      · simp [strip_entries, ucp_contains_eq, mem_ucp_iff, h, jfind, hk, ih]

theorem strip_entries_keys (kvs : List (String × Json)) :
    jkeys (strip_entries kvs) = (jkeys kvs).filter (fun k => !isUcpKey k) := by
  induction kvs with
  | nil => simp [strip_entries, jkeys_nil]
  | cons kv rest ih =>
    cases h : isUcpKey kv.1
    · simp [strip_entries, ucp_contains_eq, mem_ucp_iff, h, jkeys_cons, ih,
        List.filter_cons]
    · simp [strip_entries, ucp_contains_eq, mem_ucp_iff, h, jkeys_cons, ih,
        List.filter_cons]

theorem strip_list_strings (xs : List Json)
    (h : xs.all (fun x => x.as_str.isSome) = true) : strip_list xs = xs := by
  induction xs with
  | nil => rfl
  | cons v rest ih =>
    rw [List.all_cons, Bool.and_eq_true] at h
    cases v with
    | str s => rw [strip_list, ih h.2]; rfl
    | null => simp [Json.as_str] at h
    | bool b => simp [Json.as_str] at h
    | num n => simp [Json.as_str] at h
    | arr a => simp [Json.as_str] at h
    | obj o => simp [Json.as_str] at h

theorem strip_not_arr (v : Json) (h : v.is_array = false) :
    (strip_annotations_recursive v).is_array = false := by
  cases v <;> simp_all [strip_annotations_recursive, Json.is_array]

mutual
theorem no_ucp_strip : ∀ v : Json,
    no_ucp_keys (strip_annotations_recursive v) = true
  | .obj kvs => by
    rw [strip_annotations_recursive, no_ucp_keys]
    exact no_ucp_strip_entries kvs
  | .arr xs => by
    rw [strip_annotations_recursive, no_ucp_keys]
    exact no_ucp_strip_list xs
  | .null => rfl
  | .bool b => rfl
  | .num n => rfl
  | .str s => rfl

theorem no_ucp_strip_entries : ∀ kvs : List (String × Json),
    no_ucp_entries (strip_entries kvs) = true
  | [] => rfl
  | kv :: rest => by
    rw [strip_entries]
    cases h : isUcpKey kv.1
    · rw [ucp_contains_eq, h]
      simp only [Bool.false_eq_true, if_false, no_ucp_entries]
      rw [Bool.and_eq_true, Bool.and_eq_true]
      exact ⟨⟨by simp [h], no_ucp_strip kv.2⟩, no_ucp_strip_entries rest⟩
    · rw [ucp_contains_eq, h]
      exact no_ucp_strip_entries rest

theorem no_ucp_strip_list : ∀ xs : List Json,
    no_ucp_list (strip_list xs) = true
  | [] => rfl
  | v :: rest => by
    rw [strip_list, no_ucp_list, Bool.and_eq_true]
    exact ⟨no_ucp_strip v, no_ucp_strip_list rest⟩
end

theorem apply_transition_none (v : Json) :
    apply_transition_metadata v none = v := by
  cases v <;> rfl

theorem apply_transition_not_obj (v : Json) (tr : Option SchemaTransitionInfo)
    (h : v.as_object = none) : apply_transition_metadata v tr = v := by
  cases v <;> cases tr <;> first | rfl | simp [Json.as_object] at h

/-- Full characterisation of `apply_transition_metadata` on an object with
transition info: the transition metadata object is attached, `deprecated` is
set to `true` exactly when the target visibility is `omit` (and is otherwise
untouched), and every other key is untouched. -/
theorem apply_transition_spec (kvs : List (String × Json))
    (info : SchemaTransitionInfo) :
    ∃ kvs2, apply_transition_metadata (.obj kvs) (some info) = .obj kvs2 ∧
      jfind kvs2 "x-ucp-schema-transition" =
        some (.obj [("from", .str info.from_), ("to", .str info.to_),
                    ("description", .str info.description)]) ∧
      (info.to_ = "omit" → jfind kvs2 "deprecated" = some (.bool true)) ∧
      (info.to_ ≠ "omit" → jfind kvs2 "deprecated" = jfind kvs "deprecated") ∧
      (∀ k, k ≠ "x-ucp-schema-transition" → k ≠ "deprecated" →
        jfind kvs2 k = jfind kvs k) := by
  by_cases ho : info.to_ = "omit"
  · refine ⟨jinsert (jinsert kvs "x-ucp-schema-transition"
        (.obj [("from", .str info.from_), ("to", .str info.to_),
               ("description", .str info.description)])) "deprecated" (.bool true),
      ?_, ?_, ?_, ?_, ?_⟩
    · simp [apply_transition_metadata, ho]
    · rw [jfind_insert_ne _ _ _ _ (by decide), jfind_insert_self]
    · intro _
      exact jfind_insert_self _ _ _
    · intro h
      exact absurd ho h
    · intro k h1 h2
      rw [jfind_insert_ne _ _ _ _ h2, jfind_insert_ne _ _ _ _ h1]
  · refine ⟨jinsert kvs "x-ucp-schema-transition"
        (.obj [("from", .str info.from_), ("to", .str info.to_),
               ("description", .str info.description)]),
      ?_, ?_, ?_, ?_, ?_⟩
    · simp [apply_transition_metadata, ho]
    · exact jfind_insert_self _ _ _
    · intro h
      exact absurd h ho
    · intro _
      exact jfind_insert_ne _ _ _ _ (by decide)
    · intro k h1 _
      exact jfind_insert_ne _ _ _ _ h1

theorem no_ucp_entries_insert (l : List (String × Json)) (k : String) (v : Json)
    (hl : no_ucp_entries l = true) (hk : isUcpKey k = false)
    (hv : no_ucp_keys v = true) : no_ucp_entries (jinsert l k v) = true := by
  induction l with
  | nil => simp [jinsert, no_ucp_entries, hk, hv]
  | cons kv rest ih =>
    rw [no_ucp_entries, Bool.and_eq_true, Bool.and_eq_true] at hl
    rw [jinsert]
    split
    · rw [no_ucp_entries, Bool.and_eq_true, Bool.and_eq_true]
      exact ⟨⟨hl.1.1, hv⟩, hl.2⟩
    · rw [no_ucp_entries, Bool.and_eq_true, Bool.and_eq_true]
      exact ⟨hl.1, ih hl.2⟩

theorem jinsert_self_of_find {l : List (String × Json)} {k : String} {v : Json}
    (h : jfind l k = some v) : jinsert l k v = l := by
  induction l with
  | nil => simp [jfind] at h
  | cons kv rest ih =>
    by_cases hk : kv.1 = k
    · simp [jfind, hk] at h
      simp only [jinsert, hk, if_pos]
      rw [← hk, ← h]
    · simp [jfind, hk] at h
      simp [jinsert, hk, ih h]

/-! ## C5: schema transitions -/

/-- **C5.** For a transition descriptor annotation: parsing fails with
`InvalidSchemaTransition` when `description` is missing or empty or when
`from`/`to` are not distinct parseable visibilities; on success the returned
visibility is the parse of the descriptor's `from` value and the info record
holds exactly the extracted `from`/`to`/`description` strings; attaching the
info to a resolved property emits `x-ucp-schema-transition` with exactly
those three fields and sets `deprecated: true` iff `to = "omit"` (leaving
`deprecated` untouched otherwise). -/
theorem C5_schema_transition_metadata (m : List (String × Json)) (path : String) :
    (tfield (transition_target m) "description" = "" →
      parse_transition_value m path =
        .error (.InvalidSchemaTransition path
          "missing required field \"description\"")) ∧
    (tfield (transition_target m) "description" ≠ "" →
      is_valid_schema_transition (tfield (transition_target m) "from")
        (tfield (transition_target m) "to") = false →
      ∃ msg, parse_transition_value m path =
        .error (.InvalidSchemaTransition path msg)) ∧
    (∀ vis oinfo, parse_transition_value m path = .ok (vis, oinfo) →
      ∃ info, oinfo = some info ∧
        info.from_ = tfield (transition_target m) "from" ∧
        info.to_ = tfield (transition_target m) "to" ∧
        info.description = tfield (transition_target m) "description" ∧
        info.description ≠ "" ∧ info.from_ ≠ info.to_ ∧
        Visibility.parse info.from_ = some vis ∧
        (Visibility.parse info.to_).isSome = true ∧
        (∀ kvs, ∃ kvs2,
          apply_transition_metadata (.obj kvs) (some info) = .obj kvs2 ∧
          jfind kvs2 "x-ucp-schema-transition" =
            some (.obj [("from", .str info.from_), ("to", .str info.to_),
                        ("description", .str info.description)]) ∧
          (info.to_ = "omit" → jfind kvs2 "deprecated" = some (.bool true)) ∧
          (info.to_ ≠ "omit" →
            jfind kvs2 "deprecated" = jfind kvs "deprecated"))) := by
  refine ⟨?_, ?_, ?_⟩
  · intro hd
    rw [parse_transition_value]
    simp only [hd, if_pos]
  · intro hd hv
    rw [parse_transition_value]
    simp only [hd, if_neg, hv]
    simp
  · intro vis oinfo h
    rw [parse_transition_value] at h
    by_cases hd : tfield (transition_target m) "description" = ""
    · simp only [hd, if_pos] at h
      exact absurd h (by simp)
    · simp only [hd, if_neg] at h
      by_cases hv : is_valid_schema_transition (tfield (transition_target m) "from")
          (tfield (transition_target m) "to") = true
      · simp only [hv, if_neg, not_true, ite_false] at h
        rcases hp : parse_visibility_string (tfield (transition_target m) "from")
            path with e | v
        · rw [hp] at h
          simp at h
        · rw [hp] at h
          simp at h
          rw [is_valid_schema_transition, Bool.and_eq_true, Bool.and_eq_true] at hv
          refine ⟨⟨tfield (transition_target m) "from",
              tfield (transition_target m) "to",
              tfield (transition_target m) "description"⟩,
            by simp [h.2], rfl, rfl, rfl, hd, ?_, ?_, ?_, ?_⟩
          · simpa using hv.1.1
          · rw [parse_visibility_string] at hp
            rcases hq : Visibility.parse (tfield (transition_target m) "from") with
              _ | w
            · rw [hq] at hp
              simp at hp
            · rw [hq] at hp
              simp at hp
              rw [hp, h.1]
          · exact hv.2
          · intro kvs
            obtain ⟨kvs2, he, h1, h2, h3, _⟩ := apply_transition_spec kvs _
            exact ⟨kvs2, he, h1, h2, h3⟩
      · rw [eq_false_of_ne_true hv] at h
        simp at h

/-- Witness for C5 at a concrete input: a descriptor with no description is
rejected. -/
theorem C5_schema_transition_metadata_witness :
    parse_transition_value [("from", Json.str "required"),
      ("to", Json.str "omit")] "/t" =
      .error (.InvalidSchemaTransition "/t"
        "missing required field \"description\"") :=
  (C5_schema_transition_metadata [("from", Json.str "required"),
    ("to", Json.str "omit")] "/t").1 rfl

/-! ## C6: visibility dispatch -/

/-- **C6.** `get_visibility` returns `(Include, None)` when the direction's
annotation key is absent; a string annotation is parsed as a visibility; for
a mapping annotation the operation-keyed entry takes precedence (string →
visibility, mapping → transition, anything else → `InvalidAnnotationType`);
only when no operation entry exists is a sibling `transition` object
consulted, defaulting to `(Include, None)`; an annotation that is neither a
string nor a mapping is `InvalidAnnotationType`. -/
theorem C6_get_visibility_dispatch (prop : Json) (d : Direction)
    (op path : String) :
    (prop.get d.annotation_key = none →
      get_visibility prop d op path = .ok (.Include, none)) ∧
    (∀ s, prop.get d.annotation_key = some (.str s) →
      get_visibility prop d op path =
        (match Visibility.parse s with
         | some v => .ok (v, none)
         | none => .error (.UnknownVisibility path s))) ∧
    (∀ m s, prop.get d.annotation_key = some (.obj m) →
      jfind m op = some (.str s) →
      get_visibility prop d op path =
        (match Visibility.parse s with
         | some v => .ok (v, none)
         | none => .error (.UnknownVisibility path s))) ∧
    (∀ m o, prop.get d.annotation_key = some (.obj m) →
      jfind m op = some (.obj o) →
      get_visibility prop d op path =
        parse_transition_value o (path ++ "/" ++ op)) ∧
    (∀ m other, prop.get d.annotation_key = some (.obj m) →
      jfind m op = some other → other.as_str = none → other.as_object = none →
      get_visibility prop d op path =
        .error (.InvalidAnnotationType (path ++ "/" ++ op)
          (json_type_name other))) ∧
    (∀ m t, prop.get d.annotation_key = some (.obj m) → jfind m op = none →
      jfind m "transition" = some (.obj t) →
      get_visibility prop d op path = parse_transition_value t path) ∧
    (∀ m, prop.get d.annotation_key = some (.obj m) → jfind m op = none →
      (∀ t, jfind m "transition" ≠ some (.obj t)) →
      get_visibility prop d op path = .ok (.Include, none)) ∧
    (∀ a, prop.get d.annotation_key = some a → a.as_str = none →
      a.as_object = none →
      get_visibility prop d op path =
        .error (.InvalidAnnotationType path (json_type_name a))) := by
  refine ⟨?_, ?_, ?_, ?_, ?_, ?_, ?_, ?_⟩
  · intro h
    simp only [get_visibility, h]
  · intro s h
    simp only [get_visibility, h, get_visibility_from_annotation,
      parse_visibility_string]
    rcases Visibility.parse s with _ | v <;> rfl
  · intro m s h hm
    simp only [get_visibility, h, get_visibility_from_annotation, hm,
      parse_visibility_string]
    rcases Visibility.parse s with _ | v <;> rfl
  · intro m o h hm
    simp only [get_visibility, h, get_visibility_from_annotation, hm]
  · intro m other h hm h1 h2
    simp only [get_visibility, h, get_visibility_from_annotation, hm]
    cases other with
    | null => rfl
    | bool b => rfl
    | num n => rfl
    | str s => simp [Json.as_str] at h1
    | arr a => rfl
    | obj o => simp [Json.as_object] at h2
  · intro m t h hm ht
    simp only [get_visibility, h, get_visibility_from_annotation, hm, ht]
  · intro m h hm ht
    simp only [get_visibility, h, get_visibility_from_annotation, hm]
  · intro a h h1 h2
    simp only [get_visibility, h]
    cases a with
    | null => rfl
    | bool b => rfl
    | num n => rfl
    | str s => simp [Json.as_str] at h1
    | arr a => rfl
    | obj o => simp [Json.as_object] at h2

/-- Witness for C6 at a concrete input: an absent annotation yields
`(Include, None)`. -/
theorem C6_get_visibility_dispatch_witness :
    get_visibility (.obj [("type", Json.str "string")]) .Request "create"
      "/w" = .ok (.Include, none) :=
  (C6_get_visibility_dispatch (.obj [("type", Json.str "string")]) .Request
    "create" "/w").1 rfl

/-! ## C10: branch-own annotations suppress injection and the check -/

theorem inject_go_all_skip (annotations props : List (String × Json))
    (base_required : List String) (ann_key op path : String)
    (h : ∀ na, na ∈ annotations → ∀ prop pobj, jfind props na.1 = some prop →
      prop.as_object = some pobj → (jfind pobj ann_key).isSome = true) :
    inject_annotations_go annotations props base_required ann_key op path =
      .ok props := by
  induction annotations with
  | nil => rfl
  | cons na rest ih =>
    rcases hp : jfind props na.1 with _ | prop
    · simp only [inject_annotations_go, hp]
      exact ih (fun nb hb => h nb (List.mem_cons_of_mem na hb))
    · rcases ho : prop.as_object with _ | pobj
      · simp only [inject_annotations_go, hp, ho]
        exact ih (fun nb hb => h nb (List.mem_cons_of_mem na hb))
      · have hs := h na (List.mem_cons_self na rest) prop pobj hp ho
        simp only [inject_annotations_go, hp, ho, hs, if_pos]
        exact ih (fun nb hb => h nb (List.mem_cons_of_mem na hb))

/-- **C10.** During `allOf` injection, a collected annotation is never
injected into a branch whose own property entry already carries the
direction's annotation key, and no monotonicity check is performed for such
properties: when every collected annotation targets a property that carries
its own annotation (or no object property at all), injection returns the
branch unchanged and raises no error — even if the collected annotation
would weaken a field listed in the branch's `required`. -/
theorem C10_inject_skips_self_annotated (branch : Json)
    (annotations : List (String × Json)) (ann_key : String)
    (options : ResolveOptions) (path : String)
    (h : ∀ na, na ∈ annotations → ∀ bm props prop pobj,
      branch = .obj bm → jfind bm "properties" = some (.obj props) →
      jfind props na.1 = some prop → prop.as_object = some pobj →
      (jfind pobj ann_key).isSome = true) :
    inject_annotations branch annotations ann_key options path = .ok branch := by
  rcases branch with _ | b | n | s | xs | bm
  · rfl
  · rfl
  · rfl
  · rfl
  · rfl
  · rcases hp : jfind bm "properties" with _ | pv
    · simp only [inject_annotations, hp]
    · rcases pv with _ | b2 | n2 | s2 | xs2 | props
      · simp only [inject_annotations, hp]
      · simp only [inject_annotations, hp]
      · simp only [inject_annotations, hp]
      · simp only [inject_annotations, hp]
      · simp only [inject_annotations, hp]
      · have hgo : inject_annotations_go annotations props (required_strings bm)
            ann_key options.operation path = .ok props := by
          apply inject_go_all_skip
          intro na hna prop pobj hfp hop
          exact h na hna bm props prop pobj rfl hp hfp hop
        rw [inject_annotations]
        simp only [Json.as_object, hp, hgo, jinsert_self_of_find hp]

/-- Witness for C10 at a concrete input: a branch that requires `id` and
annotates it itself ignores a collected weakening annotation for `id`. -/
theorem C10_inject_skips_self_annotated_witness :
    inject_annotations
      (.obj [("required", Json.arr [Json.str "id"]),
             ("properties", Json.obj [("id", Json.obj
               [("type", Json.str "string"),
                ("ucp_request", Json.str "required")])])])
      [("id", Json.str "omit")] "ucp_request"
      { direction := .Request, operation := "create", strict := false }
      "/allOf/0" =
      .ok (.obj [("required", Json.arr [Json.str "id"]),
             ("properties", Json.obj [("id", Json.obj
               [("type", Json.str "string"),
                ("ucp_request", Json.str "required")])])]) := by
  apply C10_inject_skips_self_annotated
  intro na hna bm props prop pobj hb hprops hfp hop
  simp at hna
  rcases hb with rfl | hb
  · cases hna
    simp [jfind] at hprops
    subst hprops
    simp [jfind] at hfp
    subst hfp
    simp [Json.as_object] at hop
    subst hop
    rfl

/-! ## C7: allOf type conflicts -/

theorem tlookup_append_some {l1 : List (String × String)} {k v : String}
    (l2 : List (String × String)) (h : tlookup l1 k = some v) :
    tlookup (l1 ++ l2) k = some v := by
  induction l1 with
  | nil => simp [tlookup] at h
  | cons kv rest ih =>
    by_cases hk : kv.1 = k
    · simp [tlookup, hk] at h ⊢
      exact h
    · simp [tlookup, hk] at h ⊢
      exact ih h

theorem tlookup_append_none {l1 : List (String × String)} {k : String}
    (l2 : List (String × String)) (h : tlookup l1 k = none) :
    tlookup (l1 ++ l2) k = tlookup l2 k := by
  induction l1 with
  | nil => simp [tlookup]
  | cons kv rest ih =>
    by_cases hk : kv.1 = k
    · simp [tlookup, hk] at h
    · simp [tlookup, hk] at h ⊢
      exact ih h

theorem tlookup_mem {l : List (String × String)} {k v : String}
    (h : tlookup l k = some v) : (k, v) ∈ l := by
  induction l with
  | nil => simp [tlookup] at h
  | cons kv rest ih =>
    by_cases hk : kv.1 = k
    · simp [tlookup, hk] at h
      subst h
      have hkv : (k, kv.2) = kv := by rw [← hk]
      rw [hkv]
      exact List.mem_cons_self kv rest
    · simp [tlookup, hk] at h
      exact List.mem_cons_of_mem kv (ih h)

theorem scan_ok_of_consistent (decls : List (String × String))
    (types : List (String × String)) (path : String)
    (hty : ∀ n t t2, tlookup types n = some t → (n, t2) ∈ decls → t = t2)
    (hde : ∀ n t t2, (n, t) ∈ decls → (n, t2) ∈ decls → t = t2) :
    validate_types_scan types decls path = .ok () := by
  induction decls generalizing types with
  | nil => rfl
  | cons d rest ih =>
    obtain ⟨dn, dt⟩ := d
    rw [validate_types_scan]
    rcases hl : tlookup types dn with _ | ex
    · simp only [hl]
      apply ih
      · intro n t t2 hlook hmem
        rcases hl2 : tlookup types n with _ | t0
        · rw [tlookup_append_none _ hl2] at hlook
          by_cases hn : dn = n
          · subst hn
            simp only [tlookup, if_pos] at hlook
            cases hlook
            exact hde dn dt t2 (List.mem_cons_self _ _)
              (List.mem_cons_of_mem _ hmem)
          · simp [tlookup, hn] at hlook
        · rw [tlookup_append_some _ hl2] at hlook
          injection hlook with hinj
          subst hinj
          exact hty n _ t2 hl2 (List.mem_cons_of_mem _ hmem)
      · intro n t t2 h1 h2
        exact hde n t t2 (List.mem_cons_of_mem _ h1) (List.mem_cons_of_mem _ h2)
    · simp only [hl]
      have hexd : ex = dt :=
        hty dn ex dt hl (List.mem_cons_self _ _)
      rw [if_neg (by simp [hexd])]
      apply ih
      · intro n t t2 hlook hmem
        exact hty n t t2 hlook (List.mem_cons_of_mem _ hmem)
      · intro n t t2 h1 h2
        exact hde n t t2 (List.mem_cons_of_mem _ h1) (List.mem_cons_of_mem _ h2)

theorem scan_consistent_of_ok (decls : List (String × String))
    (types : List (String × String)) (path : String)
    (h : validate_types_scan types decls path = .ok ()) :
    ∀ n t t2, ((n, t) ∈ decls ∨ tlookup types n = some t) →
      (n, t2) ∈ decls → t = t2 := by
  induction decls generalizing types with
  | nil =>
    intro n t t2 _ h2
    simp at h2
  | cons d rest ih =>
    obtain ⟨dn, dt⟩ := d
    rw [validate_types_scan] at h
    rcases hl : tlookup types dn with _ | ex
    · simp only [hl] at h
      have hA : tlookup (types ++ [(dn, dt)]) dn = some dt := by
        rw [tlookup_append_none _ hl]
        simp [tlookup]
      have hA2 : ∀ n t, tlookup types n = some t →
          tlookup (types ++ [(dn, dt)]) n = some t :=
        fun n t ht => tlookup_append_some _ ht
      intro n t t2 h1 h2
      rcases List.mem_cons.mp h2 with he2 | hm2
      · rw [Prod.mk.injEq] at he2
        obtain ⟨hn2, ht2⟩ := he2
        subst hn2
        subst ht2
        rcases h1 with h1 | h1
        · rcases List.mem_cons.mp h1 with he1 | hm1
          · rw [Prod.mk.injEq] at he1
            exact he1.2
          · exact (ih _ h n t2 t (Or.inr hA) hm1).symm
        · rw [hl] at h1
          exact Option.noConfusion h1
      · rcases h1 with h1 | h1
        · rcases List.mem_cons.mp h1 with he1 | hm1
          · rw [Prod.mk.injEq] at he1
            obtain ⟨hn1, ht1⟩ := he1
            subst hn1
            subst ht1
            exact ih _ h n t t2 (Or.inr hA) hm2
          · exact ih _ h n t t2 (Or.inl hm1) hm2
        · exact ih _ h n t t2 (Or.inr (hA2 _ _ h1)) hm2
    · simp only [hl] at h
      by_cases hex : ex = dt
      · rw [if_neg (by simp [hex])] at h
        subst hex
        intro n t t2 h1 h2
        rcases List.mem_cons.mp h2 with he2 | hm2
        · rw [Prod.mk.injEq] at he2
          obtain ⟨hn2, ht2⟩ := he2
          subst hn2
          subst ht2
          rcases h1 with h1 | h1
          · rcases List.mem_cons.mp h1 with he1 | hm1
            · rw [Prod.mk.injEq] at he1
              exact he1.2
            · exact (ih _ h n t2 t (Or.inr hl) hm1).symm
          · rw [hl] at h1
            cases h1
            rfl
        · rcases h1 with h1 | h1
          · rcases List.mem_cons.mp h1 with he1 | hm1
            · rw [Prod.mk.injEq] at he1
              obtain ⟨hn1, ht1⟩ := he1
              subst hn1
              subst ht1
              exact ih _ h n t t2 (Or.inr hl) hm2
            · exact ih _ h n t t2 (Or.inl hm1) hm2
          · exact ih _ h n t t2 (Or.inr h1) hm2
      · rw [if_pos hex] at h
        exact Except.noConfusion h

theorem scan_error_spec (allDecls : List (String × String)) :
    ∀ (rest processed types : List (String × String)) (path : String)
    (e : ResolveError),
    allDecls = processed ++ rest →
    (∀ n, tlookup types n = tlookup processed n) →
    validate_types_scan types rest path = .error e →
    ∃ n b ext, e = .TypeConflict (path ++ "/properties/" ++ n) b ext ∧
      b ≠ ext ∧ (n, b) ∈ allDecls ∧ (n, ext) ∈ allDecls ∧
      tlookup allDecls n = some b := by
  intro rest
  induction rest with
  | nil =>
    intro processed types path e _ _ h
    exact Except.noConfusion h
  | cons d rest2 ih =>
    intro processed types path e hsplit hty h
    obtain ⟨dn, dt⟩ := d
    rw [validate_types_scan] at h
    rcases hl : tlookup types dn with _ | ex
    · simp only [hl] at h
      refine ih (processed ++ [(dn, dt)]) (types ++ [(dn, dt)]) path e ?_ ?_ h
      · rw [hsplit, List.append_assoc]
        rfl
      · intro n
        rcases hl2 : tlookup types n with _ | t0
        · have hp2 : tlookup processed n = none := by rw [← hty n]; exact hl2
          rw [tlookup_append_none _ hl2, tlookup_append_none _ hp2]
        · have hp2 : tlookup processed n = some t0 := by rw [← hty n]; exact hl2
          rw [tlookup_append_some _ hl2, tlookup_append_some _ hp2]
    · simp only [hl] at h
      by_cases hex : ex = dt
      · rw [if_neg (by simp [hex])] at h
        refine ih (processed ++ [(dn, dt)]) types path e ?_ ?_ h
        · rw [hsplit, List.append_assoc]
          rfl
        · intro n
          by_cases hn : n = dn
          · subst hn
            rw [hl]
            have hp : tlookup processed n = some ex := by rw [← hty n]; exact hl
            rw [tlookup_append_some _ hp]
          · rcases hl2 : tlookup types n with _ | t0
            · have hp2 : tlookup processed n = none := by rw [← hty n]; exact hl2
              rw [tlookup_append_none _ hp2]
              have hdn : ¬dn = n := fun he => hn he.symm
              simp [tlookup, hdn]
            · have hp2 : tlookup processed n = some t0 := by rw [← hty n]; exact hl2
              rw [tlookup_append_some _ hp2]
      · rw [if_pos hex] at h
        have he : e = .TypeConflict (path ++ "/properties/" ++ dn) ex dt := by
          cases h
          rfl
        have hpm : tlookup processed dn = some ex := by rw [← hty dn]; exact hl
        refine ⟨dn, ex, dt, he, hex, ?_, ?_, ?_⟩
        · rw [hsplit]
          exact List.mem_append_left _ (tlookup_mem hpm)
        · rw [hsplit]
          exact List.mem_append_right _ (List.mem_cons_self _ _)
        · rw [hsplit]
          exact tlookup_append_some _ hpm

theorem declares_iff (branches : List Json) (n t : String) :
    declares_str_type branches n t = true ↔
      (n, t) ∈ (branches.map branch_type_decls).flatten := by
  simp only [declares_str_type, List.any_eq_true, List.mem_flatten, List.mem_map]
  constructor
  · rintro ⟨b, hb, hc⟩
    exact ⟨branch_type_decls b, ⟨b, hb, rfl⟩, by simpa using hc⟩
  · rintro ⟨l, ⟨b, hb, rfl⟩, hm⟩
    exact ⟨b, hb, by simpa using hm⟩

theorem has_conflict_iff (branches : List Json) :
    has_type_conflict branches = true ↔
      ∃ n t t2, (n, t) ∈ (branches.map branch_type_decls).flatten ∧
        (n, t2) ∈ (branches.map branch_type_decls).flatten ∧ t ≠ t2 := by
  simp only [has_type_conflict, List.any_eq_true, Bool.and_eq_true,
    decide_eq_true_eq, bne_iff_ne]
  constructor
  · rintro ⟨d, hd, d2, hd2, h1, h2⟩
    refine ⟨d.1, d.2, d2.2, ?_, ?_, h2⟩
    · rw [Prod.mk.eta]
      exact hd
    · rw [h1, Prod.mk.eta]
      exact hd2
  · rintro ⟨n, t, t2, h1, h2, hne⟩
    exact ⟨(n, t), h1, (n, t2), h2, rfl, hne⟩

/-- **C7.** `validate_allof_types` succeeds exactly when no property name is
declared with two different string-form `type` values across the `allOf`
branches (array-form and absent types never participate); any failure is a
`TypeConflict` whose `base_type` is the first-seen string type of the
conflicting property (in branch scan order) and whose `ext_type` is a
different declared string type; and whenever such a conflict exists,
`resolve_allof` fails with that `TypeConflict` before resolving any branch. -/
theorem C7_allof_type_conflict (branches : List Json) (path : String) :
    (validate_allof_types branches path = .ok () ↔
      has_type_conflict branches = false) ∧
    (∀ e, validate_allof_types branches path = .error e →
      ∃ n b ext, e = .TypeConflict (path ++ "/properties/" ++ n) b ext ∧
        b ≠ ext ∧ declares_str_type branches n b = true ∧
        declares_str_type branches n ext = true ∧
        tlookup ((branches.map branch_type_decls).flatten) n = some b) ∧
    (has_type_conflict branches = true → ∀ (recur : ResolveFn)
      (options : ResolveOptions),
      ∃ n b ext, resolve_allof recur (.arr branches) options path =
        .err (.TypeConflict (path ++ "/properties/" ++ n) b ext)) := by
  have hone : (validate_allof_types branches path = .ok () ↔
      has_type_conflict branches = false) := by
    constructor
    · intro h
      by_contra hc
      rw [Bool.not_eq_false, has_conflict_iff] at hc
      obtain ⟨n, t, t2, h1, h2, hne⟩ := hc
      exact hne (scan_consistent_of_ok _ [] path h n t t2 (Or.inl h1) h2)
    · intro h
      apply scan_ok_of_consistent
      · intro n t t2 hl
        simp [tlookup] at hl
      · intro n t t2 h1 h2
        by_contra hne
        rw [← Bool.not_eq_true, has_conflict_iff] at h
        exact h ⟨n, t, t2, h1, h2, hne⟩
  have htwo : (∀ e, validate_allof_types branches path = .error e →
      ∃ n b ext, e = .TypeConflict (path ++ "/properties/" ++ n) b ext ∧
        b ≠ ext ∧ declares_str_type branches n b = true ∧
        declares_str_type branches n ext = true ∧
        tlookup ((branches.map branch_type_decls).flatten) n = some b) := by
    intro e h
    obtain ⟨n, b, ext, he, hne, hb, hext, hfirst⟩ :=
      scan_error_spec ((branches.map branch_type_decls).flatten)
        ((branches.map branch_type_decls).flatten) [] [] path e rfl
        (fun n => rfl) h
    exact ⟨n, b, ext, he, hne, (declares_iff _ _ _).mpr hb,
      (declares_iff _ _ _).mpr hext, hfirst⟩
  refine ⟨hone, htwo, ?_⟩
  intro hc recur options
  rcases hval : validate_allof_types branches path with e | u
  · obtain ⟨n, b, ext, he, _, _, _, _⟩ := htwo e hval
    refine ⟨n, b, ext, ?_⟩
    rw [resolve_allof]
    simp only [Json.as_array, hval, he]
  · cases u
    rw [hone.mp hval] at hc
    exact Bool.noConfusion hc

/-- Witness for C7 at a concrete input: two branches declaring the same
property with array-form types do not conflict, so validation succeeds. -/
theorem C7_allof_type_conflict_witness :
    validate_allof_types
      [.obj [("properties", Json.obj [("x", Json.obj
        [("type", Json.arr [Json.str "string", Json.str "null"])])])],
       .obj [("properties", Json.obj [("x", Json.obj
        [("type", Json.arr [Json.str "integer"])])])]] "/allOf" = .ok () :=
  (C7_allof_type_conflict
    [.obj [("properties", Json.obj [("x", Json.obj
      [("type", Json.arr [Json.str "string", Json.str "null"])])])],
     .obj [("properties", Json.obj [("x", Json.obj
      [("type", Json.arr [Json.str "integer"])])])]] "/allOf").1.mpr rfl

/-! ## Inversion lemmas for the resolver loops -/

theorem RRes.bind_ok {α β : Type} {x : RRes α} {f : α → RRes β} {b : β}
    (h : RRes.bind x f = .ok b) : ∃ a, x = .ok a ∧ f a = .ok b := by
  cases x with
  | ok a => exact ⟨a, rfl, h⟩
  | err e => simp [RRes.bind] at h
  | fuelOut => simp [RRes.bind] at h

/-- Inversion of one step of the `resolve_object` key loop: a successful run
on `kv :: rest` either skipped the entry (UCP annotation key or `required`),
ran the properties rule (threading the `required` list), or resolved the
value through the branch-appropriate function and inserted it. -/
theorem resolve_object_go_cons_ok {recur : ResolveFn} {options : ResolveOptions}
    {path : String} {kv : String × Json} {rest result : List (String × Json)}
    {req : List String} {out : List (String × Json)} {reqF : List String}
    (h : resolve_object_go recur (kv :: rest) options path result req =
      .ok (out, reqF)) :
    (isUcpKey kv.1 = true ∧
      resolve_object_go recur rest options path result req = .ok (out, reqF)) ∨
    (isUcpKey kv.1 = false ∧ kv.1 = "required" ∧
      resolve_object_go recur rest options path result req = .ok (out, reqF)) ∨
    (isUcpKey kv.1 = false ∧ kv.1 = "properties" ∧ ∃ pr1 pr2,
      resolve_properties recur kv.2 options (path ++ "/" ++ kv.1) req =
        .ok (pr1, pr2) ∧
      resolve_object_go recur rest options path (jinsert result kv.1 pr1) pr2 =
        .ok (out, reqF)) ∨
    (isUcpKey kv.1 = false ∧ kv.1 ≠ "properties" ∧ kv.1 ≠ "required" ∧ ∃ r,
      resolve_object_go recur rest options path (jinsert result kv.1 r) req =
        .ok (out, reqF) ∧
      ((kv.1 = "items" ∧ recur kv.2 options (path ++ "/" ++ kv.1) = .ok r) ∨
       ((kv.1 = "$defs" ∨ kv.1 = "definitions") ∧
         resolve_defs recur kv.2 options (path ++ "/" ++ kv.1) = .ok r) ∨
       (kv.1 = "allOf" ∧
         resolve_allof recur kv.2 options (path ++ "/" ++ kv.1) = .ok r) ∨
       ((kv.1 = "anyOf" ∨ kv.1 = "oneOf") ∧
         resolve_composition recur kv.2 options (path ++ "/" ++ kv.1) = .ok r) ∨
       (kv.1 = "additionalProperties" ∧ kv.2.is_object = true ∧
         recur kv.2 options (path ++ "/" ++ kv.1) = .ok r) ∨
       (kv.1 = "additionalProperties" ∧ kv.2.is_object = false ∧ r = kv.2) ∨
       (kv.1 ≠ "items" ∧ kv.1 ≠ "$defs" ∧ kv.1 ≠ "definitions" ∧
         kv.1 ≠ "allOf" ∧ kv.1 ≠ "anyOf" ∧ kv.1 ≠ "oneOf" ∧
         kv.1 ≠ "additionalProperties" ∧
         recur kv.2 options (path ++ "/" ++ kv.1) = .ok r))) := by
  rw [resolve_object_go] at h
  by_cases hu : isUcpKey kv.1 = true
  · rw [ucp_contains_eq kv.1] at h
    rw [if_pos hu] at h
    exact Or.inl ⟨hu, h⟩
  · rw [ucp_contains_eq kv.1] at h
    rw [if_neg hu] at h
    rw [Bool.not_eq_true] at hu
    by_cases h1 : kv.1 = "properties"
    · rw [if_pos h1] at h
      obtain ⟨pr, hpr, hrest⟩ := RRes.bind_ok h
      exact Or.inr (Or.inr (Or.inl ⟨hu, h1, pr.1, pr.2, hpr, hrest⟩))
    · rw [if_neg h1] at h
      by_cases h2 : kv.1 = "items"
      · rw [if_pos h2] at h
        obtain ⟨r, hr, hrest⟩ := RRes.bind_ok h
        exact Or.inr (Or.inr (Or.inr ⟨hu, h1, by simp [h2], r, hrest,
          Or.inl ⟨h2, hr⟩⟩))
      · rw [if_neg h2] at h
        by_cases h3 : kv.1 = "$defs" ∨ kv.1 = "definitions"
        · rw [if_pos h3] at h
          obtain ⟨r, hr, hrest⟩ := RRes.bind_ok h
          refine Or.inr (Or.inr (Or.inr ⟨hu, h1, ?_, r, hrest,
            Or.inr (Or.inl ⟨h3, hr⟩)⟩))
          rcases h3 with h3 | h3 <;> simp [h3]
        · rw [if_neg h3] at h
          by_cases h4 : kv.1 = "allOf"
          · rw [if_pos h4] at h
            obtain ⟨r, hr, hrest⟩ := RRes.bind_ok h
            exact Or.inr (Or.inr (Or.inr ⟨hu, h1, by simp [h4], r, hrest,
              Or.inr (Or.inr (Or.inl ⟨h4, hr⟩))⟩))
          · rw [if_neg h4] at h
            by_cases h5 : kv.1 = "anyOf" ∨ kv.1 = "oneOf"
            · rw [if_pos h5] at h
              obtain ⟨r, hr, hrest⟩ := RRes.bind_ok h
              refine Or.inr (Or.inr (Or.inr ⟨hu, h1, ?_, r, hrest,
                Or.inr (Or.inr (Or.inr (Or.inl ⟨h5, hr⟩)))⟩))
              rcases h5 with h5 | h5 <;> simp [h5]
            · rw [if_neg h5] at h
              by_cases h6 : kv.1 = "additionalProperties"
              · rw [if_pos h6] at h
                by_cases h7 : kv.2.is_object = true
                · rw [if_pos h7] at h
                  obtain ⟨r, hr, hrest⟩ := RRes.bind_ok h
                  exact Or.inr (Or.inr (Or.inr ⟨hu, h1, by simp [h6], r, hrest,
                    Or.inr (Or.inr (Or.inr (Or.inr (Or.inl ⟨h6, h7, hr⟩))))⟩))
                · rw [if_neg h7] at h
                  rw [Bool.not_eq_true] at h7
                  exact Or.inr (Or.inr (Or.inr ⟨hu, h1, by simp [h6], kv.2, h,
                    Or.inr (Or.inr (Or.inr (Or.inr (Or.inr (Or.inl
                      ⟨h6, h7, rfl⟩)))))⟩))
              · rw [if_neg h6] at h
                by_cases h8 : kv.1 = "required"
                · rw [if_pos h8] at h
                  exact Or.inr (Or.inl ⟨hu, h8, h⟩)
                · rw [if_neg h8] at h
                  obtain ⟨r, hr, hrest⟩ := RRes.bind_ok h
                  push_neg at h3 h5
                  exact Or.inr (Or.inr (Or.inr ⟨hu, h1, h8, r, hrest,
                    Or.inr (Or.inr (Or.inr (Or.inr (Or.inr (Or.inr
                      ⟨h2, h3.1, h3.2, h4, h5.1, h5.2, h6, hr⟩)))))⟩))

/-- Inversion of one step of the `resolve_properties` property loop: the
visibility decides whether the property is dropped (`Omit`, also erasing the
name from `required`) or resolved, stripped, decorated and inserted, with
the `required` list updated per the visibility. -/
theorem resolve_properties_go_cons_ok {recur : ResolveFn}
    {options : ResolveOptions} {path : String} {kv : String × Json}
    {rest result : List (String × Json)} {req : List String}
    {out : List (String × Json)} {reqF : List String}
    (h : resolve_properties_go recur (kv :: rest) options path req result =
      .ok (out, reqF)) :
    ∃ vis tr, get_visibility kv.2 options.direction options.operation
        (path ++ "/" ++ kv.1) = .ok (vis, tr) ∧
      ((vis = .Omit ∧ resolve_properties_go recur rest options path
          (req.filter (fun r => r ≠ kv.1)) result = .ok (out, reqF)) ∨
       (∃ rv, recur kv.2 options (path ++ "/" ++ kv.1) = .ok rv ∧
         ((vis = .Required ∧ resolve_properties_go recur rest options path
            (if kv.1 ∈ req then req else req ++ [kv.1])
            (jinsert result kv.1
              (apply_transition_metadata (strip_annotations rv) tr)) =
            .ok (out, reqF)) ∨
          (vis = .Optional ∧ resolve_properties_go recur rest options path
            (req.filter (fun r => r ≠ kv.1))
            (jinsert result kv.1
              (apply_transition_metadata (strip_annotations rv) tr)) =
            .ok (out, reqF)) ∨
          (vis = .Include ∧ resolve_properties_go recur rest options path req
            (jinsert result kv.1
              (apply_transition_metadata (strip_annotations rv) tr)) =
            .ok (out, reqF))))) := by
  rw [resolve_properties_go] at h
  rcases hgv : get_visibility kv.2 options.direction options.operation
      (path ++ "/" ++ kv.1) with e | vt
  · simp only [hgv] at h
    exact RRes.noConfusion h
  · simp only [hgv] at h
    obtain ⟨vis, tr⟩ := vt
    refine ⟨vis, tr, rfl, ?_⟩
    cases vis with
    | Omit => exact Or.inl ⟨rfl, h⟩
    | Required =>
      obtain ⟨rv, hrv, hrest⟩ := RRes.bind_ok h
      exact Or.inr ⟨rv, hrv, Or.inl ⟨rfl, hrest⟩⟩
    | Optional =>
      obtain ⟨rv, hrv, hrest⟩ := RRes.bind_ok h
      exact Or.inr ⟨rv, hrv, Or.inr (Or.inl ⟨rfl, hrest⟩)⟩
    | Include =>
      obtain ⟨rv, hrv, hrest⟩ := RRes.bind_ok h
      exact Or.inr ⟨rv, hrv, Or.inr (Or.inr ⟨rfl, hrest⟩)⟩

/-! ## C8: omitted properties are absent from output -/

theorem contains_iff_mem (xs : List String) (x : String) :
    xs.contains x = true ↔ x ∈ xs := by
  induction xs with
  | nil => simp
  | cons a l ih =>
    constructor
    · intro h
      rw [List.contains_cons, Bool.or_eq_true] at h
      rcases h with h | h
      · rw [beq_iff_eq] at h
        exact List.mem_cons.mpr (Or.inl h)
      · exact List.mem_cons_of_mem a (ih.mp h)
    · intro h
      rw [List.contains_cons, Bool.or_eq_true]
      rcases List.mem_cons.mp h with h | h
      · left
        rw [beq_iff_eq]
        exact h
      · right
        exact ih.mpr h

theorem allDiff_cons (k : String) (ks : List String) :
    allDiff (k :: ks) = true ↔ (k ∉ ks ∧ allDiff ks = true) := by
  rw [allDiff, Bool.and_eq_true, Bool.not_eq_true']
  constructor
  · rintro ⟨h1, h2⟩
    refine ⟨?_, h2⟩
    intro hc
    rw [(contains_iff_mem ks k).mpr hc] at h1
    exact Bool.noConfusion h1
  · rintro ⟨h1, h2⟩
    refine ⟨?_, h2⟩
    rcases hc : ks.contains k with _ | _
    · rfl
    · exact absurd ((contains_iff_mem ks k).mp hc) h1

theorem resolve_properties_go_preserve (recur : ResolveFn)
    (options : ResolveOptions) (path name : String) :
    ∀ (props : List (String × Json)) (req : List String)
      (result out : List (String × Json)) (reqF : List String),
    name ∉ jkeys props →
    resolve_properties_go recur props options path req result = .ok (out, reqF) →
    jfind out name = jfind result name ∧ (name ∉ req → name ∉ reqF) := by
  intro props
  induction props with
  | nil =>
    intro req result out reqF _ h
    rw [resolve_properties_go] at h
    cases h
    exact ⟨rfl, fun hn => hn⟩
  | cons kv rest ih =>
    intro req result out reqF hmem h
    rw [jkeys_cons, List.mem_cons] at hmem
    push_neg at hmem
    obtain ⟨hne, hmem2⟩ := hmem
    obtain ⟨vis, tr, hgv, hcase⟩ := resolve_properties_go_cons_ok h
    rcases hcase with ⟨_, hrest⟩ | ⟨rv, hrv, hcase⟩
    · obtain ⟨h1, h2⟩ := ih _ _ _ _ hmem2 hrest
      exact ⟨h1, fun hn => h2 (fun hc => hn (List.mem_of_mem_filter hc))⟩
    · rcases hcase with ⟨_, hrest⟩ | ⟨_, hrest⟩ | ⟨_, hrest⟩
      · obtain ⟨h1, h2⟩ := ih _ _ _ _ hmem2 hrest
        rw [jfind_insert_ne _ _ _ _ hne] at h1
        refine ⟨h1, fun hn => h2 ?_⟩
        by_cases hc : kv.1 ∈ req
        · rw [if_pos hc]
          exact hn
        · rw [if_neg hc]
          intro hx
          rcases List.mem_append.mp hx with hx | hx
          · exact hn hx
          · rw [List.mem_singleton] at hx
            exact hne hx
      · obtain ⟨h1, h2⟩ := ih _ _ _ _ hmem2 hrest
        rw [jfind_insert_ne _ _ _ _ hne] at h1
        exact ⟨h1, fun hn => h2 (fun hc => hn (List.mem_of_mem_filter hc))⟩
      · obtain ⟨h1, h2⟩ := ih _ _ _ _ hmem2 hrest
        rw [jfind_insert_ne _ _ _ _ hne] at h1
        exact ⟨h1, fun hn => h2 hn⟩

theorem resolve_properties_go_omit (recur : ResolveFn)
    (options : ResolveOptions) (path name : String) (pv : Json)
    (tr : Option SchemaTransitionInfo)
    (hvis : ∀ p, get_visibility pv options.direction options.operation p =
      .ok (.Omit, tr)) :
    ∀ (props : List (String × Json)) (req : List String)
      (result out : List (String × Json)) (reqF : List String),
    allDiff (jkeys props) = true →
    jfind props name = some pv →
    jfind result name = none →
    resolve_properties_go recur props options path req result = .ok (out, reqF) →
    jfind out name = none ∧ name ∉ reqF := by
  intro props
  induction props with
  | nil =>
    intro req result out reqF _ hfind _ _
    simp [jfind] at hfind
  | cons kv rest ih =>
    intro req result out reqF hdiff hfind hres h
    rw [jkeys_cons] at hdiff
    rw [allDiff_cons] at hdiff
    obtain ⟨hd1, hd2⟩ := hdiff
    obtain ⟨vis, tr2, hgv, hcase⟩ := resolve_properties_go_cons_ok h
    by_cases hk : kv.1 = name
    · have hpv : kv.2 = pv := by
        rw [jfind, if_pos hk] at hfind
        exact Option.some.inj hfind
      rw [hpv, hvis _] at hgv
      have hinj := Except.ok.inj hgv
      rw [Prod.mk.injEq] at hinj
      obtain ⟨hv, ht⟩ := hinj
      rcases hcase with ⟨_, hrest⟩ | ⟨rv, hrv, hcase⟩
      · have hnm : name ∉ jkeys rest := by
          rw [← hk]
          exact hd1
        obtain ⟨h1, h2⟩ := resolve_properties_go_preserve recur options path name
          rest _ _ _ _ hnm hrest
        rw [hres] at h1
        refine ⟨h1, h2 ?_⟩
        intro hc
        have := List.of_mem_filter hc
        simp [hk] at this
      · rcases hcase with ⟨hv2, _⟩ | ⟨hv2, _⟩ | ⟨hv2, _⟩ <;>
          exact Visibility.noConfusion (hv.trans hv2)
    · have hfind2 : jfind rest name = some pv := by
        rw [jfind, if_neg hk] at hfind
        exact hfind
      have hne : name ≠ kv.1 := fun he => hk he.symm
      rcases hcase with ⟨_, hrest⟩ | ⟨rv, hrv, hcase⟩
      · exact ih _ _ _ _ hd2 hfind2 hres hrest
      · rcases hcase with ⟨_, hrest⟩ | ⟨_, hrest⟩ | ⟨_, hrest⟩ <;>
          exact ih _ _ _ _ hd2 hfind2
            (by rw [jfind_insert_ne _ _ _ _ hne]; exact hres) hrest

theorem resolve_object_go_preserve (recur : ResolveFn)
    (options : ResolveOptions) (path : String) :
    ∀ (entries result : List (String × Json)) (req : List String)
      (out : List (String × Json)) (reqF : List String),
    "properties" ∉ jkeys entries →
    resolve_object_go recur entries options path result req = .ok (out, reqF) →
    reqF = req ∧ jfind out "required" = jfind result "required" ∧
      jfind out "properties" = jfind result "properties" := by
  intro entries
  induction entries with
  | nil =>
    intro result req out reqF _ h
    rw [resolve_object_go] at h
    cases h
    exact ⟨rfl, rfl, rfl⟩
  | cons kv rest ih =>
    intro result req out reqF hmem h
    rw [jkeys_cons, List.mem_cons] at hmem
    push_neg at hmem
    obtain ⟨hne, hmem2⟩ := hmem
    rcases resolve_object_go_cons_ok h with ⟨_, hrest⟩ | ⟨_, _, hrest⟩ |
      ⟨_, hp, _⟩ | ⟨_, _, hreq, r, hrest, _⟩
    · exact ih _ _ _ _ hmem2 hrest
    · exact ih _ _ _ _ hmem2 hrest
    · exact absurd hp.symm hne
    · obtain ⟨h1, h2, h3⟩ := ih _ _ _ _ hmem2 hrest
      rw [jfind_insert_ne _ _ _ _ (fun he => hreq he.symm)] at h2
      rw [jfind_insert_ne _ _ _ _ hne] at h3
      exact ⟨h1, h2, h3⟩

theorem resolve_object_go_omit (recur : ResolveFn) (options : ResolveOptions)
    (path name : String) (pv : Json) (tr : Option SchemaTransitionInfo)
    (hvis : ∀ p, get_visibility pv options.direction options.operation p =
      .ok (.Omit, tr)) :
    ∀ (entries : List (String × Json)) (props result : List (String × Json))
      (req : List String) (out : List (String × Json)) (reqF : List String),
    allDiff (jkeys entries) = true →
    jfind entries "properties" = some (.obj props) →
    allDiff (jkeys props) = true →
    jfind props name = some pv →
    jfind result "properties" = none →
    jfind result "required" = none →
    resolve_object_go recur entries options path result req = .ok (out, reqF) →
    (∃ resMap, jfind out "properties" = some (.obj resMap) ∧
      jfind resMap name = none) ∧
    name ∉ reqF ∧ jfind out "required" = none := by
  intro entries
  induction entries with
  | nil =>
    intro props result req out reqF _ hfind _ _ _ _ _
    simp [jfind] at hfind
  | cons kv rest ih =>
    intro props result req out reqF hdiff hfind hdp hpv hrp hrr h
    rw [jkeys_cons, allDiff_cons] at hdiff
    obtain ⟨hd1, hd2⟩ := hdiff
    by_cases hk : kv.1 = "properties"
    · have hkv : kv.2 = .obj props := by
        rw [jfind, if_pos hk] at hfind
        exact Option.some.inj hfind
      rcases resolve_object_go_cons_ok h with ⟨hu, _⟩ | ⟨_, hr, _⟩ |
        ⟨_, _, pr1, pr2, hpr, hrest⟩ | ⟨_, hnp, _, _, _, _⟩
      · rw [hk] at hu
        exact Bool.noConfusion hu
      · rw [hk] at hr
        exact absurd hr (by decide)
      · rw [hkv] at hpr
        rw [resolve_properties] at hpr
        simp only [Json.as_object] at hpr
        obtain ⟨rr, hgo, hpack⟩ := RRes.bind_ok hpr
        obtain ⟨hpr1, hpr2⟩ : pr1 = .obj rr.1 ∧ pr2 = rr.2 := by
          have := RRes.ok.inj hpack
          exact ⟨(congrArg Prod.fst this).symm, (congrArg Prod.snd this).symm⟩
        obtain ⟨hm1, hm2⟩ := resolve_properties_go_omit recur options
          (path ++ "/" ++ kv.1) name pv tr hvis props _ _ _ _ hdp hpv
          (by rw [jfind]) hgo
        have hnp2 : "properties" ∉ jkeys rest := by
          rw [← hk]
          exact hd1
        obtain ⟨hq1, hq2, hq3⟩ := resolve_object_go_preserve recur options path
          rest _ _ _ _ hnp2 hrest
        refine ⟨⟨rr.1, ?_, hm1⟩, ?_, ?_⟩
        · rw [hq3, ← hk, jfind_insert_self, hpr1]
        · rw [hq1, hpr2]
          exact hm2
        · rw [hq2, jfind_insert_ne _ _ _ _ (by rw [hk]; decide), hrr]
      · exact absurd hk hnp
    · have hfind2 : jfind rest "properties" = some (.obj props) := by
        rw [jfind, if_neg hk] at hfind
        exact hfind
      rcases resolve_object_go_cons_ok h with ⟨_, hrest⟩ | ⟨_, hr, hrest⟩ |
        ⟨_, hp, _⟩ | ⟨_, _, hreq, r, hrest, _⟩
      · exact ih _ _ _ _ _ hd2 hfind2 hdp hpv hrp hrr hrest
      · exact ih _ _ _ _ _ hd2 hfind2 hdp hpv hrp hrr hrest
      · exact absurd hp hk
      · refine ih _ _ _ _ _ hd2 hfind2 hdp hpv ?_ ?_ hrest
        · rw [jfind_insert_ne _ _ _ _ (fun he => hk he.symm)]
          exact hrp
        · rw [jfind_insert_ne _ _ _ _ (fun he => hreq he.symm)]
          exact hrr

theorem str_mem_map_iff (name : String) (xs : List String) :
    (Json.str name) ∈ xs.map Json.str ↔ name ∈ xs := by
  simp

/-- **C8.** A property whose annotation resolves to `Omit` for the given
direction and operation is absent from the output `properties` map and from
the output `required` array of the enclosing object. -/
theorem C8_omit_removes_property (fuel : Nat) (m : List (String × Json))
    (options : ResolveOptions) (path : String) (out : List (String × Json))
    (props : List (String × Json)) (name : String) (pv : Json)
    (tr : Option SchemaTransitionInfo)
    (hdm : allDiff (jkeys m) = true)
    (hprops : jfind m "properties" = some (.obj props))
    (hdp : allDiff (jkeys props) = true)
    (hpv : jfind props name = some pv)
    (hvis : ∀ p, get_visibility pv options.direction options.operation p =
      .ok (.Omit, tr))
    (hres : resolve_value fuel (.obj m) options path = .ok (.obj out)) :
    (∃ resMap, jfind out "properties" = some (.obj resMap) ∧
      jfind resMap name = none) ∧
    (∀ req, jfind out "required" = some (.arr req) →
      (Json.str name) ∉ req) := by
  cases fuel with
  | zero => exact RRes.noConfusion hres
  | succ f =>
    rw [resolve_value] at hres
    rw [resolve_object] at hres
    obtain ⟨rr, hgo, hfin⟩ := RRes.bind_ok hres
    obtain ⟨⟨resMap, hf1, hf2⟩, hnr, hor⟩ := resolve_object_go_omit
      (resolve_value f) options path name pv tr hvis m props [] _ _ _
      hdm hprops hdp hpv (by rw [jfind]) (by rw [jfind]) hgo
    by_cases hc : rr.2 ≠ [] ∨ jcontains m "required" = true
    · rw [if_pos hc] at hfin
      have hout : out = jinsert rr.1 "required" (.arr (rr.2.map Json.str)) := by
        have := RRes.ok.inj hfin
        exact (Json.obj.inj this).symm
      subst hout
      constructor
      · exact ⟨resMap, by rw [jfind_insert_ne _ _ _ _ (by decide)]; exact hf1,
          hf2⟩
      · intro req hreq
        rw [jfind_insert_self] at hreq
        have : req = rr.2.map Json.str := by
          have h2 := Option.some.inj hreq
          exact (Json.arr.inj h2).symm
        subst this
        rw [str_mem_map_iff]
        exact hnr
    · rw [if_neg hc] at hfin
      have hout : out = rr.1 := by
        have := RRes.ok.inj hfin
        exact (Json.obj.inj this).symm
      subst hout
      refine ⟨⟨resMap, hf1, hf2⟩, ?_⟩
      intro req hreq
      rw [hor] at hreq
      exact Option.noConfusion hreq

/-- Witness for C8 at a concrete input: the schema of the repository's
`resolve_omits_field` CLI test, resolved for `(Request, create)`. -/
theorem C8_omit_removes_property_witness :
    (∃ resMap, jfind [("type", Json.str "object"),
        ("properties", Json.obj [("name", Json.obj [("type", Json.str "string")])])]
        "properties" = some (.obj resMap) ∧ jfind resMap "id" = none) ∧
    (∀ req, jfind [("type", Json.str "object"),
        ("properties", Json.obj [("name", Json.obj [("type", Json.str "string")])])]
        "required" = some (.arr req) → (Json.str "id") ∉ req) := by
  refine C8_omit_removes_property 10
    [("type", Json.str "object"),
     ("properties", Json.obj
       [("id", Json.obj [("type", Json.str "string"),
          ("ucp_request", Json.str "omit")]),
        ("name", Json.obj [("type", Json.str "string")])])]
    { direction := .Request, operation := "create", strict := false } ""
    _ [("id", Json.obj [("type", Json.str "string"),
          ("ucp_request", Json.str "omit")]),
       ("name", Json.obj [("type", Json.str "string")])]
    "id" (Json.obj [("type", Json.str "string"),
      ("ucp_request", Json.str "omit")]) none
    rfl rfl rfl rfl (fun p => rfl) rfl

/-! ## C1: monotonicity is checked against the last-writer-wins annotation -/

/-- Counterexample to C1 as stated: the base branch requires `id` without its
own annotation, the first extension annotates `id` with a visibility that
resolves to `Optional` for `(Request, create)` — yet resolution succeeds,
because a later extension overrides the collected annotation (last writer
wins) with `required` before injection. -/
theorem C1_counterexample :
    (resolve 10 c1_schema (ResolveOptions.new .Request "create")).isOk = true ∧
    jfind [("required", Json.arr [.str "id"]),
      ("properties", Json.obj [("id", Json.obj [("type", Json.str "string")])])]
      "required" = some (.arr [.str "id"]) ∧
    Json.get (.obj [("type", Json.str "string")]) "ucp_request" = none ∧
    get_visibility (.obj [("type", Json.str "string"),
        ("ucp_request", Json.str "optional")]) .Request "create" "" =
      .ok (.Optional, none) := by
  refine ⟨?_, rfl, rfl, rfl⟩
  rfl

theorem inject_go_weakening (props : List (String × Json))
    (base_required : List String) (ann_key op path : String) :
    ∀ annotations : List (String × Json),
    allDiff (jkeys annotations) = true →
    (∀ na, na ∈ annotations → ∃ r,
      get_visibility_from_annotation na.2 op (path ++ "/properties/" ++ na.1) =
        .ok r) →
    (∃ na, na ∈ annotations ∧ ∃ pobj vis tr,
      jfind props na.1 = some (.obj pobj) ∧
      jfind pobj ann_key = none ∧
      na.1 ∈ base_required ∧
      get_visibility_from_annotation na.2 op (path ++ "/properties/" ++ na.1) =
        .ok (vis, tr) ∧
      (vis = .Omit ∨ vis = .Optional)) →
    ∃ p fld att, inject_annotations_go annotations props base_required ann_key
        op path = .error (.MonotonicityViolation p fld "required" att) ∧
      (att = "omit" ∨ att = "optional") := by
  intro annotations
  induction annotations generalizing props with
  | nil =>
    intro _ _ hx
    obtain ⟨na, hna, _⟩ := hx
    simp at hna
  | cons na0 rest ih =>
    intro hdiff hparse hx
    rw [jkeys_cons, allDiff_cons] at hdiff
    obtain ⟨hd1, hd2⟩ := hdiff
    obtain ⟨na, hna, pobj, vis, tr, hfp, hnoann, hreq, hgv, hweak⟩ := hx
    have hstep : ∀ props2,
        (jfind props2 na.1 = jfind props na.1) →
        (∃ nb, nb ∈ rest ∧ ∃ pobj2 vis2 tr2,
          jfind props2 nb.1 = some (.obj pobj2) ∧
          jfind pobj2 ann_key = none ∧
          nb.1 ∈ base_required ∧
          get_visibility_from_annotation nb.2 op
            (path ++ "/properties/" ++ nb.1) = .ok (vis2, tr2) ∧
          (vis2 = .Omit ∨ vis2 = .Optional)) →
        ∃ p fld att, inject_annotations_go rest props2 base_required ann_key
            op path = .error (.MonotonicityViolation p fld "required" att) ∧
          (att = "omit" ∨ att = "optional") := by
      intro props2 _ hx2
      exact ih props2 hd2 (fun nb hb => hparse nb (List.mem_cons_of_mem _ hb))
        hx2
    rcases List.mem_cons.mp hna with hhead | htail
    · subst hhead
      rw [inject_annotations_go]
      simp only [hfp, Json.as_object, hnoann, Option.isSome_none,
        Bool.false_eq_true, if_false,
        (contains_iff_mem base_required na.1).mpr hreq, if_pos, hgv]
      rcases hweak with hv | hv
      · rw [hv]
        exact ⟨path ++ "/properties/" ++ na.1, na.1, "omit", rfl, Or.inl rfl⟩
      · rw [hv]
        exact ⟨path ++ "/properties/" ++ na.1, na.1, "optional", rfl,
          Or.inr rfl⟩
    · have hne : na.1 ≠ na0.1 := by
        intro he
        apply hd1
        rw [← he]
        exact List.mem_map_of_mem Prod.fst htail
      rcases hfp0 : jfind props na0.1 with _ | prop0
      · rw [inject_annotations_go]
        simp only [hfp0]
        exact hstep props rfl ⟨na, htail, pobj, vis, tr, hfp, hnoann, hreq,
          hgv, hweak⟩
      · rcases ho0 : prop0.as_object with _ | pobj0
        · rw [inject_annotations_go]
          simp only [hfp0, ho0]
          exact hstep props rfl ⟨na, htail, pobj, vis, tr, hfp, hnoann, hreq,
            hgv, hweak⟩
        · rcases ha0 : jfind pobj0 ann_key with _ | ann0
          · by_cases hr0 : na0.1 ∈ base_required
            · obtain ⟨⟨vis0, tr0⟩, hgv0⟩ :=
                hparse na0 (List.mem_cons_self na0 rest)
              rw [inject_annotations_go]
              simp only [hfp0, ho0, ha0, Option.isSome_none,
                Bool.false_eq_true, if_false,
                (contains_iff_mem base_required na0.1).mpr hr0, if_pos, hgv0]
              cases vis0 with
              | Omit =>
                exact ⟨path ++ "/properties/" ++ na0.1, na0.1, "omit", rfl,
                  Or.inl rfl⟩
              | Optional =>
                exact ⟨path ++ "/properties/" ++ na0.1, na0.1, "optional", rfl,
                  Or.inr rfl⟩
              | Required =>
                refine hstep _ (jfind_insert_ne _ _ _ _ hne) ⟨na, htail, pobj,
                  vis, tr, ?_, hnoann, hreq, hgv, hweak⟩
                rw [jfind_insert_ne _ _ _ _ hne]
                exact hfp
              | Include =>
                refine hstep _ (jfind_insert_ne _ _ _ _ hne) ⟨na, htail, pobj,
                  vis, tr, ?_, hnoann, hreq, hgv, hweak⟩
                rw [jfind_insert_ne _ _ _ _ hne]
                exact hfp
            · rw [inject_annotations_go]
              simp only [hfp0, ho0, ha0, Option.isSome_none,
                Bool.false_eq_true, if_false]
              rw [if_neg (by
                intro hc
                exact hr0 ((contains_iff_mem base_required na0.1).mp hc))]
              refine hstep _ (jfind_insert_ne _ _ _ _ hne) ⟨na, htail, pobj,
                vis, tr, ?_, hnoann, hreq, hgv, hweak⟩
              rw [jfind_insert_ne _ _ _ _ hne]
              exact hfp
          · rw [inject_annotations_go]
            simp only [hfp0, ho0, ha0, Option.isSome_some, if_pos]
            exact hstep props rfl ⟨na, htail, pobj, vis, tr, hfp, hnoann,
              hreq, hgv, hweak⟩

/-- **C1 (amended).** `allOf` monotonicity is enforced against the collected
last-writer-wins annotation, not against each branch's annotation: if the
collected annotation for a field that the branch's own `required` lists —
and whose property entry carries no annotation of its own — resolves to
`Omit` or `Optional` for the current operation (and every collected
annotation parses), then annotation injection fails with
`MonotonicityViolation` carrying `base_status = "required"` and an attempted
visibility of `"omit"` or `"optional"`.  (As stated the claim is refuted by
`C1_counterexample`: a later branch's overriding annotation suppresses the
violation.) -/
theorem C1_monotonicity_last_writer (branch : Json)
    (annotations : List (String × Json)) (ann_key : String)
    (options : ResolveOptions) (path : String)
    (bm props : List (String × Json))
    (hb : branch = .obj bm)
    (hprops : jfind bm "properties" = some (.obj props))
    (hnodup : allDiff (jkeys annotations) = true)
    (hparse : ∀ na, na ∈ annotations → ∃ r,
      get_visibility_from_annotation na.2 options.operation
        (path ++ "/properties/" ++ na.1) = .ok r)
    (hx : ∃ na, na ∈ annotations ∧ ∃ pobj vis tr,
      jfind props na.1 = some (.obj pobj) ∧
      jfind pobj ann_key = none ∧
      na.1 ∈ required_strings bm ∧
      get_visibility_from_annotation na.2 options.operation
        (path ++ "/properties/" ++ na.1) = .ok (vis, tr) ∧
      (vis = .Omit ∨ vis = .Optional)) :
    ∃ p fld att, inject_annotations branch annotations ann_key options path =
      .error (.MonotonicityViolation p fld "required" att) ∧
      (att = "omit" ∨ att = "optional") := by
  subst hb
  obtain ⟨p, fld, att, hgo, hatt⟩ := inject_go_weakening props
    (required_strings bm) ann_key options.operation path annotations hnodup
    hparse hx
  refine ⟨p, fld, att, ?_, hatt⟩
  rw [inject_annotations]
  simp only [Json.as_object, hprops, hgo]

/-- Witness for the amended C1 at a concrete input: injecting a collected
`optional` annotation for the base-required, un-annotated field `id` fails
with a `MonotonicityViolation` whose attempted visibility is `optional`. -/
theorem C1_monotonicity_last_writer_witness :
    ∃ p fld att, inject_annotations c1_base [("id", Json.str "optional")]
        "ucp_request"
        { direction := .Request, operation := "create", strict := false }
        "/allOf/0" =
      .error (.MonotonicityViolation p fld "required" att) ∧
      (att = "omit" ∨ att = "optional") := by
  refine C1_monotonicity_last_writer c1_base [("id", Json.str "optional")]
    "ucp_request" _ "/allOf/0"
    [("required", Json.arr [.str "id"]),
     ("properties", Json.obj [("id", Json.obj [("type", Json.str "string")])])]
    [("id", Json.obj [("type", Json.str "string")])]
    rfl rfl rfl ?_ ?_
  · intro na hna
    rw [List.mem_singleton] at hna
    subst hna
    exact ⟨(.Optional, none), rfl⟩
  · refine ⟨("id", Json.str "optional"), List.mem_singleton.mpr rfl,
      [("type", Json.str "string")], .Optional, none, rfl, rfl, ?_, rfl,
      Or.inr rfl⟩
    decide

/-! ## C9: key order through resolve_object -/

/-- Counterexample to C9 as stated: on an input object whose keys are
`["required", "properties"]` the resolver succeeds with output keys
`["properties", "required"]` — `required` is skipped during the key loop and
re-emitted at the end, so it does not keep its original relative position. -/
theorem C9_counterexample :
    jkeys c9_entries = ["required", "properties"] ∧
    ∃ out, resolve 10 (.obj c9_entries)
        (ResolveOptions.new .Request "create") = .ok (.obj out) ∧
      jkeys out = ["properties", "required"] := by
  refine ⟨rfl, [("properties", .obj [("a", .obj [("type", .str "string")])]),
    ("required", .arr [.str "a"])], rfl, rfl⟩

theorem resolve_object_go_keys (recur : ResolveFn) (options : ResolveOptions)
    (path : String) :
    ∀ (entries result : List (String × Json)) (req : List String)
      (out : List (String × Json)) (reqF : List String),
    allDiff (jkeys entries) = true →
    (∀ k, k ∈ jkeys entries → k ∉ jkeys result) →
    resolve_object_go recur entries options path result req = .ok (out, reqF) →
    jkeys out = jkeys result ++
      (jkeys entries).filter (fun k => !isUcpKey k && !(k == "required")) := by
  intro entries
  induction entries with
  | nil =>
    intro result req out reqF _ _ h
    rw [resolve_object_go] at h
    cases h
    simp [jkeys_nil]
  | cons kv rest ih =>
    intro result req out reqF hdiff hfresh h
    rw [jkeys_cons, allDiff_cons] at hdiff
    obtain ⟨hd1, hd2⟩ := hdiff
    have hfresh2 : ∀ k, k ∈ jkeys rest → k ∉ jkeys result :=
      fun k hk => hfresh k (by rw [jkeys_cons]; exact List.mem_cons_of_mem _ hk)
    have hkvres : kv.1 ∉ jkeys result :=
      hfresh kv.1 (by rw [jkeys_cons]; exact List.mem_cons_self _ _)
    have hinsfresh : ∀ (x : Json), ∀ k, k ∈ jkeys rest →
        k ∉ jkeys (jinsert result kv.1 x) := by
      intro x k hk
      rw [jkeys_insert_of_not_mem _ _ _ hkvres]
      intro hc
      rcases List.mem_append.mp hc with hc | hc
      · exact hfresh2 k hk hc
      · rw [List.mem_singleton] at hc
        exact hd1 (hc ▸ hk)
    have hinskeys : ∀ (x : Json),
        jkeys (jinsert result kv.1 x) = jkeys result ++ [kv.1] :=
      fun x => jkeys_insert_of_not_mem _ _ _ hkvres
    rcases resolve_object_go_cons_ok h with ⟨hu, hrest⟩ | ⟨hu, hr, hrest⟩ |
      ⟨hu, hp, pr1, pr2, hpr, hrest⟩ | ⟨hu, hnp, hnr, r, hrest, _⟩
    · rw [jkeys_cons, List.filter_cons, if_neg (by simp [hu]), ih _ _ _ _ hd2
        hfresh2 hrest]
    · rw [jkeys_cons, List.filter_cons, if_neg (by simp [hr]), ih _ _ _ _ hd2
        hfresh2 hrest]
    · rw [ih _ _ _ _ hd2 (hinsfresh pr1) hrest, hinskeys pr1, jkeys_cons,
        List.filter_cons, if_pos (by rw [hp]; decide), List.append_assoc]
      rfl
    · have hpred : (!isUcpKey kv.1 && !(kv.1 == "required")) = true := by
        rw [Bool.and_eq_true, Bool.not_eq_true', Bool.not_eq_true']
        exact ⟨hu, beq_eq_false_iff_ne.mpr hnr⟩
      rw [ih _ _ _ _ hd2 (hinsfresh r) hrest, hinskeys r, jkeys_cons,
        List.filter_cons, if_pos hpred, List.append_assoc]
      rfl

/-- **C9 (amended).** Output objects keep the input key order for every key
except `required`: the output key list is exactly the input key list with
UCP annotation keys and `required` removed, followed by `required` when it
is (re-)emitted — so `required`, when present, is always the last key of
its object rather than keeping its original position.  (C9 as stated is
refuted by `C9_counterexample`.) -/
theorem C9_key_order (fuel : Nat) (m : List (String × Json))
    (options : ResolveOptions) (path : String) (out : List (String × Json))
    (hdm : allDiff (jkeys m) = true)
    (hres : resolve_value fuel (.obj m) options path = .ok (.obj out)) :
    ∃ sfx, (sfx = [] ∨ sfx = ["required"]) ∧
      jkeys out = (jkeys m).filter
        (fun k => !isUcpKey k && !(k == "required")) ++ sfx ∧
      ("required" ∈ jkeys m → sfx = ["required"]) := by
  cases fuel with
  | zero => exact RRes.noConfusion hres
  | succ f =>
    rw [resolve_value, resolve_object] at hres
    obtain ⟨rr, hgo, hfin⟩ := RRes.bind_ok hres
    have hkeys := resolve_object_go_keys (resolve_value f) options path m []
      _ _ _ hdm (fun k _ => by simp [jkeys_nil]) hgo
    rw [jkeys_nil, List.nil_append] at hkeys
    have hreqnot : "required" ∉ jkeys rr.1 := by
      rw [hkeys]
      intro hc
      have := List.of_mem_filter hc
      simp at this
    by_cases hc : rr.2 ≠ [] ∨ jcontains m "required" = true
    · rw [if_pos hc] at hfin
      have hout : out = jinsert rr.1 "required" (.arr (rr.2.map Json.str)) := by
        have := RRes.ok.inj hfin
        exact (Json.obj.inj this).symm
      subst hout
      refine ⟨["required"], Or.inr rfl, ?_, fun _ => rfl⟩
      rw [jkeys_insert_of_not_mem _ _ _ hreqnot, hkeys]
    · rw [if_neg hc] at hfin
      have hout : out = rr.1 := by
        have := RRes.ok.inj hfin
        exact (Json.obj.inj this).symm
      subst hout
      push_neg at hc
      refine ⟨[], Or.inl rfl, by rw [hkeys, List.append_nil], ?_⟩
      intro hmem
      have : jcontains m "required" = true := by
        rw [jcontains]
        rcases hf : jfind m "required" with _ | v
        · exact absurd hmem ((jfind_eq_none_iff m "required").mp hf)
        · rfl
      rw [this] at hc
      exact absurd rfl hc.2

/-- Witness for the amended C9 at the counterexample input. -/
theorem C9_key_order_witness :
    ∃ sfx, (sfx = [] ∨ sfx = ["required"]) ∧
      jkeys [("properties", Json.obj [("a", Json.obj
        [("type", Json.str "string")])]), ("required", Json.arr [.str "a"])] =
        (jkeys c9_entries).filter
          (fun k => !isUcpKey k && !(k == "required")) ++ sfx ∧
      ("required" ∈ jkeys c9_entries → sfx = ["required"]) :=
  C9_key_order 10 c9_entries (ResolveOptions.new .Request "create") "" _
    rfl rfl

/-! ## C4: strict-mode closure -/

theorem jfind_close_entries : ∀ (kvs : List (String × Json)) (k : String),
    jfind (close_entries kvs) k = (jfind kvs k).map (close_entry_transform k)
  | [], _ => rfl
  | kv :: rest, k => by
    rw [close_entries, jfind, jfind]
    by_cases h : kv.1 = k
    · rw [if_pos h, if_pos h]
      subst h
      rfl
    · rw [if_neg h, if_neg h]
      exact jfind_close_entries rest k

theorem close_entry_transform_type (v : Json) :
    close_entry_transform "type" v = v := by
  simp only [close_entry_transform]
  rw [if_neg (by decide), if_neg (by decide), if_neg (by decide),
    if_neg (by decide)]

theorem close_entry_transform_uP (v : Json) :
    close_entry_transform "unevaluatedProperties" v =
      close_additional_properties_inner v false := by
  simp only [close_entry_transform]
  rw [if_neg (by decide), if_pos (by decide)]

theorem close_entry_transform_aP (v : Json) :
    close_entry_transform "additionalProperties" v =
      close_additional_properties_inner v false := by
  simp only [close_entry_transform]
  rw [if_neg (by decide), if_pos (by decide)]

theorem jfind_close_entries_type (kvs : List (String × Json)) :
    jfind (close_entries kvs) "type" = jfind kvs "type" := by
  rw [jfind_close_entries]
  cases jfind kvs "type" with
  | none => rfl
  | some v =>
    show some (close_entry_transform "type" v) = some v
    rw [close_entry_transform_type]

theorem jcontains_close_entries (kvs : List (String × Json)) (k : String) :
    jcontains (close_entries kvs) k = jcontains kvs k := by
  simp only [jcontains, jfind_close_entries]
  cases jfind kvs k <;> rfl

theorem jcontains_insert_ne (l : List (String × Json)) (k k2 : String)
    (v : Json) (h : k2 ≠ k) :
    jcontains (jinsert l k v) k2 = jcontains l k2 := by
  simp only [jcontains, jfind_insert_ne l k k2 v h]

theorem has_composition_close (kvs : List (String × Json)) :
    has_composition_b (close_entries kvs) = has_composition_b kvs := by
  simp only [has_composition_b, jcontains_close_entries]

theorem has_composition_insert_closing (l : List (String × Json)) (k : String)
    (v : Json) (h1 : "allOf" ≠ k) (h2 : "anyOf" ≠ k) (h3 : "oneOf" ≠ k) :
    has_composition_b (jinsert l k v) = has_composition_b l := by
  simp only [has_composition_b, jcontains_insert_ne l k "allOf" v h1,
    jcontains_insert_ne l k "anyOf" v h2, jcontains_insert_ne l k "oneOf" v h3]

theorem is_object_schema_close (kvs : List (String × Json)) :
    is_object_schema_b (close_entries kvs) = is_object_schema_b kvs := by
  simp only [is_object_schema_b, jcontains_close_entries,
    jfind_close_entries_type]

theorem is_object_schema_insert (l : List (String × Json)) (k : String)
    (v : Json) (h1 : "type" ≠ k) (h2 : "properties" ≠ k) :
    is_object_schema_b (jinsert l k v) = is_object_schema_b l := by
  simp only [is_object_schema_b, jfind_insert_ne l k "type" v h1,
    jcontains_insert_ne l k "properties" v h2]

theorem closure_ok_obj (kvs : List (String × Json)) (b : Bool) :
    closure_ok (some (close_additional_properties_inner (.obj kvs) b)) =
      true := by
  simp only [close_additional_properties_inner]
  split
  · split
    · split <;> rfl
    · split <;> rfl
  · rfl

theorem closure_ok_close (w : Json) (hbt : w ≠ Json.bool true) :
    closure_ok (some (close_additional_properties_inner w false)) = true := by
  cases w with
  | obj kvs => exact closure_ok_obj kvs false
  | null => rfl
  | bool x =>
    cases x with
    | false => rfl
    | true => exact absurd rfl hbt
  | num n => rfl
  | str s2 => rfl
  | arr xs => rfl

theorem closed_entries_insert_closing : ∀ (l : List (String × Json))
    (k : String),
    (k = "additionalProperties" ∨ k = "unevaluatedProperties") →
    closed_entries l = true →
    closed_entries (jinsert l k (.bool false)) = true
  | [], k, hk, _ => by rcases hk with rfl | rfl <;> rfl
  | kv :: rest, k, hk, h => by
    rw [closed_entries, Bool.and_eq_true] at h
    rw [jinsert]
    by_cases he : kv.1 = k
    · rw [if_pos he, closed_entries, Bool.and_eq_true]
      refine ⟨?_, h.2⟩
      rw [he]
      rcases hk with rfl | rfl <;> rfl
    · rw [if_neg he, closed_entries, Bool.and_eq_true]
      exact ⟨h.1, closed_entries_insert_closing rest k hk h.2⟩

theorem strict_closed_walked_in_comp (kvs : List (String × Json))
    (hE : closed_entries (close_entries kvs) = true) :
    strict_closed (.obj (close_entries kvs)) true = true := by
  simp only [strict_closed, Bool.and_eq_true]
  refine ⟨?_, hE⟩
  simp only [node_closed, Bool.not_true, Bool.false_and]
  rfl

theorem strict_closed_insert_uP (kvs : List (String × Json))
    (hH : has_composition_b kvs = true)
    (hE : closed_entries (close_entries kvs) = true) :
    strict_closed
      (.obj (jinsert (close_entries kvs) "unevaluatedProperties" (.bool false)))
      false = true := by
  simp only [strict_closed, Bool.and_eq_true]
  refine ⟨?_, closed_entries_insert_closing (close_entries kvs)
    "unevaluatedProperties" (Or.inr rfl) hE⟩
  simp only [node_closed,
    has_composition_insert_closing (close_entries kvs) "unevaluatedProperties"
      (.bool false) (by decide) (by decide) (by decide),
    has_composition_close, hH, Bool.or_true, Bool.not_false, Bool.true_and,
    jfind_insert_self]
  rfl

theorem strict_closed_walked_comp (kvs : List (String × Json)) (w : Json)
    (hH : has_composition_b kvs = true)
    (hU : jfind kvs "unevaluatedProperties" = some w)
    (hbt : w ≠ Json.bool true)
    (hE : closed_entries (close_entries kvs) = true) :
    strict_closed (.obj (close_entries kvs)) false = true := by
  simp only [strict_closed, Bool.and_eq_true]
  refine ⟨?_, hE⟩
  have hfind : jfind (close_entries kvs) "unevaluatedProperties"
      = some (close_additional_properties_inner w false) := by
    rw [jfind_close_entries, hU]
    show some (close_entry_transform "unevaluatedProperties" w) = _
    rw [close_entry_transform_uP]
  simp only [node_closed, has_composition_close, hH, Bool.or_true,
    Bool.not_false, Bool.true_and, hfind, closure_ok_close w hbt]
  rfl

theorem strict_closed_insert_aP (kvs : List (String × Json))
    (hH : has_composition_b kvs = false)
    (hI : is_object_schema_b kvs = true)
    (hE : closed_entries (close_entries kvs) = true) :
    strict_closed
      (.obj (jinsert (close_entries kvs) "additionalProperties" (.bool false)))
      false = true := by
  simp only [strict_closed, Bool.and_eq_true]
  refine ⟨?_, closed_entries_insert_closing (close_entries kvs)
    "additionalProperties" (Or.inl rfl) hE⟩
  simp only [node_closed,
    has_composition_insert_closing (close_entries kvs) "additionalProperties"
      (.bool false) (by decide) (by decide) (by decide),
    is_object_schema_insert (close_entries kvs) "additionalProperties"
      (.bool false) (by decide) (by decide),
    has_composition_close, is_object_schema_close, hH, hI,
    Bool.true_or, Bool.not_false, Bool.true_and, jfind_insert_self]
  rfl

theorem strict_closed_walked_obj (kvs : List (String × Json)) (w : Json)
    (hH : has_composition_b kvs = false)
    (hI : is_object_schema_b kvs = true)
    (hA : jfind kvs "additionalProperties" = some w)
    (hbt : w ≠ Json.bool true)
    (hE : closed_entries (close_entries kvs) = true) :
    strict_closed (.obj (close_entries kvs)) false = true := by
  simp only [strict_closed, Bool.and_eq_true]
  refine ⟨?_, hE⟩
  have hfind : jfind (close_entries kvs) "additionalProperties"
      = some (close_additional_properties_inner w false) := by
    rw [jfind_close_entries, hA]
    show some (close_entry_transform "additionalProperties" w) = _
    rw [close_entry_transform_aP]
  simp only [node_closed, has_composition_close, is_object_schema_close,
    hH, hI, Bool.true_or, Bool.not_false, Bool.true_and, hfind,
    closure_ok_close w hbt]
  rfl

theorem strict_closed_walked_plain (kvs : List (String × Json))
    (hH : has_composition_b kvs = false)
    (hI : is_object_schema_b kvs = false)
    (hE : closed_entries (close_entries kvs) = true) :
    strict_closed (.obj (close_entries kvs)) false = true := by
  simp only [strict_closed, Bool.and_eq_true]
  refine ⟨?_, hE⟩
  simp only [node_closed, has_composition_close, is_object_schema_close,
    hH, hI, Bool.or_false, Bool.not_false, Bool.true_and]
  rfl

mutual
/-- The strict closer establishes the `strict_closed` invariant on every
value, for either composition flag. -/
theorem strict_closed_close : ∀ (v : Json) (b : Bool),
    strict_closed (close_additional_properties_inner v b) b = true
  | .obj kvs, b => by
    have hE := closed_entries_close kvs
    simp only [close_additional_properties_inner]
    cases b with
    | true => exact strict_closed_walked_in_comp kvs hE
    | false =>
      cases hH : has_composition_b kvs with
      | true =>
        rw [Bool.or_true]
        rcases hU : jfind kvs "unevaluatedProperties" with _ | u
        · exact strict_closed_insert_uP kvs hH hE
        · cases u with
          | null =>
            exact strict_closed_walked_comp kvs .null hH hU
                (fun h => Json.noConfusion h) hE
          | bool x =>
            cases x with
            | true => exact strict_closed_insert_uP kvs hH hE
            | false =>
              exact strict_closed_walked_comp kvs (.bool false) hH hU
                  (fun h => Bool.noConfusion (Json.bool.inj h)) hE
          | num n =>
            exact strict_closed_walked_comp kvs (.num n) hH hU
                (fun h => Json.noConfusion h) hE
          | str s2 =>
            exact strict_closed_walked_comp kvs (.str s2) hH hU
                (fun h => Json.noConfusion h) hE
          | arr xs =>
            exact strict_closed_walked_comp kvs (.arr xs) hH hU
                (fun h => Json.noConfusion h) hE
          | obj m2 =>
            exact strict_closed_walked_comp kvs (.obj m2) hH hU
                (fun h => Json.noConfusion h) hE
      | false =>
        cases hI : is_object_schema_b kvs with
        | true =>
          rcases hA : jfind kvs "additionalProperties" with _ | u
          · exact strict_closed_insert_aP kvs hH hI hE
          · cases u with
            | null =>
              exact strict_closed_walked_obj kvs .null hH hI hA
                  (fun h => Json.noConfusion h) hE
            | bool x =>
              cases x with
              | true => exact strict_closed_insert_aP kvs hH hI hE
              | false =>
                exact strict_closed_walked_obj kvs (.bool false) hH hI
                    hA (fun h => Bool.noConfusion (Json.bool.inj h)) hE
            | num n =>
              exact strict_closed_walked_obj kvs (.num n) hH hI hA
                  (fun h => Json.noConfusion h) hE
            | str s2 =>
              exact strict_closed_walked_obj kvs (.str s2) hH hI hA
                  (fun h => Json.noConfusion h) hE
            | arr xs =>
              exact strict_closed_walked_obj kvs (.arr xs) hH hI hA
                  (fun h => Json.noConfusion h) hE
            | obj m2 =>
              exact strict_closed_walked_obj kvs (.obj m2) hH hI hA
                  (fun h => Json.noConfusion h) hE
        | false => exact strict_closed_walked_plain kvs hH hI hE
  | .null, _ => rfl
  | .bool x, _ => rfl
  | .num n, _ => rfl
  | .str s2, _ => rfl
  | .arr xs, _ => rfl

/-- The closer's entry walk establishes `closed_entries`. -/
theorem closed_entries_close : ∀ kvs : List (String × Json),
    closed_entries (close_entries kvs) = true
  | [] => rfl
  | kv :: rest => by
    simp only [close_entries, closed_entries, Bool.and_eq_true]
    refine ⟨?_, closed_entries_close rest⟩
    by_cases h1 : kv.1 = "properties"
    · rw [if_pos h1, if_pos h1]
      exact closed_map_close kv.2
    · rw [if_neg h1, if_neg h1]
      by_cases h2 : kv.1 = "items" ∨ kv.1 = "additionalProperties" ∨
          kv.1 = "unevaluatedProperties"
      · rw [if_pos h2, if_pos h2]
        exact strict_closed_close kv.2 false
      · rw [if_neg h2, if_neg h2]
        by_cases h3 : kv.1 = "$defs" ∨ kv.1 = "definitions"
        · rw [if_pos h3, if_pos h3]
          exact closed_map_close kv.2
        · rw [if_neg h3, if_neg h3]
          by_cases h4 : kv.1 = "allOf" ∨ kv.1 = "anyOf" ∨ kv.1 = "oneOf"
          · rw [if_pos h4, if_pos h4]
            exact closed_branches_close kv.2
          · rw [if_neg h4]

/-- The member walk on `properties`/definition maps establishes
`closed_map`. -/
theorem closed_map_close : ∀ v : Json, closed_map (close_map_json v) = true
  | .obj kvs => by
    simp only [close_map_json, closed_map]
    exact closed_map_values_close kvs
  | .null => rfl
  | .bool x => rfl
  | .num n => rfl
  | .str s2 => rfl
  | .arr xs => rfl

/-- Member values of a walked map are all closed. -/
theorem closed_map_values_close : ∀ kvs : List (String × Json),
    closed_map_values (close_map_values kvs) = true
  | [] => rfl
  | kv :: rest => by
    simp only [close_map_values, closed_map_values, Bool.and_eq_true]
    exact ⟨strict_closed_close kv.2 false, closed_map_values_close rest⟩

/-- The branch walk on composition values establishes `closed_branches`. -/
theorem closed_branches_close : ∀ v : Json,
    closed_branches (close_branches_json v) = true
  | .arr xs => by
    simp only [close_branches_json, closed_branches]
    exact closed_branch_list_close xs
  | .null => rfl
  | .bool x => rfl
  | .num n => rfl
  | .str s2 => rfl
  | .obj kvs => rfl

/-- Elements of a walked composition array are all closed as branches. -/
theorem closed_branch_list_close : ∀ xs : List Json,
    closed_branch_list (close_branch_list xs) = true
  | [] => rfl
  | v :: rest => by
    simp only [close_branch_list, closed_branch_list, Bool.and_eq_true]
    exact ⟨strict_closed_close v true, closed_branch_list_close rest⟩
end

/-- C4 counterexample: in strict mode, an object schema carrying a
pre-existing non-boolean `additionalProperties` resolves successfully to an
object-shaped node (`type: "object"`) that has neither
`additionalProperties: false` nor `unevaluatedProperties: false` — the
closer leaves the non-boolean value alone — refuting the claim that every
object-shaped output node carries one of the two closing keywords with
value `false`. -/
theorem C4_counterexample :
    resolve 10 (.obj c4_entries)
      { direction := .Request, operation := "create", strict := true } =
      .ok (.obj c4_entries) ∧
    jfind c4_entries "type" = some (.str "object") ∧
    jfind c4_entries "additionalProperties" =
      some (.obj [("type", .str "string")]) ∧
    jfind c4_entries "unevaluatedProperties" = none :=
  ⟨rfl, rfl, rfl, rfl⟩

/-- C4 (amended): whenever `resolve` succeeds with `options.strict` set, the
output satisfies `strict_closed`: every node visited by the strict closer
(through `properties`/`$defs`/`definitions` members,
`items`/`additionalProperties`/`unevaluatedProperties` values and
composition-array elements) that is object-shaped or uses composition, and
is not itself a direct composition-array element, carries
`unevaluatedProperties` (composition) or `additionalProperties` (simple
object) with a non-`true` value: either the inserted `false`, or a
pre-existing non-boolean value left alone. -/
theorem C4_strict_closure (fuel : Nat) (schema : Json)
    (options : ResolveOptions) (out : Json)
    (hstrict : options.strict = true)
    (hres : resolve fuel schema options = .ok out) :
    strict_closed out false = true := by
  simp only [resolve] at hres
  obtain ⟨mid, hmid, hfin⟩ := RRes.bind_ok hres
  rw [hstrict] at hfin
  have h2 : close_additional_properties mid = out := RRes.ok.inj hfin
  rw [← h2]
  exact strict_closed_close mid false

/-- Witness for the amended C4 at a concrete strict resolution. -/
theorem C4_strict_closure_witness :
    ({ direction := .Request, operation := "create", strict := true } :
        ResolveOptions).strict = true ∧
    resolve 10 (.obj [("type", Json.str "object")])
      { direction := .Request, operation := "create", strict := true } =
      .ok (.obj [("type", Json.str "object"),
                 ("additionalProperties", Json.bool false)]) ∧
    strict_closed (.obj [("type", Json.str "object"),
                 ("additionalProperties", Json.bool false)]) false = true :=
  ⟨rfl, rfl,
    C4_strict_closure 10 (.obj [("type", Json.str "object")])
      { direction := .Request, operation := "create", strict := true }
      (.obj [("type", Json.str "object"),
             ("additionalProperties", Json.bool false)]) rfl rfl⟩

/-! ## C2: no UCP annotation keys in output -/

theorem as_object_eq_some {v : Json} {o : List (String × Json)}
    (h : v.as_object = some o) : v = .obj o := by
  cases v <;> simp_all [Json.as_object]

theorem no_ucp_primitive (v : Json) (ho : v.is_object = false)
    (ha : v.is_array = false) : no_ucp_keys v = true := by
  cases v <;> simp_all [Json.is_object, Json.is_array, no_ucp_keys]

theorem no_ucp_arr_strings (xs : List String) :
    no_ucp_keys (.arr (xs.map Json.str)) = true := by
  rw [no_ucp_keys]
  induction xs with
  | nil => rfl
  | cons x rest ih =>
    rw [List.map_cons, no_ucp_list, Bool.and_eq_true]
    exact ⟨rfl, ih⟩

theorem allDiff_append_singleton (l : List String) (k : String)
    (hd : allDiff l = true) (hk : k ∉ l) : allDiff (l ++ [k]) = true := by
  induction l with
  | nil => rfl
  | cons a rest ih =>
    rw [allDiff_cons] at hd
    rw [List.cons_append, allDiff_cons]
    refine ⟨?_, ih hd.2 (fun hm => hk (List.mem_cons_of_mem a hm))⟩
    intro hmem
    rcases List.mem_append.mp hmem with hm | hm
    · exact hd.1 hm
    · rw [List.mem_singleton] at hm
      exact hk (by rw [← hm]; exact List.mem_cons_self a rest)

theorem shape_values_insert (l : List (String × Json)) (k : String) (v : Json)
    (hl : shape_values l = true) (hv : shape_ok v = true) :
    shape_values (jinsert l k v) = true := by
  induction l with
  | nil =>
    rw [jinsert, shape_values, Bool.and_eq_true]
    exact ⟨hv, rfl⟩
  | cons kv rest ih =>
    rw [shape_values, Bool.and_eq_true] at hl
    rw [jinsert]
    split
    · rw [shape_values, Bool.and_eq_true]
      exact ⟨hv, hl.2⟩
    · rw [shape_values, Bool.and_eq_true]
      exact ⟨hl.1, ih hl.2⟩

theorem shape_values_find : ∀ (l : List (String × Json)) (k : String) (v : Json),
    shape_values l = true → jfind l k = some v → shape_ok v = true
  | [], k, v, _, hf => by
    rw [jfind] at hf
    exact Option.noConfusion hf
  | kv :: rest, k, v, hl, hf => by
    rw [shape_values, Bool.and_eq_true] at hl
    rw [jfind] at hf
    by_cases hk : kv.1 = k
    · rw [if_pos hk] at hf
      injection hf with hv
      rw [← hv]
      exact hl.1
    · rw [if_neg hk] at hf
      exact shape_values_find rest k v hl.2 hf

theorem shape_entries_insert_ucp (l : List (String × Json)) (k : String)
    (v : Json) (hl : shape_entries l = true) (hk : isUcpKey k = true) :
    shape_entries (jinsert l k v) = true := by
  induction l with
  | nil =>
    rw [jinsert, shape_entries, Bool.and_eq_true]
    refine ⟨?_, rfl⟩
    rw [if_pos hk]
  | cons kv rest ih =>
    rw [shape_entries, Bool.and_eq_true] at hl
    rw [jinsert]
    by_cases he : kv.1 = k
    · rw [if_pos he, shape_entries, Bool.and_eq_true]
      refine ⟨?_, hl.2⟩
      have huk : isUcpKey kv.1 = true := by rw [he]; exact hk
      rw [if_pos huk]
    · rw [if_neg he, shape_entries, Bool.and_eq_true]
      exact ⟨hl.1, ih hl.2⟩

theorem shape_entries_find_props : ∀ (l : List (String × Json)) (v : Json),
    shape_entries l = true → jfind l "properties" = some v →
    shape_members v = true
  | [], v, _, hf => by
    rw [jfind] at hf
    exact Option.noConfusion hf
  | kv :: rest, v, hl, hf => by
    rw [shape_entries, Bool.and_eq_true] at hl
    rw [jfind] at hf
    by_cases hk : kv.1 = "properties"
    · rw [if_pos hk] at hf
      injection hf with hv
      have h1 := hl.1
      rw [hk, if_neg (by decide), if_pos (by decide)] at h1
      rw [← hv]
      exact h1
    · rw [if_neg hk] at hf
      exact shape_entries_find_props rest v hl.2 hf

theorem shape_entries_insert_props (l : List (String × Json)) (v : Json)
    (hl : shape_entries l = true) (hv : shape_members v = true) :
    shape_entries (jinsert l "properties" v) = true := by
  induction l with
  | nil =>
    rw [jinsert, shape_entries, Bool.and_eq_true]
    refine ⟨?_, rfl⟩
    have hnu : ¬(isUcpKey "properties" = true) := by decide
    have hgp : ("properties" : String) = "properties" ∨
        ("properties" : String) = "$defs" ∨
        ("properties" : String) = "definitions" := Or.inl rfl
    rw [if_neg hnu, if_pos hgp]
    exact hv
  | cons kv rest ih =>
    rw [shape_entries, Bool.and_eq_true] at hl
    rw [jinsert]
    by_cases he : kv.1 = "properties"
    · rw [if_pos he, shape_entries, Bool.and_eq_true]
      refine ⟨?_, hl.2⟩
      rw [he, if_neg (by decide), if_pos (by decide)]
      exact hv
    · rw [if_neg he, shape_entries, Bool.and_eq_true]
      exact ⟨hl.1, ih hl.2⟩

theorem no_ucp_apply_transition (v : Json) (tr : Option SchemaTransitionInfo)
    (h : no_ucp_keys v = true) :
    no_ucp_keys (apply_transition_metadata v tr) = true := by
  cases v with
  | obj kvs =>
    cases tr with
    | none => exact h
    | some info =>
      simp only [apply_transition_metadata]
      rw [no_ucp_keys] at h
      have h1 : no_ucp_entries (jinsert kvs "x-ucp-schema-transition"
          (.obj [("from", .str info.from_), ("to", .str info.to_),
                 ("description", .str info.description)])) = true :=
        no_ucp_entries_insert kvs _ _ h (by decide) rfl
      by_cases ho : info.to_ = "omit"
      · rw [if_pos ho, no_ucp_keys]
        exact no_ucp_entries_insert _ _ _ h1 (by decide) rfl
      · rw [if_neg ho, no_ucp_keys]
        exact h1
  | null => exact h
  | bool b => exact h
  | num n => exact h
  | str s2 => exact h
  | arr xs => exact h

theorem isUcpKey_direction (d : Direction) :
    isUcpKey d.annotation_key = true := by
  cases d <;> rfl

theorem resolve_properties_go_no_ucp (recur : ResolveFn)
    (options : ResolveOptions) (path : String) :
    ∀ (props : List (String × Json)) (req : List String)
      (result out : List (String × Json)) (reqF : List String),
    (jkeys props).all (fun k => !isUcpKey k) = true →
    no_ucp_entries result = true →
    resolve_properties_go recur props options path req result = .ok (out, reqF) →
    no_ucp_entries out = true := by
  intro props
  induction props with
  | nil =>
    intro req result out reqF _ hres h
    rw [resolve_properties_go] at h
    cases h
    exact hres
  | cons kv rest ih =>
    intro req result out reqF hnames hres h
    rw [jkeys_cons, List.all_cons, Bool.and_eq_true] at hnames
    obtain ⟨hk1, hkrest⟩ := hnames
    rw [Bool.not_eq_true'] at hk1
    obtain ⟨vis, tr, hgv, hcase⟩ := resolve_properties_go_cons_ok h
    rcases hcase with ⟨_, hrest⟩ | ⟨rv, hrv, hcase⟩
    · exact ih _ _ _ _ hkrest hres hrest
    · have hins : no_ucp_entries (jinsert result kv.1
          (apply_transition_metadata (strip_annotations rv) tr)) = true :=
        no_ucp_entries_insert result kv.1 _ hres hk1
          (no_ucp_apply_transition _ tr (no_ucp_strip rv))
      rcases hcase with ⟨_, hrest⟩ | ⟨_, hrest⟩ | ⟨_, hrest⟩ <;>
        exact ih _ _ _ _ hkrest hins hrest

theorem resolve_properties_no_ucp (recur : ResolveFn)
    (options : ResolveOptions) (path : String) (v : Json) (req : List String)
    (outv : Json) (reqF : List String)
    (hm : shape_members v = true)
    (h : resolve_properties recur v options path req = .ok (outv, reqF)) :
    no_ucp_keys outv = true := by
  cases v with
  | obj props =>
    rw [shape_members, Bool.and_eq_true, Bool.and_eq_true] at hm
    simp only [resolve_properties, Json.as_object] at h
    obtain ⟨rr, hgo, hfin⟩ := RRes.bind_ok h
    have h2 := RRes.ok.inj hfin
    rw [Prod.mk.injEq] at h2
    obtain ⟨ho, -⟩ := h2
    rw [← ho, no_ucp_keys]
    exact resolve_properties_go_no_ucp recur options path props req [] rr.1 rr.2
      hm.1.2 rfl hgo
  | null => simp [shape_members] at hm
  | bool b => simp [shape_members] at hm
  | num n => simp [shape_members] at hm
  | str s2 => simp [shape_members] at hm
  | arr xs => simp [shape_members] at hm

theorem resolve_defs_go_no_ucp (recur : ResolveFn) (options : ResolveOptions)
    (path : String)
    (H : ∀ v p out, shape_ok v = true → recur v options p = .ok out →
      no_ucp_keys out = true) :
    ∀ (defs result out : List (String × Json)),
    (jkeys defs).all (fun k => !isUcpKey k) = true →
    shape_values defs = true →
    no_ucp_entries result = true →
    resolve_defs_go recur defs options path result = .ok out →
    no_ucp_entries out = true
  | [], result, out, _, _, hres, h => by
    rw [resolve_defs_go] at h
    cases h
    exact hres
  | kv :: rest, result, out, hnames, hvals, hres, h => by
    rw [jkeys_cons, List.all_cons, Bool.and_eq_true] at hnames
    rw [shape_values, Bool.and_eq_true] at hvals
    rw [resolve_defs_go] at h
    obtain ⟨r, hr, hrest⟩ := RRes.bind_ok h
    have hu : isUcpKey kv.1 = false := by
      have h1 := hnames.1
      rw [Bool.not_eq_true'] at h1
      exact h1
    exact resolve_defs_go_no_ucp recur options path H rest _ out hnames.2
      hvals.2 (no_ucp_entries_insert result kv.1 r hres hu
        (H kv.2 _ r hvals.1 hr)) hrest

theorem resolve_defs_no_ucp (recur : ResolveFn) (options : ResolveOptions)
    (path : String)
    (H : ∀ v p out, shape_ok v = true → recur v options p = .ok out →
      no_ucp_keys out = true)
    (v outv : Json) (hm : shape_members v = true)
    (h : resolve_defs recur v options path = .ok outv) :
    no_ucp_keys outv = true := by
  cases v with
  | obj defs =>
    rw [shape_members, Bool.and_eq_true, Bool.and_eq_true] at hm
    simp only [resolve_defs, Json.as_object] at h
    obtain ⟨r, hr, hfin⟩ := RRes.bind_ok h
    have h2 : Json.obj r = outv := RRes.ok.inj hfin
    rw [← h2, no_ucp_keys]
    exact resolve_defs_go_no_ucp recur options path H defs [] r hm.1.2 hm.2
      rfl hr
  | null => simp [shape_members] at hm
  | bool b => simp [shape_members] at hm
  | num n => simp [shape_members] at hm
  | str s2 => simp [shape_members] at hm
  | arr xs => simp [shape_members] at hm

theorem resolve_array_go_no_ucp (recur : ResolveFn) (options : ResolveOptions)
    (path : String)
    (H : ∀ v p out, shape_ok v = true → recur v options p = .ok out →
      no_ucp_keys out = true) :
    ∀ (items : List Json) (i : Nat) (rs : List Json),
    shape_list items = true →
    resolve_array_go recur items options path i = .ok rs →
    no_ucp_list rs = true
  | [], i, rs, _, h => by
    rw [resolve_array_go] at h
    cases h
    rfl
  | v :: rest, i, rs, hl, h => by
    rw [shape_list, Bool.and_eq_true] at hl
    rw [resolve_array_go] at h
    obtain ⟨r, hr, h2⟩ := RRes.bind_ok h
    obtain ⟨rs2, hrs2, h3⟩ := RRes.bind_ok h2
    have h4 : r :: rs2 = rs := RRes.ok.inj h3
    rw [← h4, no_ucp_list, Bool.and_eq_true]
    exact ⟨H v _ r hl.1 hr, resolve_array_go_no_ucp recur options path H rest
      (i + 1) rs2 hl.2 hrs2⟩

theorem resolve_composition_no_ucp (recur : ResolveFn)
    (options : ResolveOptions) (path : String)
    (H : ∀ v p out, shape_ok v = true → recur v options p = .ok out →
      no_ucp_keys out = true)
    (v outv : Json) (ha : v.is_array = true) (hs : shape_ok v = true)
    (h : resolve_composition recur v options path = .ok outv) :
    no_ucp_keys outv = true := by
  cases v with
  | arr xs =>
    simp only [resolve_composition, Json.as_array] at h
    obtain ⟨rs, hrs, hfin⟩ := RRes.bind_ok h
    have h2 : Json.arr rs = outv := RRes.ok.inj hfin
    rw [← h2, no_ucp_keys]
    simp only [shape_ok] at hs
    exact resolve_array_go_no_ucp recur options path H xs 0 rs hs hrs
  | null => simp [Json.is_array] at ha
  | bool b => simp [Json.is_array] at ha
  | num n => simp [Json.is_array] at ha
  | str s2 => simp [Json.is_array] at ha
  | obj kvs => simp [Json.is_array] at ha

theorem inject_go_shape (ann_key op path : String)
    (hak : isUcpKey ann_key = true) :
    ∀ (anns : List (String × Json)) (props : List (String × Json))
      (br : List String) (props2 : List (String × Json)),
    allDiff (jkeys props) = true →
    (jkeys props).all (fun k => !isUcpKey k) = true →
    shape_values props = true →
    inject_annotations_go anns props br ann_key op path = .ok props2 →
    allDiff (jkeys props2) = true ∧
      (jkeys props2).all (fun k => !isUcpKey k) = true ∧
      shape_values props2 = true
  | [], props, br, props2, hd, hn, hv, h => by
    rw [inject_annotations_go] at h
    cases h
    exact ⟨hd, hn, hv⟩
  | na :: rest, props, br, props2, hd, hn, hv, h => by
    rcases hp : jfind props na.1 with _ | prop
    · simp only [inject_annotations_go, hp] at h
      exact inject_go_shape ann_key op path hak rest props br props2 hd hn hv h
    · rcases hob : prop.as_object with _ | o
      · simp only [inject_annotations_go, hp, hob] at h
        exact inject_go_shape ann_key op path hak rest props br props2 hd hn
          hv h
      · have hprop : prop = .obj o := as_object_eq_some hob
        have hmem : na.1 ∈ jkeys props := jfind_some_mem_keys hp
        have hso : shape_ok (.obj o) = true := by
          rw [← hprop]
          exact shape_values_find props na.1 prop hv hp
        simp only [shape_ok, Bool.and_eq_true] at hso
        by_cases hann : (jfind o ann_key).isSome = true
        · simp only [inject_annotations_go, hp, hob, hann, if_pos] at h
          exact inject_go_shape ann_key op path hak rest props br props2 hd hn
            hv h
        · have hann2 : (jfind o ann_key).isSome = false := by
            rw [Bool.not_eq_true] at hann
            exact hann
          have hnotmem : ann_key ∉ jkeys o := by
            intro hc
            rw [← jfind_isSome_iff] at hc
            rw [hc] at hann2
            exact Bool.noConfusion hann2
          have hins : allDiff (jkeys (jinsert props na.1
                (.obj (jinsert o ann_key na.2)))) = true ∧
              (jkeys (jinsert props na.1
                (.obj (jinsert o ann_key na.2)))).all
                  (fun k => !isUcpKey k) = true ∧
              shape_values (jinsert props na.1
                (.obj (jinsert o ann_key na.2))) = true := by
            rw [jkeys_insert_of_mem props na.1 _ hmem]
            refine ⟨hd, hn, ?_⟩
            refine shape_values_insert props na.1 _ hv ?_
            rw [shape_ok, Bool.and_eq_true]
            constructor
            · rw [jkeys_insert_of_not_mem o ann_key na.2 hnotmem]
              exact allDiff_append_singleton (jkeys o) ann_key hso.1 hnotmem
            · exact shape_entries_insert_ucp o ann_key na.2 hso.2 hak
          by_cases hbr : br.contains na.1 = true
          · rcases hgv : get_visibility_from_annotation na.2 op
                (path ++ "/properties/" ++ na.1) with e | vt
            · simp only [inject_annotations_go, hp, hob, hann2, Bool.false_eq_true,
                if_false, hbr, if_pos, hgv] at h
              exact Except.noConfusion h
            · obtain ⟨vis, tr⟩ := vt
              simp only [inject_annotations_go, hp, hob, hann2, Bool.false_eq_true,
                if_false, hbr, if_pos, hgv] at h
              cases vis with
              | Omit => exact Except.noConfusion h
              | Optional => exact Except.noConfusion h
              | Required =>
                exact inject_go_shape ann_key op path hak rest _ br props2
                  hins.1 hins.2.1 hins.2.2 h
              | Include =>
                exact inject_go_shape ann_key op path hak rest _ br props2
                  hins.1 hins.2.1 hins.2.2 h
          · have hbr2 : br.contains na.1 = false := by
              rw [Bool.not_eq_true] at hbr
              exact hbr
            simp only [inject_annotations_go, hp, hob, hann2, Bool.false_eq_true,
              if_false, hbr2] at h
            exact inject_go_shape ann_key op path hak rest _ br props2
              hins.1 hins.2.1 hins.2.2 h

theorem shape_ok_inject (branch : Json) (anns : List (String × Json))
    (ann_key : String) (options : ResolveOptions) (path : String) (out : Json)
    (hak : isUcpKey ann_key = true)
    (hs : shape_ok branch = true)
    (h : inject_annotations branch anns ann_key options path = .ok out) :
    shape_ok out = true := by
  cases branch with
  | obj bm =>
    simp only [inject_annotations, Json.as_object] at h
    rcases hp : jfind bm "properties" with _ | pv
    · simp only [hp] at h
      have h2 : Json.obj bm = out := Except.ok.inj h
      rw [← h2]
      exact hs
    · cases pv with
      | obj props =>
        simp only [hp] at h
        rcases hgo : inject_annotations_go anns props (required_strings bm)
            ann_key options.operation path with e | props2
        · rw [hgo] at h
          exact Except.noConfusion h
        · rw [hgo] at h
          have h2 : Json.obj (jinsert bm "properties" (.obj props2)) = out :=
            Except.ok.inj h
          rw [← h2]
          simp only [shape_ok, Bool.and_eq_true] at hs ⊢
          have hmem : "properties" ∈ jkeys bm := jfind_some_mem_keys hp
          rw [jkeys_insert_of_mem bm "properties" _ hmem]
          refine ⟨hs.1, ?_⟩
          refine shape_entries_insert_props bm (.obj props2) hs.2 ?_
          have hsm : shape_members (.obj props) = true :=
            shape_entries_find_props bm (.obj props) hs.2 hp
          rw [shape_members, Bool.and_eq_true, Bool.and_eq_true] at hsm
          obtain ⟨⟨hd2, hn2⟩, hv2⟩ := hsm
          obtain ⟨hd3, hn3, hv3⟩ := inject_go_shape ann_key options.operation
            path hak anns props (required_strings bm) props2 hd2 hn2 hv2 hgo
          rw [shape_members, Bool.and_eq_true, Bool.and_eq_true]
          exact ⟨⟨hd3, hn3⟩, hv3⟩
      | null =>
        simp only [hp] at h
        have h2 : Json.obj bm = out := Except.ok.inj h
        rw [← h2]
        exact hs
      | bool b =>
        simp only [hp] at h
        have h2 : Json.obj bm = out := Except.ok.inj h
        rw [← h2]
        exact hs
      | num n =>
        simp only [hp] at h
        have h2 : Json.obj bm = out := Except.ok.inj h
        rw [← h2]
        exact hs
      | str s2 =>
        simp only [hp] at h
        have h2 : Json.obj bm = out := Except.ok.inj h
        rw [← h2]
        exact hs
      | arr xs =>
        simp only [hp] at h
        have h2 : Json.obj bm = out := Except.ok.inj h
        rw [← h2]
        exact hs
  | null =>
    have h2 : Json.null = out := Except.ok.inj h
    rw [← h2]
    exact hs
  | bool b =>
    have h2 : Json.bool b = out := Except.ok.inj h
    rw [← h2]
    exact hs
  | num n =>
    have h2 : Json.num n = out := Except.ok.inj h
    rw [← h2]
    exact hs
  | str s2 =>
    have h2 : Json.str s2 = out := Except.ok.inj h
    rw [← h2]
    exact hs
  | arr xs =>
    have h2 : Json.arr xs = out := Except.ok.inj h
    rw [← h2]
    exact hs

theorem resolve_allof_go_no_ucp (recur : ResolveFn) (options : ResolveOptions)
    (merged : List (String × Json)) (ann_key path2 : String)
    (hak : isUcpKey ann_key = true)
    (H : ∀ v p out, shape_ok v = true → recur v options p = .ok out →
      no_ucp_keys out = true) :
    ∀ (items : List Json) (i : Nat) (rs : List Json),
    shape_list items = true →
    resolve_allof_go recur items merged ann_key options path2 i = .ok rs →
    no_ucp_list rs = true
  | [], i, rs, _, h => by
    rw [resolve_allof_go] at h
    cases h
    rfl
  | v :: rest, i, rs, hl, h => by
    rw [shape_list, Bool.and_eq_true] at hl
    simp only [resolve_allof_go] at h
    by_cases hm : merged.isEmpty = true
    · rw [if_pos hm] at h
      obtain ⟨r, hr, h2⟩ := RRes.bind_ok h
      obtain ⟨rs2, hrs2, h3⟩ := RRes.bind_ok h2
      have h4 : r :: rs2 = rs := RRes.ok.inj h3
      rw [← h4, no_ucp_list, Bool.and_eq_true]
      exact ⟨H v _ r hl.1 hr, resolve_allof_go_no_ucp recur options merged
        ann_key path2 hak H rest (i + 1) rs2 hl.2 hrs2⟩
    · rw [if_neg hm] at h
      rcases hinj : inject_annotations v merged ann_key options
          (path2 ++ "/" ++ toString i) with e | item
      · rw [hinj] at h
        exact RRes.noConfusion h
      · rw [hinj] at h
        obtain ⟨r, hr, h2⟩ := RRes.bind_ok h
        obtain ⟨rs2, hrs2, h3⟩ := RRes.bind_ok h2
        have h4 : r :: rs2 = rs := RRes.ok.inj h3
        have hsi : shape_ok item = true :=
          shape_ok_inject v merged ann_key options _ item hak hl.1 hinj
        rw [← h4, no_ucp_list, Bool.and_eq_true]
        exact ⟨H item _ r hsi hr, resolve_allof_go_no_ucp recur options merged
          ann_key path2 hak H rest (i + 1) rs2 hl.2 hrs2⟩

theorem resolve_allof_no_ucp (recur : ResolveFn) (options : ResolveOptions)
    (path : String)
    (H : ∀ v p out, shape_ok v = true → recur v options p = .ok out →
      no_ucp_keys out = true)
    (v outv : Json) (ha : v.is_array = true) (hs : shape_ok v = true)
    (h : resolve_allof recur v options path = .ok outv) :
    no_ucp_keys outv = true := by
  cases v with
  | arr xs =>
    simp only [resolve_allof, Json.as_array] at h
    rcases hval : validate_allof_types xs path with e | u
    · rw [hval] at h
      exact RRes.noConfusion h
    · rw [hval] at h
      obtain ⟨rs, hrs, hfin⟩ := RRes.bind_ok h
      have h2 : Json.arr rs = outv := RRes.ok.inj hfin
      rw [← h2, no_ucp_keys]
      simp only [shape_ok] at hs
      exact resolve_allof_go_no_ucp recur options
        (collect_allof_annotations xs options.direction.annotation_key)
        options.direction.annotation_key path
        (isUcpKey_direction options.direction) H xs 0 rs hs hrs
  | null => simp [Json.is_array] at ha
  | bool b => simp [Json.is_array] at ha
  | num n => simp [Json.is_array] at ha
  | str s2 => simp [Json.is_array] at ha
  | obj kvs => simp [Json.is_array] at ha

theorem resolve_object_go_no_ucp (recur : ResolveFn)
    (options : ResolveOptions) (path : String)
    (H : ∀ v p out, shape_ok v = true → recur v options p = .ok out →
      no_ucp_keys out = true) :
    ∀ (entries result : List (String × Json)) (req : List String)
      (out : List (String × Json)) (reqF : List String),
    shape_entries entries = true →
    no_ucp_entries result = true →
    resolve_object_go recur entries options path result req = .ok (out, reqF) →
    no_ucp_entries out = true
  | [], result, req, out, reqF, _, hres, h => by
    rw [resolve_object_go] at h
    cases h
    exact hres
  | kv :: rest, result, req, out, reqF, hs, hres, h => by
    rw [shape_entries, Bool.and_eq_true] at hs
    obtain ⟨hkv, hrest⟩ := hs
    rcases resolve_object_go_cons_ok h with
      ⟨hu, hgo⟩ | ⟨hu, hk, hgo⟩ | ⟨hu, hk, pr1, pr2, hpr, hgo⟩ |
      ⟨hu, hk1, hk8, r, hgo, hsub⟩
    · exact resolve_object_go_no_ucp recur options path H rest result req out
        reqF hrest hres hgo
    · exact resolve_object_go_no_ucp recur options path H rest result req out
        reqF hrest hres hgo
    · rw [hk, if_neg (by decide), if_pos (by decide)] at hkv
      have hins : no_ucp_entries (jinsert result kv.1 pr1) = true :=
        no_ucp_entries_insert result kv.1 pr1 hres hu
          (resolve_properties_no_ucp recur options (path ++ "/" ++ kv.1) kv.2
            req pr1 pr2 hkv hpr)
      exact resolve_object_go_no_ucp recur options path H rest _ pr2 out reqF
        hrest hins hgo
    · have hdone : no_ucp_keys r = true → no_ucp_entries out = true := by
        intro hval
        have hins : no_ucp_entries (jinsert result kv.1 r) = true :=
          no_ucp_entries_insert result kv.1 r hres hu hval
        exact resolve_object_go_no_ucp recur options path H rest _ req out
          reqF hrest hins hgo
      have hnu : ¬(isUcpKey kv.1 = true) := by
        rw [hu]
        decide
      rcases hsub with ⟨hk2, hr⟩ | ⟨hk3, hr⟩ | ⟨hk4, hr⟩ | ⟨hk5, hr⟩ |
        ⟨hk6, hobj, hr⟩ | ⟨hk6, hobj, hreq⟩ |
        ⟨hne2, hne3a, hne3b, hne4, hne5a, hne5b, hne6, hr⟩
      · rw [hk2, if_neg (by decide), if_neg (by decide), if_neg (by decide),
          if_neg (by decide)] at hkv
        exact hdone (H kv.2 _ r hkv hr)
      · rcases hk3 with hk3 | hk3 <;>
          rw [hk3, if_neg (by decide), if_pos (by decide)] at hkv <;>
          exact hdone (resolve_defs_no_ucp recur options _ H kv.2 r hkv hr)
      · rw [hk4, if_neg (by decide), if_neg (by decide),
          if_pos (by decide)] at hkv
        rw [Bool.and_eq_true] at hkv
        exact hdone (resolve_allof_no_ucp recur options _ H kv.2 r hkv.1
          hkv.2 hr)
      · rcases hk5 with hk5 | hk5 <;>
          rw [hk5, if_neg (by decide), if_neg (by decide),
            if_pos (by decide)] at hkv <;>
          rw [Bool.and_eq_true] at hkv <;>
          exact hdone (resolve_composition_no_ucp recur options _ H kv.2 r
            hkv.1 hkv.2 hr)
      · rw [hk6, if_neg (by decide), if_neg (by decide), if_neg (by decide),
          if_pos (by decide)] at hkv
        rw [Bool.and_eq_true] at hkv
        exact hdone (H kv.2 _ r hkv.2 hr)
      · rw [hk6, if_neg (by decide), if_neg (by decide), if_neg (by decide),
          if_pos (by decide)] at hkv
        rw [Bool.and_eq_true, Bool.not_eq_true'] at hkv
        exact hdone (by rw [hreq]; exact no_ucp_primitive kv.2 hobj hkv.1)
      · have hx3 : ¬(kv.1 = "properties" ∨ kv.1 = "$defs" ∨
            kv.1 = "definitions") := by
          rintro (hc | hc | hc)
          exacts [hk1 hc, hne3a hc, hne3b hc]
        have hx5 : ¬(kv.1 = "allOf" ∨ kv.1 = "anyOf" ∨ kv.1 = "oneOf") := by
          rintro (hc | hc | hc)
          exacts [hne4 hc, hne5a hc, hne5b hc]
        rw [if_neg hnu, if_neg hx3, if_neg hx5, if_neg hne6] at hkv
        exact hdone (H kv.2 _ r hkv hr)

theorem resolve_object_no_ucp (recur : ResolveFn) (options : ResolveOptions)
    (path : String)
    (H : ∀ v p out, shape_ok v = true → recur v options p = .ok out →
      no_ucp_keys out = true)
    (map : List (String × Json)) (out : Json)
    (hs : shape_ok (.obj map) = true)
    (h : resolve_object recur map options path = .ok out) :
    no_ucp_keys out = true := by
  simp only [shape_ok, Bool.and_eq_true] at hs
  simp only [resolve_object] at h
  obtain ⟨rr, hgo, hfin⟩ := RRes.bind_ok h
  have hreses : no_ucp_entries rr.1 = true :=
    resolve_object_go_no_ucp recur options path H map [] (required_strings map)
      rr.1 rr.2 hs.2 rfl hgo
  by_cases hc : rr.2 ≠ [] ∨ jcontains map "required" = true
  · rw [if_pos hc] at hfin
    have h2 : Json.obj (jinsert rr.1 "required" (.arr (rr.2.map Json.str))) =
        out := RRes.ok.inj hfin
    rw [← h2, no_ucp_keys]
    exact no_ucp_entries_insert rr.1 "required" _ hreses (by decide)
      (no_ucp_arr_strings rr.2)
  · rw [if_neg hc] at hfin
    have h2 : Json.obj rr.1 = out := RRes.ok.inj hfin
    rw [← h2, no_ucp_keys]
    exact hreses

theorem resolve_value_no_ucp : ∀ (fuel : Nat) (v : Json)
    (options : ResolveOptions) (path : String) (out : Json),
    shape_ok v = true → resolve_value fuel v options path = .ok out →
    no_ucp_keys out = true := by
  intro fuel
  induction fuel with
  | zero =>
    intro v options path out _ h
    rw [resolve_value] at h
    exact RRes.noConfusion h
  | succ fuel ih =>
    intro v options path out hs h
    cases v with
    | obj map =>
      exact resolve_object_no_ucp (resolve_value fuel) options path
        (fun v2 p2 out2 hs2 h2 => ih v2 options p2 out2 hs2 h2) map out hs h
    | arr xs =>
      have h0 : resolve_array (resolve_value fuel) xs options path = .ok out := h
      simp only [resolve_array] at h0
      obtain ⟨rs, hrs, hfin⟩ := RRes.bind_ok h0
      have h2 : Json.arr rs = out := RRes.ok.inj hfin
      rw [← h2, no_ucp_keys]
      simp only [shape_ok] at hs
      exact resolve_array_go_no_ucp (resolve_value fuel) options path
        (fun v2 p2 out2 hs2 h2 => ih v2 options p2 out2 hs2 h2) xs 0 rs hs hrs
    | null =>
      have h2 : Json.null = out := RRes.ok.inj h
      rw [← h2]
      rfl
    | bool b =>
      have h2 : Json.bool b = out := RRes.ok.inj h
      rw [← h2]
      rfl
    | num n =>
      have h2 : Json.num n = out := RRes.ok.inj h
      rw [← h2]
      rfl
    | str s2 =>
      have h2 : Json.str s2 = out := RRes.ok.inj h
      rw [← h2]
      rfl

mutual
/-- The strict closer never introduces a UCP annotation key. -/
theorem no_ucp_close_inner : ∀ (v : Json) (b : Bool), no_ucp_keys v = true →
    no_ucp_keys (close_additional_properties_inner v b) = true
  | .obj kvs, b, h => by
    rw [no_ucp_keys] at h
    have hE := no_ucp_close_entries kvs h
    simp only [close_additional_properties_inner]
    split
    · split
      · split
        · rw [no_ucp_keys]
          exact no_ucp_entries_insert _ _ _ hE (by decide) rfl
        · rw [no_ucp_keys]
          exact no_ucp_entries_insert _ _ _ hE (by decide) rfl
        · rw [no_ucp_keys]
          exact hE
      · split
        · rw [no_ucp_keys]
          exact no_ucp_entries_insert _ _ _ hE (by decide) rfl
        · rw [no_ucp_keys]
          exact no_ucp_entries_insert _ _ _ hE (by decide) rfl
        · rw [no_ucp_keys]
          exact hE
    · rw [no_ucp_keys]
      exact hE
  | .null, _, h => h
  | .bool b, _, h => h
  | .num n, _, h => h
  | .str s2, _, h => h
  | .arr xs, _, h => h

/-- Entry walk of the closer preserves `no_ucp_entries`. -/
theorem no_ucp_close_entries : ∀ kvs : List (String × Json),
    no_ucp_entries kvs = true → no_ucp_entries (close_entries kvs) = true
  | [], h => h
  | kv :: rest, h => by
    rw [no_ucp_entries, Bool.and_eq_true, Bool.and_eq_true] at h
    obtain ⟨⟨hk, hv⟩, hrest⟩ := h
    simp only [close_entries, no_ucp_entries, Bool.and_eq_true]
    refine ⟨⟨hk, ?_⟩, no_ucp_close_entries rest hrest⟩
    by_cases h1 : kv.1 = "properties"
    · rw [if_pos h1]
      exact no_ucp_close_map kv.2 hv
    · rw [if_neg h1]
      by_cases h2 : kv.1 = "items" ∨ kv.1 = "additionalProperties" ∨
          kv.1 = "unevaluatedProperties"
      · rw [if_pos h2]
        exact no_ucp_close_inner kv.2 false hv
      · rw [if_neg h2]
        by_cases h3 : kv.1 = "$defs" ∨ kv.1 = "definitions"
        · rw [if_pos h3]
          exact no_ucp_close_map kv.2 hv
        · rw [if_neg h3]
          by_cases h4 : kv.1 = "allOf" ∨ kv.1 = "anyOf" ∨ kv.1 = "oneOf"
          · rw [if_pos h4]
            exact no_ucp_close_branches kv.2 hv
          · rw [if_neg h4]
            exact hv

/-- Member-map walk of the closer preserves `no_ucp_keys`. -/
theorem no_ucp_close_map : ∀ v : Json, no_ucp_keys v = true →
    no_ucp_keys (close_map_json v) = true
  | .obj kvs, h => by
    rw [no_ucp_keys] at h
    simp only [close_map_json, no_ucp_keys]
    exact no_ucp_close_map_values kvs h
  | .null, h => h
  | .bool b, h => h
  | .num n, h => h
  | .str s2, h => h
  | .arr xs, h => h

/-- Member values of a walked map stay UCP-free. -/
theorem no_ucp_close_map_values : ∀ kvs : List (String × Json),
    no_ucp_entries kvs = true → no_ucp_entries (close_map_values kvs) = true
  | [], h => h
  | kv :: rest, h => by
    rw [no_ucp_entries, Bool.and_eq_true, Bool.and_eq_true] at h
    simp only [close_map_values, no_ucp_entries, Bool.and_eq_true]
    exact ⟨⟨h.1.1, no_ucp_close_inner kv.2 false h.1.2⟩,
      no_ucp_close_map_values rest h.2⟩

/-- Composition walk of the closer preserves `no_ucp_keys`. -/
theorem no_ucp_close_branches : ∀ v : Json, no_ucp_keys v = true →
    no_ucp_keys (close_branches_json v) = true
  | .arr xs, h => by
    rw [no_ucp_keys] at h
    simp only [close_branches_json, no_ucp_keys]
    exact no_ucp_close_branch_list xs h
  | .null, h => h
  | .bool b, h => h
  | .num n, h => h
  | .str s2, h => h
  | .obj kvs, h => h

/-- Elements of a walked composition array stay UCP-free. -/
theorem no_ucp_close_branch_list : ∀ xs : List Json,
    no_ucp_list xs = true → no_ucp_list (close_branch_list xs) = true
  | [], h => h
  | v :: rest, h => by
    rw [no_ucp_list, Bool.and_eq_true] at h
    simp only [close_branch_list, no_ucp_list, Bool.and_eq_true]
    exact ⟨no_ucp_close_inner v true h.1, no_ucp_close_branch_list rest h.2⟩
end

/-- C2 counterexample: a property literally named `ucp_request` resolves
successfully (its name is a property name, not an annotation key of its
value) and the name survives verbatim in the output `properties` map, so
the output does contain an object key named `ucp_request`. -/
theorem C2_counterexample :
    resolve 10 (.obj c2_entries) (ResolveOptions.new .Request "create") =
      .ok (.obj c2_entries) ∧
    no_ucp_keys (.obj c2_entries) = false :=
  ⟨rfl, rfl⟩

/-- **C2 (amended).** For inputs satisfying `shape_ok` — every object has
distinct keys, `properties`/`$defs`/`definitions` values are objects with
distinct, non-UCP member names, composition values are arrays, and
`additionalProperties` is not an array — a successful `resolve` output
contains no object key named `ucp_request` or `ucp_response` at any depth.
The member-name condition is necessary: property and definition NAMES are
copied to the output verbatim, so a property literally named `ucp_request`
leaks (see the counterexample). -/
theorem C2_no_ucp (fuel : Nat) (schema : Json) (options : ResolveOptions)
    (out : Json) (hs : shape_ok schema = true)
    (h : resolve fuel schema options = .ok out) :
    no_ucp_keys out = true := by
  simp only [resolve] at h
  obtain ⟨mid, hmid, hfin⟩ := RRes.bind_ok h
  have hm : no_ucp_keys mid = true :=
    resolve_value_no_ucp fuel schema options "" mid hs hmid
  by_cases hst : options.strict = true
  · rw [hst] at hfin
    have h2 : close_additional_properties mid = out := RRes.ok.inj hfin
    rw [← h2]
    exact no_ucp_close_inner mid false hm
  · have hst2 : options.strict = false := by
      rw [Bool.not_eq_true] at hst
      exact hst
    rw [hst2] at hfin
    have h2 : mid = out := RRes.ok.inj hfin
    rw [← h2]
    exact hm

/-- Witness for the amended C2 at a concrete well-shaped input. -/
theorem C2_no_ucp_witness :
    shape_ok (.obj [("type", Json.str "object")]) = true ∧
    resolve 10 (.obj [("type", Json.str "object")])
      (ResolveOptions.new .Request "create") =
      .ok (.obj [("type", Json.str "object")]) ∧
    no_ucp_keys (.obj [("type", Json.str "object")]) = true :=
  ⟨rfl, rfl, C2_no_ucp 10 (.obj [("type", Json.str "object")])
    (ResolveOptions.new .Request "create") (.obj [("type", Json.str "object")])
    rfl rfl⟩

/-! ## C3: required arrays in the output -/

theorem ucp_ne_required (k : String) (h : isUcpKey k = true) :
    "required" ≠ k := by
  intro he
  rw [← he] at h
  exact absurd h (by decide)

theorem ucp_ne_properties (k : String) (h : isUcpKey k = true) :
    "properties" ≠ k := by
  intro he
  rw [← he] at h
  exact absurd h (by decide)

theorem allDiff_filter (p : String → Bool) :
    ∀ l : List String, allDiff l = true → allDiff (l.filter p) = true
  | [], _ => rfl
  | x :: rest, h => by
    rw [allDiff_cons] at h
    rw [List.filter_cons]
    by_cases hp : p x = true
    · rw [if_pos hp, allDiff_cons]
      exact ⟨fun hc => h.1 (List.mem_of_mem_filter hc),
        allDiff_filter p rest h.2⟩
    · rw [if_neg hp]
      exact allDiff_filter p rest h.2

theorem all_filter_sub (p q : String → Bool) (l : List String)
    (h : l.all q = true) : (l.filter p).all q = true := by
  rw [List.all_eq_true] at h ⊢
  intro x hx
  exact h x (List.mem_of_mem_filter hx)

theorem all_append_singleton (q : String → Bool) (l : List String) (k : String)
    (hl : l.all q = true) (hk : q k = true) : (l ++ [k]).all q = true := by
  rw [List.all_append, Bool.and_eq_true]
  refine ⟨hl, ?_⟩
  rw [List.all_cons, Bool.and_eq_true]
  exact ⟨hk, rfl⟩

theorem mem_keys_insert (l : List (String × Json)) (k k2 : String) (v : Json)
    (h : k2 ∈ jkeys l) : k2 ∈ jkeys (jinsert l k v) := by
  by_cases hm : k ∈ jkeys l
  · rw [jkeys_insert_of_mem l k v hm]
    exact h
  · rw [jkeys_insert_of_not_mem l k v hm]
    exact List.mem_append_left _ h

theorem mem_keys_insert_self (l : List (String × Json)) (k : String)
    (v : Json) : k ∈ jkeys (jinsert l k v) :=
  jfind_some_mem_keys (jfind_insert_self l k v)

theorem filterMap_as_str_map_str (xs : List String) :
    (xs.map Json.str).filterMap Json.as_str = xs := by
  induction xs with
  | nil => rfl
  | cons x rest ih => simp [List.filterMap_cons, Json.as_str, ih]

theorem map_str_all_isSome (xs : List String) :
    (xs.map Json.str).all (fun x => x.as_str.isSome) = true := by
  induction xs with
  | nil => rfl
  | cons x rest ih =>
    rw [List.map_cons, List.all_cons, Bool.and_eq_true]
    exact ⟨rfl, ih⟩

theorem required_out_arr_strings (xs : List String) :
    required_out (.arr (xs.map Json.str)) = true := by
  rw [required_out]
  induction xs with
  | nil => rfl
  | cons x rest ih =>
    rw [List.map_cons, required_out_list, Bool.and_eq_true]
    exact ⟨rfl, ih⟩

theorem required_node_ok_insert_other (l : List (String × Json)) (k : String)
    (v : Json) (h1 : "required" ≠ k) (h2 : "properties" ≠ k) :
    required_node_ok (jinsert l k v) = required_node_ok l := by
  simp only [required_node_ok, jfind_insert_ne l k "required" v h1,
    jfind_insert_ne l k "properties" v h2]

theorem required_out_entries_insert (l : List (String × Json)) (k : String)
    (v : Json) (hl : required_out_entries l = true)
    (hv : (if k = "properties" ∨ k = "$defs" ∨ k = "definitions" then
        required_out_members v else required_out v) = true) :
    required_out_entries (jinsert l k v) = true := by
  induction l with
  | nil =>
    rw [jinsert, required_out_entries, Bool.and_eq_true]
    exact ⟨hv, rfl⟩
  | cons kv rest ih =>
    rw [required_out_entries, Bool.and_eq_true] at hl
    rw [jinsert]
    by_cases he : kv.1 = k
    · rw [if_pos he, required_out_entries, Bool.and_eq_true]
      refine ⟨?_, hl.2⟩
      rw [he]
      exact hv
    · rw [if_neg he, required_out_entries, Bool.and_eq_true]
      exact ⟨hl.1, ih hl.2⟩

theorem required_out_values_insert (l : List (String × Json)) (k : String)
    (v : Json) (hl : required_out_values l = true)
    (hv : required_out v = true) :
    required_out_values (jinsert l k v) = true := by
  induction l with
  | nil =>
    rw [jinsert, required_out_values, Bool.and_eq_true]
    exact ⟨hv, rfl⟩
  | cons kv rest ih =>
    rw [required_out_values, Bool.and_eq_true] at hl
    rw [jinsert]
    split
    · rw [required_out_values, Bool.and_eq_true]
      exact ⟨hv, hl.2⟩
    · rw [required_out_values, Bool.and_eq_true]
      exact ⟨hl.1, ih hl.2⟩

theorem required_wf_values_find : ∀ (l : List (String × Json)) (k : String)
    (v : Json), required_wf_values l = true → jfind l k = some v →
    required_wf v = true
  | [], k, v, _, hf => by
    rw [jfind] at hf
    exact Option.noConfusion hf
  | kv :: rest, k, v, hl, hf => by
    rw [required_wf_values, Bool.and_eq_true] at hl
    rw [jfind] at hf
    by_cases hk : kv.1 = k
    · rw [if_pos hk] at hf
      injection hf with hv
      rw [← hv]
      exact hl.1
    · rw [if_neg hk] at hf
      exact required_wf_values_find rest k v hl.2 hf

theorem required_wf_values_insert (l : List (String × Json)) (k : String)
    (v : Json) (hl : required_wf_values l = true)
    (hv : required_wf v = true) :
    required_wf_values (jinsert l k v) = true := by
  induction l with
  | nil =>
    rw [jinsert, required_wf_values, Bool.and_eq_true]
    exact ⟨hv, rfl⟩
  | cons kv rest ih =>
    rw [required_wf_values, Bool.and_eq_true] at hl
    rw [jinsert]
    split
    · rw [required_wf_values, Bool.and_eq_true]
      exact ⟨hv, hl.2⟩
    · rw [required_wf_values, Bool.and_eq_true]
      exact ⟨hl.1, ih hl.2⟩

theorem required_wf_entries_insert_ucp (l : List (String × Json)) (k : String)
    (v : Json) (hl : required_wf_entries l = true) (hk : isUcpKey k = true) :
    required_wf_entries (jinsert l k v) = true := by
  induction l with
  | nil =>
    rw [jinsert, required_wf_entries, Bool.and_eq_true]
    refine ⟨?_, rfl⟩
    rw [if_pos hk]
  | cons kv rest ih =>
    rw [required_wf_entries, Bool.and_eq_true] at hl
    rw [jinsert]
    by_cases he : kv.1 = k
    · rw [if_pos he, required_wf_entries, Bool.and_eq_true]
      refine ⟨?_, hl.2⟩
      have huk : isUcpKey kv.1 = true := by
        rw [he]
        exact hk
      rw [if_pos huk]
    · rw [if_neg he, required_wf_entries, Bool.and_eq_true]
      exact ⟨hl.1, ih hl.2⟩

theorem required_wf_entries_find_props : ∀ (l : List (String × Json))
    (v : Json), required_wf_entries l = true →
    jfind l "properties" = some v → required_wf_members v = true
  | [], v, _, hf => by
    rw [jfind] at hf
    exact Option.noConfusion hf
  | kv :: rest, v, hl, hf => by
    rw [required_wf_entries, Bool.and_eq_true] at hl
    rw [jfind] at hf
    by_cases hk : kv.1 = "properties"
    · rw [if_pos hk] at hf
      injection hf with hv
      have h1 := hl.1
      rw [hk, if_neg (by decide), if_pos (by decide)] at h1
      rw [← hv]
      exact h1
    · rw [if_neg hk] at hf
      exact required_wf_entries_find_props rest v hl.2 hf

theorem required_wf_entries_insert_props (l : List (String × Json)) (v : Json)
    (hl : required_wf_entries l = true) (hv : required_wf_members v = true) :
    required_wf_entries (jinsert l "properties" v) = true := by
  induction l with
  | nil =>
    rw [jinsert, required_wf_entries, Bool.and_eq_true]
    refine ⟨?_, rfl⟩
    have hnu : ¬(isUcpKey "properties" = true) := by decide
    have hgp : ("properties" : String) = "properties" ∨
        ("properties" : String) = "$defs" ∨
        ("properties" : String) = "definitions" := Or.inl rfl
    rw [if_neg hnu, if_pos hgp]
    exact hv
  | cons kv rest ih =>
    rw [required_wf_entries, Bool.and_eq_true] at hl
    rw [jinsert]
    by_cases he : kv.1 = "properties"
    · rw [if_pos he, required_wf_entries, Bool.and_eq_true]
      refine ⟨?_, hl.2⟩
      rw [he, if_neg (by decide), if_pos (by decide)]
      exact hv
    · rw [if_neg he, required_wf_entries, Bool.and_eq_true]
      exact ⟨hl.1, ih hl.2⟩

theorem required_node_ok_arr {kvs : List (String × Json)} {xs : List Json}
    (hr : jfind kvs "required" = some (.arr xs))
    (h : required_node_ok kvs = true) :
    xs.all (fun x => x.as_str.isSome) = true ∧
    allDiff (xs.filterMap Json.as_str) = true ∧
    (xs.filterMap Json.as_str).all (fun n => !isUcpKey n) = true ∧
    (match jfind kvs "properties" with
     | some (.obj props) =>
       (xs.filterMap Json.as_str).all (fun n => (jkeys props).contains n)
     | _ => (xs.filterMap Json.as_str).isEmpty) = true := by
  rw [required_node_ok, hr] at h
  have h2 : (xs.all (fun x => x.as_str.isSome) &&
      ((allDiff (xs.filterMap Json.as_str) &&
        (xs.filterMap Json.as_str).all (fun n => !isUcpKey n)) &&
        match jfind kvs "properties" with
        | some (.obj props) =>
          (xs.filterMap Json.as_str).all (fun n => (jkeys props).contains n)
        | _ => (xs.filterMap Json.as_str).isEmpty)) = true := h
  rw [Bool.and_eq_true, Bool.and_eq_true, Bool.and_eq_true] at h2
  exact ⟨h2.1, h2.2.1.1, h2.2.1.2, h2.2.2⟩

theorem required_node_ok_arr_intro {kvs : List (String × Json)}
    {xs : List Json}
    (hr : jfind kvs "required" = some (.arr xs))
    (h1 : xs.all (fun x => x.as_str.isSome) = true)
    (h2 : allDiff (xs.filterMap Json.as_str) = true)
    (h3 : (xs.filterMap Json.as_str).all (fun n => !isUcpKey n) = true)
    (h4 : (match jfind kvs "properties" with
     | some (.obj props) =>
       (xs.filterMap Json.as_str).all (fun n => (jkeys props).contains n)
     | _ => (xs.filterMap Json.as_str).isEmpty) = true) :
    required_node_ok kvs = true := by
  rw [required_node_ok, hr]
  show (xs.all (fun x => x.as_str.isSome) &&
      ((allDiff (xs.filterMap Json.as_str) &&
        (xs.filterMap Json.as_str).all (fun n => !isUcpKey n)) &&
        match jfind kvs "properties" with
        | some (.obj props) =>
          (xs.filterMap Json.as_str).all (fun n => (jkeys props).contains n)
        | _ => (xs.filterMap Json.as_str).isEmpty)) = true
  rw [Bool.and_eq_true, Bool.and_eq_true, Bool.and_eq_true]
  exact ⟨h1, ⟨h2, h3⟩, h4⟩

theorem required_node_ok_not_arr {kvs : List (String × Json)}
    (h : ∀ xs, jfind kvs "required" ≠ some (.arr xs)) :
    required_node_ok kvs = true := by
  rw [required_node_ok]
  rcases hr : jfind kvs "required" with _ | rv
  · rfl
  · cases rv with
    | arr xs => exact absurd hr (h xs)
    | null => rfl
    | bool b => rfl
    | num n => rfl
    | str s2 => rfl
    | obj o => rfl

theorem required_node_ok_strip (kvs : List (String × Json))
    (h : required_node_ok kvs = true) :
    required_node_ok (strip_entries kvs) = true := by
  rcases hr : jfind kvs "required" with _ | rv
  · refine required_node_ok_not_arr ?_
    intro xs hc
    rw [strip_entries_find kvs "required", if_neg (by decide), hr] at hc
    exact Option.noConfusion hc
  · cases rv with
    | arr xs =>
      obtain ⟨h1, h2, h3, h4⟩ := required_node_ok_arr hr h
      have hfr : jfind (strip_entries kvs) "required" = some (.arr xs) := by
        rw [strip_entries_find kvs "required", if_neg (by decide), hr]
        show some (strip_annotations_recursive (.arr xs)) = some (.arr xs)
        rw [strip_annotations_recursive, strip_list_strings xs h1]
      refine required_node_ok_arr_intro hfr h1 h2 h3 ?_
      rw [strip_entries_find kvs "properties", if_neg (by decide)]
      rcases hp : jfind kvs "properties" with _ | pv
      · rw [hp] at h4
        exact h4
      · rw [hp] at h4
        cases pv with
        | obj props =>
          have h4b : (xs.filterMap Json.as_str).all
              (fun n => (jkeys props).contains n) = true := h4
          show (xs.filterMap Json.as_str).all
            (fun n => (jkeys (strip_entries props)).contains n) = true
          rw [strip_entries_keys props]
          rw [List.all_eq_true] at h3 h4b ⊢
          intro n hn
          rw [contains_iff_mem, List.mem_filter]
          constructor
          · have h5 := h4b n hn
            rw [contains_iff_mem] at h5
            exact h5
          · exact h3 n hn
        | null => exact h4
        | bool b => exact h4
        | num n2 => exact h4
        | str s2 => exact h4
        | arr ys => exact h4
    | null =>
      refine required_node_ok_not_arr ?_
      intro xs hc
      rw [strip_entries_find kvs "required", if_neg (by decide), hr] at hc
      exact Json.noConfusion (Option.some.inj hc)
    | bool b =>
      refine required_node_ok_not_arr ?_
      intro xs hc
      rw [strip_entries_find kvs "required", if_neg (by decide), hr] at hc
      exact Json.noConfusion (Option.some.inj hc)
    | num n2 =>
      refine required_node_ok_not_arr ?_
      intro xs hc
      rw [strip_entries_find kvs "required", if_neg (by decide), hr] at hc
      exact Json.noConfusion (Option.some.inj hc)
    | str s2 =>
      refine required_node_ok_not_arr ?_
      intro xs hc
      rw [strip_entries_find kvs "required", if_neg (by decide), hr] at hc
      exact Json.noConfusion (Option.some.inj hc)
    | obj o2 =>
      refine required_node_ok_not_arr ?_
      intro xs hc
      rw [strip_entries_find kvs "required", if_neg (by decide), hr] at hc
      exact Json.noConfusion (Option.some.inj hc)

mutual
/-- Stripping annotations preserves the output-side `required` invariant. -/
theorem required_out_strip : ∀ v : Json, required_out v = true →
    required_out (strip_annotations_recursive v) = true
  | .obj kvs, h => by
    rw [required_out, Bool.and_eq_true] at h
    rw [strip_annotations_recursive, required_out, Bool.and_eq_true]
    exact ⟨required_node_ok_strip kvs h.1, required_out_entries_strip kvs h.2⟩
  | .arr xs, h => by
    rw [required_out] at h
    rw [strip_annotations_recursive, required_out]
    exact required_out_list_strip xs h
  | .null, h => h
  | .bool b, h => h
  | .num n, h => h
  | .str s2, h => h

/-- Entry part of `required_out_strip`. -/
theorem required_out_entries_strip : ∀ kvs : List (String × Json),
    required_out_entries kvs = true →
    required_out_entries (strip_entries kvs) = true
  | [], h => h
  | kv :: rest, h => by
    rw [required_out_entries, Bool.and_eq_true] at h
    rw [strip_entries]
    by_cases hu : UCP_ANNOTATIONS.contains kv.1 = true
    · rw [if_pos hu]
      exact required_out_entries_strip rest h.2
    · rw [if_neg hu]
      rw [required_out_entries, Bool.and_eq_true]
      refine ⟨?_, required_out_entries_strip rest h.2⟩
      have h1 := h.1
      by_cases hg : kv.1 = "properties" ∨ kv.1 = "$defs" ∨
          kv.1 = "definitions"
      · rw [if_pos hg] at h1 ⊢
        exact required_out_members_strip kv.2 h1
      · rw [if_neg hg] at h1 ⊢
        exact required_out_strip kv.2 h1

/-- Member-map part of `required_out_strip`. -/
theorem required_out_members_strip : ∀ v : Json,
    required_out_members v = true →
    required_out_members (strip_annotations_recursive v) = true
  | .obj kvs, h => by
    rw [required_out_members] at h
    rw [strip_annotations_recursive, required_out_members]
    exact required_out_values_strip kvs h
  | .arr xs, _ => rfl
  | .null, h => h
  | .bool b, h => h
  | .num n, h => h
  | .str s2, h => h

/-- Member values part of `required_out_strip`. -/
theorem required_out_values_strip : ∀ kvs : List (String × Json),
    required_out_values kvs = true →
    required_out_values (strip_entries kvs) = true
  | [], h => h
  | kv :: rest, h => by
    rw [required_out_values, Bool.and_eq_true] at h
    rw [strip_entries]
    by_cases hu : UCP_ANNOTATIONS.contains kv.1 = true
    · rw [if_pos hu]
      exact required_out_values_strip rest h.2
    · rw [if_neg hu]
      rw [required_out_values, Bool.and_eq_true]
      exact ⟨required_out_strip kv.2 h.1, required_out_values_strip rest h.2⟩

/-- Array part of `required_out_strip`. -/
theorem required_out_list_strip : ∀ xs : List Json,
    required_out_list xs = true → required_out_list (strip_list xs) = true
  | [], h => h
  | v :: rest, h => by
    rw [required_out_list, Bool.and_eq_true] at h
    rw [strip_list, required_out_list, Bool.and_eq_true]
    exact ⟨required_out_strip v h.1, required_out_list_strip rest h.2⟩
end

theorem required_node_ok_props_keys (l mm mm2 : List (String × Json))
    (hf : jfind l "properties" = some (.obj mm))
    (hk : jkeys mm2 = jkeys mm)
    (h : required_node_ok l = true) :
    required_node_ok (jinsert l "properties" (.obj mm2)) = true := by
  rcases hr : jfind l "required" with _ | rv
  · refine required_node_ok_not_arr ?_
    intro xs hc
    rw [jfind_insert_ne l "properties" "required" _ (by decide), hr] at hc
    exact Option.noConfusion hc
  · cases rv with
    | arr xs =>
      obtain ⟨h1, h2, h3, h4⟩ := required_node_ok_arr hr h
      have hfr : jfind (jinsert l "properties" (.obj mm2)) "required" =
          some (.arr xs) := by
        rw [jfind_insert_ne l "properties" "required" _ (by decide), hr]
      refine required_node_ok_arr_intro hfr h1 h2 h3 ?_
      rw [jfind_insert_self]
      rw [hf] at h4
      have h4b : (xs.filterMap Json.as_str).all
          (fun n => (jkeys mm).contains n) = true := h4
      show (xs.filterMap Json.as_str).all
        (fun n => (jkeys mm2).contains n) = true
      rw [hk]
      exact h4b
    | null =>
      refine required_node_ok_not_arr ?_
      intro xs hc
      rw [jfind_insert_ne l "properties" "required" _ (by decide), hr] at hc
      exact Json.noConfusion (Option.some.inj hc)
    | bool b =>
      refine required_node_ok_not_arr ?_
      intro xs hc
      rw [jfind_insert_ne l "properties" "required" _ (by decide), hr] at hc
      exact Json.noConfusion (Option.some.inj hc)
    | num n2 =>
      refine required_node_ok_not_arr ?_
      intro xs hc
      rw [jfind_insert_ne l "properties" "required" _ (by decide), hr] at hc
      exact Json.noConfusion (Option.some.inj hc)
    | str s2 =>
      refine required_node_ok_not_arr ?_
      intro xs hc
      rw [jfind_insert_ne l "properties" "required" _ (by decide), hr] at hc
      exact Json.noConfusion (Option.some.inj hc)
    | obj o2 =>
      refine required_node_ok_not_arr ?_
      intro xs hc
      rw [jfind_insert_ne l "properties" "required" _ (by decide), hr] at hc
      exact Json.noConfusion (Option.some.inj hc)

theorem inject_go_required (ann_key op path : String)
    (hak : isUcpKey ann_key = true) :
    ∀ (anns props : List (String × Json)) (br : List String)
      (props2 : List (String × Json)),
    required_wf_values props = true →
    inject_annotations_go anns props br ann_key op path = .ok props2 →
    jkeys props2 = jkeys props ∧ required_wf_values props2 = true
  | [], props, br, props2, hv, h => by
    rw [inject_annotations_go] at h
    cases h
    exact ⟨rfl, hv⟩
  | na :: rest, props, br, props2, hv, h => by
    rcases hp : jfind props na.1 with _ | prop
    · simp only [inject_annotations_go, hp] at h
      exact inject_go_required ann_key op path hak rest props br props2 hv h
    · rcases hob : prop.as_object with _ | o
      · simp only [inject_annotations_go, hp, hob] at h
        exact inject_go_required ann_key op path hak rest props br props2 hv h
      · have hprop : prop = .obj o := as_object_eq_some hob
        have hmem : na.1 ∈ jkeys props := jfind_some_mem_keys hp
        have hwf : required_wf (.obj o) = true := by
          rw [← hprop]
          exact required_wf_values_find props na.1 prop hv hp
        rw [required_wf, Bool.and_eq_true] at hwf
        have hnew : required_wf (.obj (jinsert o ann_key na.2)) = true := by
          rw [required_wf, Bool.and_eq_true]
          constructor
          · rw [required_node_ok_insert_other o ann_key na.2
              (ucp_ne_required ann_key hak) (ucp_ne_properties ann_key hak)]
            exact hwf.1
          · exact required_wf_entries_insert_ucp o ann_key na.2 hwf.2 hak
        have hins : jkeys (jinsert props na.1
              (.obj (jinsert o ann_key na.2))) = jkeys props ∧
            required_wf_values (jinsert props na.1
              (.obj (jinsert o ann_key na.2))) = true :=
          ⟨jkeys_insert_of_mem props na.1 _ hmem,
           required_wf_values_insert props na.1 _ hv hnew⟩
        by_cases hann : (jfind o ann_key).isSome = true
        · simp only [inject_annotations_go, hp, hob, hann, if_pos] at h
          exact inject_go_required ann_key op path hak rest props br props2 hv h
        · have hann2 : (jfind o ann_key).isSome = false := by
            rw [Bool.not_eq_true] at hann
            exact hann
          by_cases hbr : br.contains na.1 = true
          · rcases hgv : get_visibility_from_annotation na.2 op
                (path ++ "/properties/" ++ na.1) with e | vt
            · simp only [inject_annotations_go, hp, hob, hann2,
                Bool.false_eq_true, if_false, hbr, if_pos, hgv] at h
              exact Except.noConfusion h
            · obtain ⟨vis, tr⟩ := vt
              simp only [inject_annotations_go, hp, hob, hann2,
                Bool.false_eq_true, if_false, hbr, if_pos, hgv] at h
              cases vis with
              | Omit => exact Except.noConfusion h
              | Optional => exact Except.noConfusion h
              | Required =>
                obtain ⟨hk2, hv2⟩ := inject_go_required ann_key op path hak
                  rest _ br props2 hins.2 h
                rw [hk2]
                exact ⟨hins.1, hv2⟩
              | Include =>
                obtain ⟨hk2, hv2⟩ := inject_go_required ann_key op path hak
                  rest _ br props2 hins.2 h
                rw [hk2]
                exact ⟨hins.1, hv2⟩
          · have hbr2 : br.contains na.1 = false := by
              rw [Bool.not_eq_true] at hbr
              exact hbr
            simp only [inject_annotations_go, hp, hob, hann2,
              Bool.false_eq_true, if_false, hbr2] at h
            obtain ⟨hk2, hv2⟩ := inject_go_required ann_key op path hak rest _
              br props2 hins.2 h
            rw [hk2]
            exact ⟨hins.1, hv2⟩

theorem required_wf_inject (branch : Json) (anns : List (String × Json))
    (ann_key : String) (options : ResolveOptions) (path : String) (out : Json)
    (hak : isUcpKey ann_key = true)
    (hw : required_wf branch = true)
    (h : inject_annotations branch anns ann_key options path = .ok out) :
    required_wf out = true := by
  cases branch with
  | obj bm =>
    simp only [inject_annotations, Json.as_object] at h
    rcases hp : jfind bm "properties" with _ | pv
    · simp only [hp] at h
      have h2 : Json.obj bm = out := Except.ok.inj h
      rw [← h2]
      exact hw
    · cases pv with
      | obj props =>
        simp only [hp] at h
        rcases hgo : inject_annotations_go anns props (required_strings bm)
            ann_key options.operation path with e | props2
        · rw [hgo] at h
          exact Except.noConfusion h
        · rw [hgo] at h
          have h2 : Json.obj (jinsert bm "properties" (.obj props2)) = out :=
            Except.ok.inj h
          rw [← h2]
          rw [required_wf, Bool.and_eq_true] at hw
          have hm : required_wf_members (.obj props) = true :=
            required_wf_entries_find_props bm (.obj props) hw.2 hp
          rw [required_wf_members] at hm
          obtain ⟨hk2, hv2⟩ := inject_go_required ann_key options.operation
            path hak anns props (required_strings bm) props2 hm hgo
          rw [required_wf, Bool.and_eq_true]
          constructor
          · exact required_node_ok_props_keys bm props props2 hp hk2 hw.1
          · refine required_wf_entries_insert_props bm (.obj props2) hw.2 ?_
            rw [required_wf_members]
            exact hv2
      | null =>
        simp only [hp] at h
        have h2 : Json.obj bm = out := Except.ok.inj h
        rw [← h2]
        exact hw
      | bool b =>
        simp only [hp] at h
        have h2 : Json.obj bm = out := Except.ok.inj h
        rw [← h2]
        exact hw
      | num n =>
        simp only [hp] at h
        have h2 : Json.obj bm = out := Except.ok.inj h
        rw [← h2]
        exact hw
      | str s2 =>
        simp only [hp] at h
        have h2 : Json.obj bm = out := Except.ok.inj h
        rw [← h2]
        exact hw
      | arr xs =>
        simp only [hp] at h
        have h2 : Json.obj bm = out := Except.ok.inj h
        rw [← h2]
        exact hw
  | null =>
    have h2 : Json.null = out := Except.ok.inj h
    rw [← h2]
    exact hw
  | bool b =>
    have h2 : Json.bool b = out := Except.ok.inj h
    rw [← h2]
    exact hw
  | num n =>
    have h2 : Json.num n = out := Except.ok.inj h
    rw [← h2]
    exact hw
  | str s2 =>
    have h2 : Json.str s2 = out := Except.ok.inj h
    rw [← h2]
    exact hw
  | arr xs =>
    have h2 : Json.arr xs = out := Except.ok.inj h
    rw [← h2]
    exact hw

theorem required_out_apply_transition (v : Json)
    (tr : Option SchemaTransitionInfo) (h : required_out v = true) :
    required_out (apply_transition_metadata v tr) = true := by
  cases v with
  | obj kvs =>
    cases tr with
    | none => exact h
    | some info =>
      simp only [apply_transition_metadata]
      rw [required_out, Bool.and_eq_true] at h
      have hT : required_out (.obj [("from", .str info.from_),
          ("to", .str info.to_),
          ("description", .str info.description)]) = true := rfl
      have h1n : required_node_ok (jinsert kvs "x-ucp-schema-transition"
          (.obj [("from", .str info.from_), ("to", .str info.to_),
                 ("description", .str info.description)])) = true := by
        rw [required_node_ok_insert_other kvs _ _ (by decide) (by decide)]
        exact h.1
      have h1e : required_out_entries (jinsert kvs "x-ucp-schema-transition"
          (.obj [("from", .str info.from_), ("to", .str info.to_),
                 ("description", .str info.description)])) = true := by
        refine required_out_entries_insert kvs _ _ h.2 ?_
        rw [if_neg (by decide)]
        exact hT
      by_cases ho : info.to_ = "omit"
      · rw [if_pos ho, required_out, Bool.and_eq_true]
        constructor
        · rw [required_node_ok_insert_other _ _ _ (by decide) (by decide)]
          exact h1n
        · refine required_out_entries_insert _ _ _ h1e ?_
          rw [if_neg (by decide)]
          rfl
      · rw [if_neg ho, required_out, Bool.and_eq_true]
        exact ⟨h1n, h1e⟩
  | null => exact h
  | bool b => exact h
  | num n => exact h
  | str s2 => exact h
  | arr xs => exact h

theorem required_out_primitive (v : Json) (ho : v.is_object = false)
    (ha : v.is_array = false) : required_out v = true := by
  cases v <;> simp_all [Json.is_object, Json.is_array, required_out]

theorem resolve_properties_go_required (recur : ResolveFn)
    (options : ResolveOptions) (path : String)
    (HR : ∀ v p out, shape_ok v = true → required_wf v = true →
      recur v options p = .ok out → required_out out = true) :
    ∀ (props : List (String × Json)) (req : List String)
      (result out : List (String × Json)) (reqF : List String),
    (jkeys props).all (fun k => !isUcpKey k) = true →
    shape_values props = true →
    required_wf_values props = true →
    allDiff req = true →
    req.all (fun n => !isUcpKey n) = true →
    (∀ n, n ∈ req → n ∈ jkeys props ∨ n ∈ jkeys result) →
    required_out_values result = true →
    resolve_properties_go recur props options path req result = .ok (out, reqF) →
    allDiff reqF = true ∧ reqF.all (fun n => !isUcpKey n) = true ∧
      (∀ n, n ∈ reqF → n ∈ jkeys out) ∧ required_out_values out = true := by
  intro props
  induction props with
  | nil =>
    intro req result out reqF _ _ _ hd hn hmem hres h
    rw [resolve_properties_go] at h
    cases h
    refine ⟨hd, hn, ?_, hres⟩
    intro n hn2
    rcases hmem n hn2 with hc | hc
    · rw [jkeys_nil] at hc
      exact absurd hc (List.not_mem_nil n)
    · exact hc
  | cons kv rest ih =>
    intro req result out reqF hnames hsv hrw hd hn hmem hres h
    rw [jkeys_cons, List.all_cons, Bool.and_eq_true] at hnames
    rw [shape_values, Bool.and_eq_true] at hsv
    rw [required_wf_values, Bool.and_eq_true] at hrw
    obtain ⟨vis, tr, hgv, hcase⟩ := resolve_properties_go_cons_ok h
    rcases hcase with ⟨_, hrest⟩ | ⟨rv, hrv2, hcase⟩
    · refine ih _ _ _ _ hnames.2 hsv.2 hrw.2
        (allDiff_filter _ req hd) (all_filter_sub _ _ req hn) ?_ hres hrest
      intro n hn2
      have hmem2 := List.mem_filter.mp hn2
      rcases hmem n hmem2.1 with hc | hc
      · rw [jkeys_cons, List.mem_cons] at hc
        rcases hc with hc | hc
        · exact absurd hc (of_decide_eq_true hmem2.2)
        · exact Or.inl hc
      · exact Or.inr hc
    · have hval : required_out
          (apply_transition_metadata (strip_annotations rv) tr) = true :=
        required_out_apply_transition _ tr
          (required_out_strip rv (HR kv.2 _ rv hsv.1 hrw.1 hrv2))
      have hres2 : required_out_values (jinsert result kv.1
          (apply_transition_metadata (strip_annotations rv) tr)) = true :=
        required_out_values_insert result kv.1 _ hres hval
      have hmemins : ∀ n, n ∈ req → n ∈ jkeys rest ∨
          n ∈ jkeys (jinsert result kv.1
            (apply_transition_metadata (strip_annotations rv) tr)) := by
        intro n hn2
        rcases hmem n hn2 with hc | hc
        · rw [jkeys_cons, List.mem_cons] at hc
          rcases hc with hc | hc
          · refine Or.inr ?_
            rw [hc]
            exact mem_keys_insert_self result kv.1 _
          · exact Or.inl hc
        · exact Or.inr (mem_keys_insert result kv.1 n _ hc)
      rcases hcase with ⟨_, hrest⟩ | ⟨_, hrest⟩ | ⟨_, hrest⟩
      · by_cases hin : kv.1 ∈ req
        · rw [if_pos hin] at hrest
          exact ih _ _ _ _ hnames.2 hsv.2 hrw.2 hd hn hmemins hres2 hrest
        · rw [if_neg hin] at hrest
          refine ih _ _ _ _ hnames.2 hsv.2 hrw.2
            (allDiff_append_singleton req kv.1 hd hin)
            (all_append_singleton _ req kv.1 hn hnames.1) ?_ hres2 hrest
          intro n hn2
          rcases List.mem_append.mp hn2 with hc | hc
          · exact hmemins n hc
          · rw [List.mem_singleton] at hc
            refine Or.inr ?_
            rw [hc]
            exact mem_keys_insert_self result kv.1 _
      · refine ih _ _ _ _ hnames.2 hsv.2 hrw.2 (allDiff_filter _ req hd)
          (all_filter_sub _ _ req hn) ?_ hres2 hrest
        intro n hn2
        exact hmemins n (List.mem_filter.mp hn2).1
      · exact ih _ _ _ _ hnames.2 hsv.2 hrw.2 hd hn hmemins hres2 hrest

theorem resolve_defs_go_required (recur : ResolveFn)
    (options : ResolveOptions) (path : String)
    (HR : ∀ v p out, shape_ok v = true → required_wf v = true →
      recur v options p = .ok out → required_out out = true) :
    ∀ (defs result out : List (String × Json)),
    shape_values defs = true →
    required_wf_values defs = true →
    required_out_values result = true →
    resolve_defs_go recur defs options path result = .ok out →
    required_out_values out = true
  | [], result, out, _, _, hres, h => by
    rw [resolve_defs_go] at h
    cases h
    exact hres
  | kv :: rest, result, out, hsv, hrw, hres, h => by
    rw [shape_values, Bool.and_eq_true] at hsv
    rw [required_wf_values, Bool.and_eq_true] at hrw
    rw [resolve_defs_go] at h
    obtain ⟨r, hr, hrest⟩ := RRes.bind_ok h
    exact resolve_defs_go_required recur options path HR rest _ out hsv.2 hrw.2
      (required_out_values_insert result kv.1 r hres
        (HR kv.2 _ r hsv.1 hrw.1 hr)) hrest

theorem resolve_defs_required (recur : ResolveFn) (options : ResolveOptions)
    (path : String)
    (HR : ∀ v p out, shape_ok v = true → required_wf v = true →
      recur v options p = .ok out → required_out out = true)
    (v outv : Json) (hm : shape_members v = true)
    (hrm : required_wf_members v = true)
    (h : resolve_defs recur v options path = .ok outv) :
    required_out_members outv = true := by
  cases v with
  | obj defs =>
    rw [required_wf_members] at hrm
    rw [shape_members, Bool.and_eq_true, Bool.and_eq_true] at hm
    simp only [resolve_defs, Json.as_object] at h
    obtain ⟨r, hr, hfin⟩ := RRes.bind_ok h
    have h2 : Json.obj r = outv := RRes.ok.inj hfin
    rw [← h2, required_out_members]
    exact resolve_defs_go_required recur options path HR defs [] r hm.2 hrm
      rfl hr
  | null => simp [shape_members] at hm
  | bool b => simp [shape_members] at hm
  | num n => simp [shape_members] at hm
  | str s2 => simp [shape_members] at hm
  | arr xs => simp [shape_members] at hm

theorem resolve_array_go_required (recur : ResolveFn)
    (options : ResolveOptions) (path : String)
    (HR : ∀ v p out, shape_ok v = true → required_wf v = true →
      recur v options p = .ok out → required_out out = true) :
    ∀ (items : List Json) (i : Nat) (rs : List Json),
    shape_list items = true →
    required_wf_list items = true →
    resolve_array_go recur items options path i = .ok rs →
    required_out_list rs = true
  | [], i, rs, _, _, h => by
    rw [resolve_array_go] at h
    cases h
    rfl
  | v :: rest, i, rs, hl, hwl, h => by
    rw [shape_list, Bool.and_eq_true] at hl
    rw [required_wf_list, Bool.and_eq_true] at hwl
    rw [resolve_array_go] at h
    obtain ⟨r, hr, h2⟩ := RRes.bind_ok h
    obtain ⟨rs2, hrs2, h3⟩ := RRes.bind_ok h2
    have h4 : r :: rs2 = rs := RRes.ok.inj h3
    rw [← h4, required_out_list, Bool.and_eq_true]
    exact ⟨HR v _ r hl.1 hwl.1 hr, resolve_array_go_required recur options
      path HR rest (i + 1) rs2 hl.2 hwl.2 hrs2⟩

theorem resolve_composition_required (recur : ResolveFn)
    (options : ResolveOptions) (path : String)
    (HR : ∀ v p out, shape_ok v = true → required_wf v = true →
      recur v options p = .ok out → required_out out = true)
    (v outv : Json) (ha : v.is_array = true) (hs : shape_ok v = true)
    (hw : required_wf v = true)
    (h : resolve_composition recur v options path = .ok outv) :
    required_out outv = true := by
  cases v with
  | arr xs =>
    simp only [resolve_composition, Json.as_array] at h
    obtain ⟨rs, hrs, hfin⟩ := RRes.bind_ok h
    have h2 : Json.arr rs = outv := RRes.ok.inj hfin
    rw [← h2, required_out]
    simp only [shape_ok] at hs
    rw [required_wf] at hw
    exact resolve_array_go_required recur options path HR xs 0 rs hs hw hrs
  | null => simp [Json.is_array] at ha
  | bool b => simp [Json.is_array] at ha
  | num n => simp [Json.is_array] at ha
  | str s2 => simp [Json.is_array] at ha
  | obj kvs => simp [Json.is_array] at ha

theorem resolve_allof_go_required (recur : ResolveFn)
    (options : ResolveOptions) (merged : List (String × Json))
    (ann_key path2 : String) (hak : isUcpKey ann_key = true)
    (HR : ∀ v p out, shape_ok v = true → required_wf v = true →
      recur v options p = .ok out → required_out out = true) :
    ∀ (items : List Json) (i : Nat) (rs : List Json),
    shape_list items = true →
    required_wf_list items = true →
    resolve_allof_go recur items merged ann_key options path2 i = .ok rs →
    required_out_list rs = true
  | [], i, rs, _, _, h => by
    rw [resolve_allof_go] at h
    cases h
    rfl
  | v :: rest, i, rs, hl, hwl, h => by
    rw [shape_list, Bool.and_eq_true] at hl
    rw [required_wf_list, Bool.and_eq_true] at hwl
    simp only [resolve_allof_go] at h
    by_cases hm : merged.isEmpty = true
    · rw [if_pos hm] at h
      obtain ⟨r, hr, h2⟩ := RRes.bind_ok h
      obtain ⟨rs2, hrs2, h3⟩ := RRes.bind_ok h2
      have h4 : r :: rs2 = rs := RRes.ok.inj h3
      rw [← h4, required_out_list, Bool.and_eq_true]
      exact ⟨HR v _ r hl.1 hwl.1 hr, resolve_allof_go_required recur options
        merged ann_key path2 hak HR rest (i + 1) rs2 hl.2 hwl.2 hrs2⟩
    · rw [if_neg hm] at h
      rcases hinj : inject_annotations v merged ann_key options
          (path2 ++ "/" ++ toString i) with e | item
      · rw [hinj] at h
        exact RRes.noConfusion h
      · rw [hinj] at h
        obtain ⟨r, hr, h2⟩ := RRes.bind_ok h
        obtain ⟨rs2, hrs2, h3⟩ := RRes.bind_ok h2
        have h4 : r :: rs2 = rs := RRes.ok.inj h3
        have hsi : shape_ok item = true :=
          shape_ok_inject v merged ann_key options _ item hak hl.1 hinj
        have hwi : required_wf item = true :=
          required_wf_inject v merged ann_key options _ item hak hwl.1 hinj
        rw [← h4, required_out_list, Bool.and_eq_true]
        exact ⟨HR item _ r hsi hwi hr, resolve_allof_go_required recur options
          merged ann_key path2 hak HR rest (i + 1) rs2 hl.2 hwl.2 hrs2⟩

theorem resolve_allof_required (recur : ResolveFn)
    (options : ResolveOptions) (path : String)
    (HR : ∀ v p out, shape_ok v = true → required_wf v = true →
      recur v options p = .ok out → required_out out = true)
    (v outv : Json) (ha : v.is_array = true) (hs : shape_ok v = true)
    (hw : required_wf v = true)
    (h : resolve_allof recur v options path = .ok outv) :
    required_out outv = true := by
  cases v with
  | arr xs =>
    simp only [resolve_allof, Json.as_array] at h
    rcases hval : validate_allof_types xs path with e | u
    · rw [hval] at h
      exact RRes.noConfusion h
    · rw [hval] at h
      obtain ⟨rs, hrs, hfin⟩ := RRes.bind_ok h
      have h2 : Json.arr rs = outv := RRes.ok.inj hfin
      rw [← h2, required_out]
      simp only [shape_ok] at hs
      rw [required_wf] at hw
      exact resolve_allof_go_required recur options
        (collect_allof_annotations xs options.direction.annotation_key)
        options.direction.annotation_key path
        (isUcpKey_direction options.direction) HR xs 0 rs hs hw hrs
  | null => simp [Json.is_array] at ha
  | bool b => simp [Json.is_array] at ha
  | num n => simp [Json.is_array] at ha
  | str s2 => simp [Json.is_array] at ha
  | obj kvs => simp [Json.is_array] at ha

theorem props_inv_tail (kv : String × Json)
    (rest result : List (String × Json)) (req : List String)
    (hne : kv.1 ≠ "properties")
    (hm : props_inv (kv :: rest) result req) : props_inv rest result req := by
  have hfind : jfind (kv :: rest) "properties" = jfind rest "properties" := by
    rw [jfind, if_neg hne]
  have hkeys : "properties" ∉ jkeys (kv :: rest) →
      "properties" ∉ jkeys rest := by
    intro hnot hc
    refine hnot ?_
    rw [jkeys_cons]
    exact List.mem_cons_of_mem _ hc
  rcases hm with ⟨mm, hf, hs⟩ | ⟨hnk, hrd⟩ | ⟨hnk, hre⟩
  · refine Or.inl ⟨mm, ?_, hs⟩
    rw [← hfind]
    exact hf
  · exact Or.inr (Or.inl ⟨hkeys hnk, hrd⟩)
  · exact Or.inr (Or.inr ⟨hkeys hnk, hre⟩)

theorem props_inv_insert (kv : String × Json)
    (rest result : List (String × Json)) (req : List String) (r : Json)
    (hne : kv.1 ≠ "properties")
    (hm : props_inv (kv :: rest) result req) :
    props_inv rest (jinsert result kv.1 r) req := by
  rcases props_inv_tail kv rest result req hne hm with
    ⟨mm, hf, hs⟩ | ⟨hnk, res2, hf, hs⟩ | ⟨hnk, hre⟩
  · exact Or.inl ⟨mm, hf, hs⟩
  · refine Or.inr (Or.inl ⟨hnk, res2, ?_, hs⟩)
    rw [jfind_insert_ne result kv.1 "properties" r (Ne.symm hne)]
    exact hf
  · exact Or.inr (Or.inr ⟨hnk, hre⟩)

theorem resolve_object_go_required (recur : ResolveFn)
    (options : ResolveOptions) (path : String)
    (HR : ∀ v p out, shape_ok v = true → required_wf v = true →
      recur v options p = .ok out → required_out out = true) :
    ∀ (entries result : List (String × Json)) (req : List String)
      (out : List (String × Json)) (reqF : List String),
    allDiff (jkeys entries) = true →
    shape_entries entries = true →
    required_wf_entries entries = true →
    allDiff req = true →
    req.all (fun n => !isUcpKey n) = true →
    props_inv entries result req →
    required_out_entries result = true →
    resolve_object_go recur entries options path result req = .ok (out, reqF) →
    allDiff reqF = true ∧ reqF.all (fun n => !isUcpKey n) = true ∧
      required_out_entries out = true ∧
      ((∃ res2, jfind out "properties" = some (.obj res2) ∧
         (∀ n, n ∈ reqF → n ∈ jkeys res2)) ∨ reqF = [])
  | [], result, req, out, reqF, _, _, _, hd, hn, hinv, hres, h => by
    rw [resolve_object_go] at h
    cases h
    refine ⟨hd, hn, hres, ?_⟩
    rcases hinv with ⟨mm, hf, _⟩ | ⟨_, res2, hf, hsub⟩ | ⟨_, hre⟩
    · rw [jfind] at hf
      exact Option.noConfusion hf
    · exact Or.inl ⟨res2, hf, hsub⟩
    · exact Or.inr hre
  | kv :: rest, result, req, out, reqF, hdk, hs, hw, hd, hn, hinv, hres, h => by
    rw [jkeys_cons, allDiff_cons] at hdk
    rw [shape_entries, Bool.and_eq_true] at hs
    rw [required_wf_entries, Bool.and_eq_true] at hw
    obtain ⟨hkv, hsrest⟩ := hs
    obtain ⟨hwkv, hwrest⟩ := hw
    rcases resolve_object_go_cons_ok h with
      ⟨hu, hgo⟩ | ⟨hu, hk, hgo⟩ | ⟨hu, hk, pr1, pr2, hpr, hgo⟩ |
      ⟨hu, hk1, hk8, r, hgo, hsub⟩
    · have hne : kv.1 ≠ "properties" := by
        intro hc
        rw [hc] at hu
        exact absurd hu (by decide)
      exact resolve_object_go_required recur options path HR rest result req
        out reqF hdk.2 hsrest hwrest hd hn
        (props_inv_tail kv rest result req hne hinv) hres hgo
    · have hne : kv.1 ≠ "properties" := by
        rw [hk]
        decide
      exact resolve_object_go_required recur options path HR rest result req
        out reqF hdk.2 hsrest hwrest hd hn
        (props_inv_tail kv rest result req hne hinv) hres hgo
    · rcases hinv with ⟨mm, hf, hsubr⟩ | ⟨hnk, _⟩ | ⟨hnk, _⟩
      · have hkv2 : kv.2 = .obj mm := by
          rw [jfind, if_pos hk] at hf
          exact Option.some.inj hf
        rw [hk, if_neg (by decide), if_pos (by decide)] at hkv
        rw [hk, if_neg (by decide), if_pos (by decide)] at hwkv
        rw [hkv2] at hkv hwkv hpr
        rw [shape_members, Bool.and_eq_true, Bool.and_eq_true] at hkv
        rw [required_wf_members] at hwkv
        simp only [resolve_properties, Json.as_object] at hpr
        obtain ⟨rr, hgo2, hfin2⟩ := RRes.bind_ok hpr
        have hfin3 := RRes.ok.inj hfin2
        rw [Prod.mk.injEq] at hfin3
        obtain ⟨hp1, hp2⟩ := hfin3
        subst hp1
        subst hp2
        obtain ⟨hd2, hn2, hsub2, hvals2⟩ :=
          resolve_properties_go_required recur options (path ++ "/" ++ kv.1)
            HR mm req [] rr.1 rr.2 hkv.1.2 hkv.2 hwkv hd hn
            (fun n hn2 => Or.inl (hsubr n hn2)) rfl hgo2
        have hinv2 : props_inv rest (jinsert result kv.1 (.obj rr.1)) rr.2 := by
          refine Or.inr (Or.inl ⟨?_, rr.1, ?_, hsub2⟩)
          · rw [← hk]
            exact hdk.1
          · rw [hk]
            exact jfind_insert_self result "properties" (.obj rr.1)
        have hres2 : required_out_entries
            (jinsert result kv.1 (.obj rr.1)) = true := by
          refine required_out_entries_insert result kv.1 (.obj rr.1) hres ?_
          rw [hk, if_pos (by decide), required_out_members]
          exact hvals2
        exact resolve_object_go_required recur options path HR rest _ rr.2
          out reqF hdk.2 hsrest hwrest hd2 hn2 hinv2 hres2 hgo
      · exfalso
        refine hnk ?_
        rw [jkeys_cons]
        exact List.mem_cons.mpr (Or.inl hk.symm)
      · exfalso
        refine hnk ?_
        rw [jkeys_cons]
        exact List.mem_cons.mpr (Or.inl hk.symm)
    · have hinv2 := props_inv_insert kv rest result req r hk1 hinv
      have hnu : ¬(isUcpKey kv.1 = true) := by
        rw [hu]
        decide
      have hdone : (if kv.1 = "properties" ∨ kv.1 = "$defs" ∨
            kv.1 = "definitions" then required_out_members r
          else required_out r) = true →
          allDiff reqF = true ∧ reqF.all (fun n => !isUcpKey n) = true ∧
          required_out_entries out = true ∧
          ((∃ res2, jfind out "properties" = some (.obj res2) ∧
            (∀ n, n ∈ reqF → n ∈ jkeys res2)) ∨ reqF = []) := by
        intro hrv
        exact resolve_object_go_required recur options path HR rest _ req out
          reqF hdk.2 hsrest hwrest hd hn hinv2
          (required_out_entries_insert result kv.1 r hres hrv) hgo
      rcases hsub with ⟨hk2, hr⟩ | ⟨hk3, hr⟩ | ⟨hk4, hr⟩ | ⟨hk5, hr⟩ |
        ⟨hk6, hobj, hr⟩ | ⟨hk6, hobj, hreq⟩ |
        ⟨hne2, hne3a, hne3b, hne4, hne5a, hne5b, hne6, hr⟩
      · rw [hk2, if_neg (by decide), if_neg (by decide), if_neg (by decide),
          if_neg (by decide)] at hkv
        rw [hk2, if_neg (by decide), if_neg (by decide)] at hwkv
        refine hdone ?_
        rw [hk2, if_neg (by decide)]
        exact HR kv.2 _ r hkv hwkv hr
      · rcases hk3 with hk3 | hk3 <;>
          (rw [hk3, if_neg (by decide), if_pos (by decide)] at hkv;
           rw [hk3, if_neg (by decide), if_pos (by decide)] at hwkv;
           refine hdone ?_;
           rw [hk3, if_pos (by decide)];
           exact resolve_defs_required recur options _ HR kv.2 r hkv hwkv hr)
      · rw [hk4, if_neg (by decide), if_neg (by decide),
          if_pos (by decide)] at hkv
        rw [Bool.and_eq_true] at hkv
        rw [hk4, if_neg (by decide), if_neg (by decide)] at hwkv
        refine hdone ?_
        rw [hk4, if_neg (by decide)]
        exact resolve_allof_required recur options _ HR kv.2 r hkv.1 hkv.2
          hwkv hr
      · rcases hk5 with hk5 | hk5 <;>
          (rw [hk5, if_neg (by decide), if_neg (by decide),
             if_pos (by decide)] at hkv;
           rw [Bool.and_eq_true] at hkv;
           rw [hk5, if_neg (by decide), if_neg (by decide)] at hwkv;
           refine hdone ?_;
           rw [hk5, if_neg (by decide)];
           exact resolve_composition_required recur options _ HR kv.2 r hkv.1
             hkv.2 hwkv hr)
      · rw [hk6, if_neg (by decide), if_neg (by decide), if_neg (by decide),
          if_pos (by decide)] at hkv
        rw [Bool.and_eq_true] at hkv
        rw [hk6, if_neg (by decide), if_neg (by decide)] at hwkv
        refine hdone ?_
        rw [hk6, if_neg (by decide)]
        exact HR kv.2 _ r hkv.2 hwkv hr
      · rw [hk6, if_neg (by decide), if_neg (by decide), if_neg (by decide),
          if_pos (by decide)] at hkv
        rw [Bool.and_eq_true, Bool.not_eq_true'] at hkv
        refine hdone ?_
        rw [hk6, if_neg (by decide), hreq]
        exact required_out_primitive kv.2 hobj hkv.1
      · have hx3 : ¬(kv.1 = "properties" ∨ kv.1 = "$defs" ∨
            kv.1 = "definitions") := by
          rintro (hc | hc | hc)
          exacts [hk1 hc, hne3a hc, hne3b hc]
        have hx5 : ¬(kv.1 = "allOf" ∨ kv.1 = "anyOf" ∨ kv.1 = "oneOf") := by
          rintro (hc | hc | hc)
          exacts [hne4 hc, hne5a hc, hne5b hc]
        rw [if_neg hnu, if_neg hx3, if_neg hx5, if_neg hne6] at hkv
        rw [if_neg hnu, if_neg hx3] at hwkv
        refine hdone ?_
        rw [if_neg hx3]
        exact HR kv.2 _ r hkv hwkv hr

theorem resolve_object_required (recur : ResolveFn)
    (options : ResolveOptions) (path : String)
    (HR : ∀ v p out, shape_ok v = true → required_wf v = true →
      recur v options p = .ok out → required_out out = true)
    (map : List (String × Json)) (out : Json)
    (hs : shape_ok (.obj map) = true)
    (hw : required_wf (.obj map) = true)
    (h : resolve_object recur map options path = .ok out) :
    required_out out = true := by
  simp only [shape_ok, Bool.and_eq_true] at hs
  rw [required_wf, Bool.and_eq_true] at hw
  simp only [resolve_object] at h
  obtain ⟨rr, hgo, hfin⟩ := RRes.bind_ok h
  have hprops_shape : ∀ pv, jfind map "properties" = some pv →
      ∃ mm, pv = .obj mm := by
    intro pv hp
    have hsm := shape_entries_find_props map pv hs.2 hp
    cases pv with
    | obj mm => exact ⟨mm, rfl⟩
    | null => simp [shape_members] at hsm
    | bool b => simp [shape_members] at hsm
    | num n => simp [shape_members] at hsm
    | str s2 => simp [shape_members] at hsm
    | arr xs => simp [shape_members] at hsm
  have hinv_empty : props_inv map [] [] := by
    rcases hp : jfind map "properties" with _ | pv
    · exact Or.inr (Or.inr ⟨(jfind_eq_none_iff map "properties").mp hp, rfl⟩)
    · obtain ⟨mm, rfl⟩ := hprops_shape pv hp
      exact Or.inl ⟨mm, hp, fun n hn => absurd hn (List.not_mem_nil n)⟩
  have hsplit : required_strings map = [] ∨
      ∃ xs, jfind map "required" = some (.arr xs) ∧
        required_strings map = xs.filterMap Json.as_str := by
    rcases hr : jfind map "required" with _ | rv
    · refine Or.inl ?_
      rw [required_strings, hr]
    · cases rv with
      | arr xs =>
        refine Or.inr ⟨xs, rfl, ?_⟩
        rw [required_strings, hr]
      | null =>
        refine Or.inl ?_
        rw [required_strings, hr]
      | bool b =>
        refine Or.inl ?_
        rw [required_strings, hr]
      | num n =>
        refine Or.inl ?_
        rw [required_strings, hr]
      | str s2 =>
        refine Or.inl ?_
        rw [required_strings, hr]
      | obj o2 =>
        refine Or.inl ?_
        rw [required_strings, hr]
  have hinit : allDiff (required_strings map) = true ∧
      (required_strings map).all (fun n => !isUcpKey n) = true ∧
      props_inv map [] (required_strings map) := by
    rcases hsplit with he | ⟨xs, hr, he⟩
    · rw [he]
      exact ⟨rfl, rfl, hinv_empty⟩
    · obtain ⟨h1, h2, h3, h4⟩ := required_node_ok_arr hr hw.1
      rw [he]
      refine ⟨h2, h3, ?_⟩
      rcases hp : jfind map "properties" with _ | pv
      · rw [hp] at h4
        have h4b : (xs.filterMap Json.as_str).isEmpty = true := h4
        have he2 : xs.filterMap Json.as_str = [] := by
          cases hfm : xs.filterMap Json.as_str with
          | nil => rfl
          | cons a l =>
            rw [hfm] at h4b
            exact Bool.noConfusion h4b
        rw [he2]
        exact Or.inr (Or.inr ⟨(jfind_eq_none_iff map "properties").mp hp, rfl⟩)
      · obtain ⟨mm, rfl⟩ := hprops_shape pv hp
        rw [hp] at h4
        have h4b : (xs.filterMap Json.as_str).all
            (fun n => (jkeys mm).contains n) = true := h4
        refine Or.inl ⟨mm, hp, ?_⟩
        intro n hn
        rw [List.all_eq_true] at h4b
        have h5 := h4b n hn
        rw [contains_iff_mem] at h5
        exact h5
  obtain ⟨hd0, hn0, hinv0⟩ := hinit
  obtain ⟨hdF, hnF, houtE, hcF⟩ := resolve_object_go_required recur options
    path HR map [] (required_strings map) rr.1 rr.2 hs.1 hs.2 hw.2 hd0 hn0
    hinv0 rfl hgo
  by_cases hc : rr.2 ≠ [] ∨ jcontains map "required" = true
  · rw [if_pos hc] at hfin
    have h2 : Json.obj (jinsert rr.1 "required" (.arr (rr.2.map Json.str))) =
        out := RRes.ok.inj hfin
    rw [← h2, required_out, Bool.and_eq_true]
    constructor
    · refine required_node_ok_arr_intro (jfind_insert_self rr.1 "required" _)
        (map_str_all_isSome rr.2) ?_ ?_ ?_
      · rw [filterMap_as_str_map_str]
        exact hdF
      · rw [filterMap_as_str_map_str]
        exact hnF
      · rw [jfind_insert_ne rr.1 "required" "properties" _ (by decide)]
        rcases hcF with ⟨res2, hfp, hsubF⟩ | hemp
        · rw [hfp]
          show ((rr.2.map Json.str).filterMap Json.as_str).all
            (fun n => (jkeys res2).contains n) = true
          rw [filterMap_as_str_map_str, List.all_eq_true]
          intro n hn
          rw [contains_iff_mem]
          exact hsubF n hn
        · rw [hemp]
          rcases jfind rr.1 "properties" with _ | pv
          · rfl
          · cases pv <;> rfl
    · refine required_out_entries_insert rr.1 "required" _ houtE ?_
      rw [if_neg (by decide)]
      exact required_out_arr_strings rr.2
  · rw [if_neg hc] at hfin
    have h2 : Json.obj rr.1 = out := RRes.ok.inj hfin
    rw [← h2, required_out, Bool.and_eq_true]
    refine ⟨?_, houtE⟩
    have hkeys := resolve_object_go_keys recur options path map []
      (required_strings map) rr.1 rr.2 hs.1
      (fun k _ => by rw [jkeys_nil]; exact List.not_mem_nil k) hgo
    refine required_node_ok_not_arr ?_
    intro xs hcx
    have hmemx : "required" ∈ jkeys rr.1 := jfind_some_mem_keys hcx
    rw [hkeys, jkeys_nil, List.nil_append] at hmemx
    have h3 := List.of_mem_filter hmemx
    exact absurd h3 (by decide)

theorem resolve_value_required : ∀ (fuel : Nat) (v : Json)
    (options : ResolveOptions) (path : String) (out : Json),
    shape_ok v = true → required_wf v = true →
    resolve_value fuel v options path = .ok out →
    required_out out = true := by
  intro fuel
  induction fuel with
  | zero =>
    intro v options path out _ _ h
    rw [resolve_value] at h
    exact RRes.noConfusion h
  | succ fuel ih =>
    intro v options path out hs hw h
    cases v with
    | obj map =>
      exact resolve_object_required (resolve_value fuel) options path
        (fun v2 p2 out2 hs2 hw2 h2 => ih v2 options p2 out2 hs2 hw2 h2)
        map out hs hw h
    | arr xs =>
      have h0 : resolve_array (resolve_value fuel) xs options path =
          .ok out := h
      simp only [resolve_array] at h0
      obtain ⟨rs, hrs, hfin⟩ := RRes.bind_ok h0
      have h2 : Json.arr rs = out := RRes.ok.inj hfin
      rw [← h2, required_out]
      simp only [shape_ok] at hs
      rw [required_wf] at hw
      exact resolve_array_go_required (resolve_value fuel) options path
        (fun v2 p2 out2 hs2 hw2 h2 => ih v2 options p2 out2 hs2 hw2 h2)
        xs 0 rs hs hw hrs
    | null =>
      have h2 : Json.null = out := RRes.ok.inj h
      rw [← h2]
      rfl
    | bool b =>
      have h2 : Json.bool b = out := RRes.ok.inj h
      rw [← h2]
      rfl
    | num n =>
      have h2 : Json.num n = out := RRes.ok.inj h
      rw [← h2]
      rfl
    | str s2 =>
      have h2 : Json.str s2 = out := RRes.ok.inj h
      rw [← h2]
      rfl

theorem jkeys_close_map_values : ∀ kvs : List (String × Json),
    jkeys (close_map_values kvs) = jkeys kvs
  | [] => rfl
  | kv :: rest => by
    rw [close_map_values, jkeys_cons, jkeys_cons]
    rw [jkeys_close_map_values rest]

theorem close_entry_transform_required (v : Json) :
    close_entry_transform "required" v = v := by
  simp only [close_entry_transform]
  rw [if_neg (by decide), if_neg (by decide), if_neg (by decide),
    if_neg (by decide)]

theorem required_node_ok_close (kvs : List (String × Json))
    (h : required_node_ok kvs = true) :
    required_node_ok (close_entries kvs) = true := by
  rcases hr : jfind kvs "required" with _ | rv
  · refine required_node_ok_not_arr ?_
    intro xs hc
    rw [jfind_close_entries, hr] at hc
    exact Option.noConfusion hc
  · cases rv with
    | arr xs =>
      obtain ⟨h1, h2, h3, h4⟩ := required_node_ok_arr hr h
      have hfr : jfind (close_entries kvs) "required" = some (.arr xs) := by
        rw [jfind_close_entries, hr]
        show some (close_entry_transform "required" (.arr xs)) = some (.arr xs)
        rw [close_entry_transform_required]
      refine required_node_ok_arr_intro hfr h1 h2 h3 ?_
      rw [jfind_close_entries kvs "properties"]
      rcases hp : jfind kvs "properties" with _ | pv
      · rw [hp] at h4
        exact h4
      · rw [hp] at h4
        cases pv with
        | obj props =>
          have h4b : (xs.filterMap Json.as_str).all
              (fun n => (jkeys props).contains n) = true := h4
          show (xs.filterMap Json.as_str).all
            (fun n => (jkeys (close_map_values props)).contains n) = true
          rw [jkeys_close_map_values]
          exact h4b
        | null => exact h4
        | bool b => exact h4
        | num n2 => exact h4
        | str s2 => exact h4
        | arr ys => exact h4
    | null =>
      refine required_node_ok_not_arr ?_
      intro xs hc
      rw [jfind_close_entries, hr] at hc
      exact Json.noConfusion (Option.some.inj hc)
    | bool b =>
      refine required_node_ok_not_arr ?_
      intro xs hc
      rw [jfind_close_entries, hr] at hc
      exact Json.noConfusion (Option.some.inj hc)
    | num n2 =>
      refine required_node_ok_not_arr ?_
      intro xs hc
      rw [jfind_close_entries, hr] at hc
      exact Json.noConfusion (Option.some.inj hc)
    | str s2 =>
      refine required_node_ok_not_arr ?_
      intro xs hc
      rw [jfind_close_entries, hr] at hc
      exact Json.noConfusion (Option.some.inj hc)
    | obj o2 =>
      refine required_node_ok_not_arr ?_
      intro xs hc
      rw [jfind_close_entries, hr] at hc
      exact Json.noConfusion (Option.some.inj hc)

mutual
/-- The strict closer preserves the output-side `required` invariant. -/
theorem required_out_close_inner : ∀ (v : Json) (b : Bool),
    required_out v = true →
    required_out (close_additional_properties_inner v b) = true
  | .obj kvs, b, h => by
    rw [required_out, Bool.and_eq_true] at h
    have hN := required_node_ok_close kvs h.1
    have hE := required_out_close_entries kvs h.2
    simp only [close_additional_properties_inner]
    split
    · split
      · split
        · rw [required_out, Bool.and_eq_true]
          constructor
          · rw [required_node_ok_insert_other _ _ _ (by decide) (by decide)]
            exact hN
          · refine required_out_entries_insert _ _ _ hE ?_
            rw [if_neg (by decide)]
            rfl
        · rw [required_out, Bool.and_eq_true]
          constructor
          · rw [required_node_ok_insert_other _ _ _ (by decide) (by decide)]
            exact hN
          · refine required_out_entries_insert _ _ _ hE ?_
            rw [if_neg (by decide)]
            rfl
        · rw [required_out, Bool.and_eq_true]
          exact ⟨hN, hE⟩
      · split
        · rw [required_out, Bool.and_eq_true]
          constructor
          · rw [required_node_ok_insert_other _ _ _ (by decide) (by decide)]
            exact hN
          · refine required_out_entries_insert _ _ _ hE ?_
            rw [if_neg (by decide)]
            rfl
        · rw [required_out, Bool.and_eq_true]
          constructor
          · rw [required_node_ok_insert_other _ _ _ (by decide) (by decide)]
            exact hN
          · refine required_out_entries_insert _ _ _ hE ?_
            rw [if_neg (by decide)]
            rfl
        · rw [required_out, Bool.and_eq_true]
          exact ⟨hN, hE⟩
    · rw [required_out, Bool.and_eq_true]
      exact ⟨hN, hE⟩
  | .null, _, h => h
  | .bool b, _, h => h
  | .num n, _, h => h
  | .str s2, _, h => h
  | .arr xs, _, h => h

/-- Entry walk of the closer preserves `required_out_entries`. -/
theorem required_out_close_entries : ∀ kvs : List (String × Json),
    required_out_entries kvs = true →
    required_out_entries (close_entries kvs) = true
  | [], h => h
  | kv :: rest, h => by
    rw [required_out_entries, Bool.and_eq_true] at h
    simp only [close_entries, required_out_entries, Bool.and_eq_true]
    refine ⟨?_, required_out_close_entries rest h.2⟩
    have h1 := h.1
    by_cases hg : kv.1 = "properties" ∨ kv.1 = "$defs" ∨ kv.1 = "definitions"
    · rw [if_pos hg] at h1 ⊢
      rcases hg with hg1 | hg2 | hg2
      · rw [hg1, if_pos (by decide)]
        exact required_out_members_close kv.2 h1
      · rw [hg2, if_neg (by decide), if_neg (by decide), if_pos (by decide)]
        exact required_out_members_close kv.2 h1
      · rw [hg2, if_neg (by decide), if_neg (by decide), if_pos (by decide)]
        exact required_out_members_close kv.2 h1
    · rw [if_neg hg] at h1 ⊢
      have hg1 : kv.1 ≠ "properties" := fun hc => hg (Or.inl hc)
      have hg3 : ¬(kv.1 = "$defs" ∨ kv.1 = "definitions") :=
        fun hc => hg (Or.inr hc)
      rw [if_neg hg1]
      by_cases h2c : kv.1 = "items" ∨ kv.1 = "additionalProperties" ∨
          kv.1 = "unevaluatedProperties"
      · rw [if_pos h2c]
        exact required_out_close_inner kv.2 false h1
      · rw [if_neg h2c, if_neg hg3]
        by_cases h4c : kv.1 = "allOf" ∨ kv.1 = "anyOf" ∨ kv.1 = "oneOf"
        · rw [if_pos h4c]
          exact required_out_close_branches kv.2 h1
        · rw [if_neg h4c]
          exact h1

/-- Member-map walk of the closer preserves `required_out_members`. -/
theorem required_out_members_close : ∀ v : Json,
    required_out_members v = true →
    required_out_members (close_map_json v) = true
  | .obj kvs, h => by
    rw [required_out_members] at h
    simp only [close_map_json, required_out_members]
    exact required_out_values_close kvs h
  | .null, h => h
  | .bool b, h => h
  | .num n, h => h
  | .str s2, h => h
  | .arr xs, h => h

/-- Member values of a walked map keep `required_out`. -/
theorem required_out_values_close : ∀ kvs : List (String × Json),
    required_out_values kvs = true →
    required_out_values (close_map_values kvs) = true
  | [], h => h
  | kv :: rest, h => by
    rw [required_out_values, Bool.and_eq_true] at h
    simp only [close_map_values, required_out_values, Bool.and_eq_true]
    exact ⟨required_out_close_inner kv.2 false h.1,
      required_out_values_close rest h.2⟩

/-- Composition walk of the closer preserves `required_out`. -/
theorem required_out_close_branches : ∀ v : Json, required_out v = true →
    required_out (close_branches_json v) = true
  | .arr xs, h => by
    rw [required_out] at h
    simp only [close_branches_json, required_out]
    exact required_out_branch_list_close xs h
  | .null, h => h
  | .bool b, h => h
  | .num n, h => h
  | .str s2, h => h
  | .obj kvs, h => h

/-- Elements of a walked composition array keep `required_out`. -/
theorem required_out_branch_list_close : ∀ xs : List Json,
    required_out_list xs = true →
    required_out_list (close_branch_list xs) = true
  | [], h => h
  | v :: rest, h => by
    rw [required_out_list, Bool.and_eq_true] at h
    simp only [close_branch_list, required_out_list, Bool.and_eq_true]
    exact ⟨required_out_close_inner v true h.1,
      required_out_branch_list_close rest h.2⟩
end

/-- C3 counterexample: a duplicate entry in an input `required` array is
filtered only against omitted properties and UCP keys, never deduplicated,
so the duplicate survives into the output: the resolver preserves the
invariant but does not enforce it on arbitrary inputs. -/
theorem C3_counterexample :
    resolve 10 (.obj c3_entries) (ResolveOptions.new .Request "create") =
      .ok (.obj [("properties", .obj [("a", .obj [("type", .str "string")])]),
        ("required", .arr [.str "a", .str "a"])]) ∧
    required_out (.obj [("properties", .obj [("a", .obj
      [("type", .str "string")])]),
      ("required", .arr [.str "a", .str "a"])]) = false :=
  ⟨rfl, rfl⟩

/-- **C3 (amended).** The resolver preserves the `required` invariant but
does not establish it: on an input whose own `required` arrays are already
duplicate-free, non-UCP, and name only keys of the sibling `properties`
map (`required_wf`), and which is structurally well-shaped (`shape_ok`),
every `required` array of a successful output is an array of strings
without duplicates naming only keys of the sibling `properties` map
(`required_out`). On arbitrary inputs the claim fails: an input duplicate
survives to the output (see the counterexample). -/
theorem C3_required (fuel : Nat) (schema : Json) (options : ResolveOptions)
    (out : Json) (hs : shape_ok schema = true)
    (hw : required_wf schema = true)
    (h : resolve fuel schema options = .ok out) :
    required_out out = true := by
  simp only [resolve] at h
  obtain ⟨mid, hmid, hfin⟩ := RRes.bind_ok h
  have hm : required_out mid = true :=
    resolve_value_required fuel schema options "" mid hs hw hmid
  by_cases hst : options.strict = true
  · rw [hst] at hfin
    have h2 : close_additional_properties mid = out := RRes.ok.inj hfin
    rw [← h2]
    exact required_out_close_inner mid false hm
  · have hst2 : options.strict = false := by
      rw [Bool.not_eq_true] at hst
      exact hst
    rw [hst2] at hfin
    have h2 : mid = out := RRes.ok.inj hfin
    rw [← h2]
    exact hm

/-- Witness for the amended C3 at a concrete well-formed input. -/
theorem C3_required_witness :
    shape_ok (.obj [("type", Json.str "object"),
      ("required", .arr [.str "a"]),
      ("properties", .obj [("a", .obj [("type", .str "string")])])]) = true ∧
    required_wf (.obj [("type", Json.str "object"),
      ("required", .arr [.str "a"]),
      ("properties", .obj [("a", .obj [("type", .str "string")])])]) = true ∧
    resolve 10 (.obj [("type", Json.str "object"),
      ("required", .arr [.str "a"]),
      ("properties", .obj [("a", .obj [("type", .str "string")])])])
      (ResolveOptions.new .Request "create") =
      .ok (.obj [("type", Json.str "object"),
        ("properties", .obj [("a", .obj [("type", .str "string")])]),
        ("required", .arr [.str "a"])]) ∧
    required_out (.obj [("type", Json.str "object"),
      ("properties", .obj [("a", .obj [("type", .str "string")])]),
      ("required", .arr [.str "a"])]) = true :=
  ⟨rfl, rfl, rfl, C3_required 10 (.obj [("type", Json.str "object"),
      ("required", .arr [.str "a"]),
      ("properties", .obj [("a", .obj [("type", .str "string")])])])
    (ResolveOptions.new .Request "create")
    (.obj [("type", Json.str "object"),
      ("properties", .obj [("a", .obj [("type", .str "string")])]),
      ("required", .arr [.str "a"])]) rfl rfl rfl⟩

end UcpSchema
